import Mathlib

/-!
# go-checktest: the checker of untested exported functions

A shallow embedding of `checker/checker.go`.  The Go standard library the
checker is built on (`go/ast`, `go/parser`, `go/token`, `path/filepath`,
`strings`, `unicode`) is modelled as far as the checker observes it.

* Go strings are byte sequences; a name is a Lean string read through its
  UTF-8 encoding (`goBytes`).
* A Go map is an association list with distinct keys; a `range` over a map
  visits its entries in an order chosen by a `RangeOrder`, and every theorem
  holds for every such order.
* A run-time panic is the `Except.error` of `Except Panic`; the two results
  `([]*CheckerResult, error)` of a Go function are a pair of options, `none`
  being Go's `nil`.
* The syntax trees are those `go/parser` returns without an error: a function
  declaration may lack a body (`Body == nil`), a function literal never does.
-/

set_option autoImplicit false

namespace Checktest

/-! ## Strings -/

/-- The bytes of a Go string. -/
def goBytes (s : String) : List Nat :=
  s.toUTF8.data.toList.map UInt8.toNat

/-- Go `strings.HasPrefix(s, pre)`: the bytes of `pre` start the bytes of `s`. -/
def hasPrefix (s pre : String) : Bool :=
  (goBytes pre).isPrefixOf (goBytes s)

/-- Go `strings.HasSuffix(s, suf)`. -/
def hasSuffix (s suf : String) : Bool :=
  (goBytes suf).isSuffixOf (goBytes s)

/-- Go `unicode.IsUpper(r)` for `r ≤ unicode.MaxLatin1`: the entries of the
`properties` table whose letter bits are exactly `pLu`, which are `A`-`Z`,
`À`-`Ö` and `Ø`-`Þ`. -/
def isUpperLatin1 (r : Nat) : Bool :=
  (0x41 ≤ r && r ≤ 0x5A) || (0xC0 ≤ r && r ≤ 0xD6) || (0xD8 ≤ r && r ≤ 0xDE)

/-- A run-time panic of the Go program. -/
inductive Panic where
  | indexOutOfRange
  | nilDereference
  deriving DecidableEq, Repr

/-! ## Maps -/

/-- A Go map: an association list whose keys are kept distinct by `insert`. -/
abbrev GoMap (κ α : Type) := List (κ × α)

/-- The keys of a map. -/
def GoMap.keys {κ α : Type} (m : GoMap κ α) : List κ :=
  m.map Prod.fst

/-- Go `m[k] = v`: the entry for `k` is replaced, or added. -/
def GoMap.insert {κ α : Type} [DecidableEq κ] (m : GoMap κ α) (k : κ) (v : α) : GoMap κ α :=
  m.filter (fun e => decide (e.1 ≠ k)) ++ [(k, v)]

/-- Go `v, found := m[k]`. -/
def GoMap.lookup {κ α : Type} [DecidableEq κ] (m : GoMap κ α) (k : κ) : Option α :=
  (m.find? (fun e => decide (e.1 = k))).map Prod.snd

/-- The order in which `for k, v := range m` visits the entries of a map: some
permutation of them, which Go leaves unspecified. -/
structure RangeOrder where
  /-- The entries in the order visited. -/
  visit : {κ α : Type} → GoMap κ α → List (κ × α)
  /-- Every entry is visited exactly once. -/
  visit_perm : ∀ {κ α : Type} (m : GoMap κ α), (visit m).Perm m

/-- The order that visits the entries as they are stored. -/
def RangeOrder.stored : RangeOrder where
  visit := fun m => m
  visit_perm := fun m => List.Perm.refl m

/-- The order that visits the entries last to first. -/
def RangeOrder.reversed : RangeOrder where
  visit := fun m => m.reverse
  visit_perm := fun m => List.reverse_perm m

/-! ## Syntax trees (`go/ast`) -/

/-- A node of a Go syntax tree below a function body.  The four kinds of node
the checker tells apart have their own constructor; every other kind of
statement or expression is `other` with its non-nil children in the order
`ast.Walk` visits them. -/
inductive Node where
  /-- An `*ast.Ident`. -/
  | ident (name : String)
  /-- An `*ast.SelectorExpr` `x.sel`; `sel` is the `Name` of its `Sel`. -/
  | selectorExpr (x : Node) (sel : String)
  /-- An `*ast.CallExpr` with its `Fun` and its `Args`. -/
  | callExpr (fn : Node) (args : List Node)
  /-- An `*ast.FuncLit` with its `Type` and the `List` of its `Body`. -/
  | funcLit (typ : Node) (body : List Node)
  /-- An `*ast.BlockStmt` with its `List`. -/
  | blockStmt (list : List Node)
  /-- Any other node. -/
  | other (children : List Node)
  deriving Repr

/-- A file path: the list of its elements.  `filepath.Join(dir, name)` is
`dir ++ [name]`. -/
abbrev Path := List String

/-- A `token.Position`. -/
structure Position where
  Filename : Path
  Line : Nat
  Column : Nat
  deriving DecidableEq, Repr

/-- A `token.Pos` of a parsed file, modelled by what the file set knows of it:
the file it lies in, its line and its column there, and `Adjusted`, the
position that a `//line` directive in force at that place puts in their stead
(with the file name as the scanner resolved it: cleaned, and joined to the
directory of the file when relative). -/
structure Pos where
  Filename : Path
  Line : Nat
  Column : Nat
  Adjusted : Option Position
  deriving DecidableEq, Repr

/-- A `*token.FileSet`: the files added to it. -/
structure FileSet where
  files : List Path
  deriving Repr

/-- Go `fileSet.Position(p)`, which is `PositionFor(p, true)`: the position
adjusted by the `//line` directive in force at `p`, if there is one, and the
position in the file otherwise. -/
def FileSet.Position (_fileSet : FileSet) (p : Pos) : Position :=
  match p.Adjusted with
  | some q => q
  | none => { Filename := p.Filename, Line := p.Line, Column := p.Column }

/-- An `*ast.Ident` in declaring position. -/
structure Ident where
  NamePos : Pos
  Name : String
  deriving Repr

/-- An `*ast.FuncType`: `Func` is the position of the `func` keyword. -/
structure FuncType where
  Func : Pos
  deriving Repr

/-- An `*ast.FuncDecl`.  `Recv` is the receiver of a method and `none` for a
function; `Name` is `none` for a nil `Name`; `Typ` is the field `Type`; `Body`
is the `List` of the body block, and `none` for a nil `Body`: the parser
accepts a declaration without a body, such as `func TestAdd(t *T)`. -/
structure FuncDecl where
  Recv : Option Node
  Name : Option Ident
  Typ : FuncType
  Body : Option (List Node)
  deriving Repr

/-- Go `(*ast.FuncDecl).Pos()`: the position of the declaration is that of its
type, `d.Type.Pos()`, which is the `func` keyword. -/
def FuncDecl.Pos (d : FuncDecl) : Pos := d.Typ.Func

/-- A top-level declaration: a `*ast.FuncDecl`, or any other (`*ast.GenDecl`,
`*ast.BadDecl`). -/
inductive Decl where
  | funcDecl (d : FuncDecl)
  | otherDecl
  deriving Repr

/-- An `*ast.File`: the package name and the top-level declarations. -/
structure File where
  Name : String
  Decls : List Decl
  deriving Repr

/-- An `*ast.Package`: `Files` is keyed by file name. -/
structure Package where
  Name : String
  Files : GoMap Path File

instance : Inhabited Node := ⟨.ident ""⟩

instance : Inhabited File := ⟨{ Name := "", Decls := [] }⟩

instance : Inhabited Package := ⟨{ Name := "", Files := [] }⟩

/-! ## `ast.Inspect` -/

/-- The visit of a node without children: `f` is called on the node and, when it
answers true, on nil. -/
def inspectLeaf {σ : Type} (f : Option Node → σ → Bool × σ) (n : Node) (s : σ) : σ :=
  let r := f (some n) s
  if r.1 then (f none r.2).2 else r.2

mutual
/-- Go `ast.Inspect(n, f)`, depth first: `f` is called on `n`; when it answers
true the children of `n` are inspected in order and `f` is called on nil.  The
variables `f` captures are the state `σ`. -/
def Inspect {σ : Type} (f : Option Node → σ → Bool × σ) : Node → σ → σ
  | .ident name, s => inspectLeaf f (.ident name) s
  | .selectorExpr x sel, s =>
    let r := f (some (.selectorExpr x sel)) s
    if r.1 then (f none (inspectLeaf f (.ident sel) (Inspect f x r.2))).2 else r.2
  | .callExpr fn args, s =>
    let r := f (some (.callExpr fn args)) s
    if r.1 then (f none (inspectList f args (Inspect f fn r.2))).2 else r.2
  | .funcLit typ body, s =>
    let r := f (some (.funcLit typ body)) s
    if r.1 then
      let s1 := Inspect f typ r.2
      let rb := f (some (.blockStmt body)) s1
      let s2 := if rb.1 then (f none (inspectList f body rb.2)).2 else rb.2
      (f none s2).2
    else r.2
  | .blockStmt list, s =>
    let r := f (some (.blockStmt list)) s
    if r.1 then (f none (inspectList f list r.2)).2 else r.2
  | .other children, s =>
    let r := f (some (.other children)) s
    if r.1 then (f none (inspectList f children r.2)).2 else r.2
termination_by structural n => n
/-- The inspection of a list of children, first to last. -/
def inspectList {σ : Type} (f : Option Node → σ → Bool × σ) : List Node → σ → σ
  | [], s => s
  | n :: ns, s => inspectList f ns (Inspect f n s)
termination_by structural l => l
end

/-! ## The coverage decider -/

/-- Go `isFunctionCalledInBlock`: the callback sets `found` at the first call
whose `Fun` is an identifier named `targetFuncName`. -/
def isFunctionCalledInBlock (block : List Node) (targetFuncName : String) : Bool :=
  Inspect (fun n found =>
    match n with
    | some (.callExpr (.ident name) _) =>
      if name = targetFuncName then (false, true) else (true, found)
    | _ => (true, found)) (.blockStmt block) false

/-- Go `isRunCall`, on a call expression: its `Fun` is a selector whose `Sel` is
named `Run`. -/
def isRunCall : Node → Bool
  | .callExpr (.selectorExpr _ sel) _ => decide (sel = "Run")
  | _ => false

/-- Go `isCalledInRun`: the callback looks at every call expression of the body
of `testFunc`; at a `Run` call with two or more arguments whose second is a
function literal it searches the body of the literal.  The state is the
captured variable `found`, or the panic that has unwound the inspection: the
index expression `callExpr.Args[1]` panics when there is no second argument.

On a nil `Body`, `ast.Inspect` is handed a nil `*ast.BlockStmt`: the callback
is called on it, finds no call expression and answers true, and `ast.Walk`
then reads the field `List` through the nil pointer, which panics. -/
def isCalledInRun (testFunc : FuncDecl) (targetFuncName : String) : Except Panic Bool :=
  match testFunc.Body with
  | none => .error .nilDereference
  | some body =>
    Inspect (fun n st =>
      match st with
      | .error p => (false, .error p)
      | .ok found =>
        match n with
        | some (.callExpr fn args) =>
          if isRunCall (.callExpr fn args) then
            if 2 ≤ args.length then
              match args.get? 1 with
              | none => (false, .error .indexOutOfRange)
              | some (.funcLit _ lit) =>
                if isFunctionCalledInBlock lit targetFuncName then (false, .ok true)
                else (true, .ok found)
              | some _ => (true, .ok found)
            else (true, .ok found)
          else (true, .ok found)
        | _ => (true, .ok found)) (.blockStmt body) (.ok false)

/-- The loop of `isTested` over the test functions in the order visited.
`funcDecl.Name.Name` is evaluated at each test function and panics on a nil
`Name`. -/
def isTestedLoop (funcDecl : FuncDecl) : List (String × FuncDecl) → Except Panic Bool
  | [] => .ok false
  | (_, testFunc) :: rest =>
    match funcDecl.Name with
    | none => .error .nilDereference
    | some id =>
      match isCalledInRun testFunc id.Name with
      | .error p => .error p
      | .ok true => .ok true
      | .ok false => isTestedLoop funcDecl rest

/-- Go `isTested`. -/
def isTested (ord : RangeOrder) (funcDecl : FuncDecl) (testFuncs : GoMap String FuncDecl) :
    Except Panic Bool :=
  isTestedLoop funcDecl (ord.visit testFuncs)

/-! ## The declaration classifier and `checkPackage` -/

/-- A `*CheckerResult`. -/
structure CheckerResult where
  FileName : Path
  Line : Nat
  Column : Nat
  Message : String
  deriving DecidableEq, Repr

/-- The two tables `checkPackage` builds. -/
structure Tables where
  testFuncs : GoMap String FuncDecl
  publicFuncs : GoMap String FuncDecl

/-- The body of the loop over `file.Decls`: a declaration that is no function,
or has a nil name, is passed over; a name starting with `Test` goes to
`testFuncs`; otherwise the byte `funcName[0]` (a panic on the empty name) is
converted to a rune and, when upper case, the name goes to `publicFuncs`. -/
def classifyDecl (tb : Tables) : Decl → Except Panic Tables
  | .otherDecl => .ok tb
  | .funcDecl funcDecl =>
    match funcDecl.Name with
    | none => .ok tb
    | some id =>
      let funcName := id.Name
      if hasPrefix funcName "Test" then
        .ok { tb with testFuncs := tb.testFuncs.insert funcName funcDecl }
      else
        match (goBytes funcName).head? with
        | none => .error .indexOutOfRange
        | some b =>
          if isUpperLatin1 b then
            .ok { tb with publicFuncs := tb.publicFuncs.insert funcName funcDecl }
          else .ok tb

/-- The loop over the declarations of one file. -/
def classifyDecls (tb : Tables) : List Decl → Except Panic Tables
  | [] => .ok tb
  | d :: ds =>
    match classifyDecl tb d with
    | .error p => .error p
    | .ok tb1 => classifyDecls tb1 ds

/-- The loop over the files of a package, in the order visited. -/
def classifyFiles (tb : Tables) : List (Path × File) → Except Panic Tables
  | [] => .ok tb
  | (_, file) :: fs =>
    match classifyDecls tb file.Decls with
    | .error p => .error p
    | .ok tb1 => classifyFiles tb1 fs

/-- Lines 89-110 of `checkPackage`: both tables start empty. -/
def classify (ord : RangeOrder) (pkg : Package) : Except Panic Tables :=
  classifyFiles { testFuncs := [], publicFuncs := [] } (ord.visit pkg.Files)

/-- The message of a finding: `fmt.Sprintf` with the name at `%s`. -/
def untestedMessage (funcName : String) : String :=
  "関数 " ++ funcName ++ " にテストが実装されていません"

/-- The result built at lines 116-121. -/
def mkResult (fileSet : FileSet) (funcName : String) (funcDecl : FuncDecl) : CheckerResult where
  FileName := (fileSet.Position funcDecl.Pos).Filename
  Line := (fileSet.Position funcDecl.Pos).Line
  Column := (fileSet.Position funcDecl.Pos).Column
  Message := untestedMessage funcName

/-- The loop of lines 114-124 over `publicFuncs` in the order visited. -/
def reportLoop (ord : RangeOrder) (fileSet : FileSet) (testFuncs : GoMap String FuncDecl) :
    List (String × FuncDecl) → List CheckerResult → Except Panic (List CheckerResult)
  | [], results => .ok results
  | (funcName, funcDecl) :: rest, results =>
    match isTested ord funcDecl testFuncs with
    | .error p => .error p
    | .ok tested =>
      if !tested then
        reportLoop ord fileSet testFuncs rest (results ++ [mkResult fileSet funcName funcDecl])
      else reportLoop ord fileSet testFuncs rest results

/-- A Go error value, as far as the checker meets it. -/
inductive GoError where
  /-- An `*fs.PathError`, the error of `os.Lstat`, `os.Open` and of reading a
  directory: the operation `Op`, the `Path` it was applied to, and `Err`, the
  error of the system call, which it wraps. -/
  | pathError (op : String) (path : Path) (err : String)
  /-- A syntax error reported by `parser.ParseFile`. -/
  | parse (msg : String)
  /-- Line 45: `fmt.Errorf` naming the directory `path` and wrapping `cause`. -/
  | directory (path : Path) (cause : GoError)
  /-- Line 79: `fmt.Errorf` naming the package and wrapping `cause`. -/
  | package (name : String) (cause : GoError)
  deriving DecidableEq, Repr

/-- The two results of a Go function returning `([]*CheckerResult, error)`. -/
abbrev Returned := Option (List CheckerResult) × Option GoError

/-- Go `checkPackage`. -/
def checkPackage (ord : RangeOrder) (pkg : Package) (fileSet : FileSet) : Except Panic Returned :=
  match classify ord pkg with
  | .error p => .error p
  | .ok tb =>
    match reportLoop ord fileSet tb.testFuncs (ord.visit tb.publicFuncs) [] with
    | .error p => .error p
    | .ok results => .ok (some results, none)

/-! ## The directory tree, `parser.ParseDir` and `checkDirectory` -/

/-- The failure of reading a directory: the operation that fails (`open`,
`readdirent`) and the error of the system call. -/
structure ReadError where
  Op : String
  Err : String
  deriving DecidableEq, Repr

/-- An entry of the file system as the checker observes it.

* `file`: anything `os.Lstat` does not report as a directory, with what
  `parser.ParseFile` returns on it: a syntax tree, or an error.  The positions
  stored in the tree give line and column; `parseFile` stamps the file name.
* `dir`: a directory with the failure of reading its entries, if any, and its
  entries in the order `os.ReadDir` lists them (sorted by name).
* `broken`: an entry on which `os.Lstat` fails with the system error `err`;
  `isDir` is what the directory listing says of it. -/
inductive FsEntry where
  | file (name : String) (content : Except GoError File)
  | dir (name : String) (readErr : Option ReadError) (entries : List FsEntry)
  | broken (name : String) (isDir : Bool) (err : String)

instance : Inhabited FsEntry := ⟨.dir "" none []⟩

/-- Go `info.Name()` and `d.Name()`. -/
def FsEntry.name : FsEntry → String
  | .file name _ => name
  | .dir name _ _ => name
  | .broken name _ _ => name

/-- Go `info.IsDir()` and `d.IsDir()`. -/
def FsEntry.isDir : FsEntry → Bool
  | .file _ _ => false
  | .dir _ _ _ => true
  | .broken _ isDir _ => isDir

/-- The `filter` closure of `checkDirectory` (lines 62-67). -/
def filter (info : FsEntry) : Bool :=
  let name := info.name
  !info.isDir && !hasPrefix name "." && hasSuffix name ".go"

/-- A declaration as `parser.ParseFile(fset, filename, ...)` returns it: its
positions lie in the file `filename`. -/
def stampDecl (filename : Path) : Decl → Decl
  | .otherDecl => .otherDecl
  | .funcDecl d =>
    .funcDecl { d with
      Name := d.Name.map (fun id => { id with NamePos := { id.NamePos with Filename := filename } })
      Typ := { Func := { d.Typ.Func with Filename := filename } } }

/-- Go `parser.ParseFile(fset, filename, nil, mode)` on the content of a file. -/
def parseFile (filename : Path) (content : Except GoError File) : Except GoError File :=
  match content with
  | .error e => .error e
  | .ok src => .ok { src with Decls := src.Decls.map (stampDecl filename) }

/-- The body of the loop of `parser.ParseDir` when `ParseFile` succeeds: the
file is added to the package of its name, which is created when missing. -/
def addFile (pkgs : GoMap String Package) (filename : Path) (src : File) : GoMap String Package :=
  let pkg : Package :=
    match pkgs.lookup src.Name with
    | some pkg => pkg
    | none => { Name := src.Name, Files := [] }
  pkgs.insert src.Name { pkg with Files := pkg.Files.insert filename src }

/-- The loop of Go `parser.ParseDir(fset, path, filter, mode)` over the listed
entries: directories and names not ending in `.go` are passed over, then
entries the filter refuses; a failing `d.Info()` ends the loop with no
packages; the first error of `ParseFile` is kept and the loop goes on. -/
def parseDirLoop (path : Path) :
    List FsEntry → GoMap String Package → Option GoError →
      Option (GoMap String Package) × Option GoError
  | [], pkgs, first => (some pkgs, first)
  | d :: rest, pkgs, first =>
    if d.isDir || !hasSuffix d.name ".go" then parseDirLoop path rest pkgs first
    else
      match d with
      | .broken name _ err => (none, some (.pathError "lstat" (path ++ [name]) err))
      | .dir _ _ _ => parseDirLoop path rest pkgs first
      | .file name content =>
        if !filter (.file name content) then parseDirLoop path rest pkgs first
        else
          match parseFile (path ++ [name]) content with
          | .ok src => parseDirLoop path rest (addFile pkgs (path ++ [name]) src) first
          | .error e =>
            parseDirLoop path rest pkgs (match first with | none => some e | some f => some f)

/-- Go `parser.ParseDir` on the entry found at `path`: `os.ReadDir` fails on
what is not a readable directory. -/
def parseDir (path : Path) : FsEntry → Option (GoMap String Package) × Option GoError
  | .dir _ (some e) _ => (none, some (.pathError e.Op path e.Err))
  | .dir _ none entries => parseDirLoop path entries [] none
  | .file _ _ => (none, some (.pathError "open" path "not a directory"))
  | .broken _ _ err => (none, some (.pathError "open" path err))

/-- The files `parser.ParseDir` adds to the file set. -/
def parsedFiles (path : Path) (entries : List FsEntry) : List Path :=
  (entries.filter (fun d => !d.isDir && hasSuffix d.name ".go" && filter d)).map
    (fun d => path ++ [d.name])

/-- The loop of lines 76-83 over the packages in the order visited. -/
def packagesLoop (ord : RangeOrder) (fileSet : FileSet) :
    List (String × Package) → List CheckerResult → Except Panic Returned
  | [], results => .ok (some results, none)
  | (_, pkg) :: rest, results =>
    match checkPackage ord pkg fileSet with
    | .error p => .error p
    | .ok (_, some err) => .ok (none, some (.package pkg.Name err))
    | .ok (_results, none) =>
      packagesLoop ord fileSet rest (results ++ _results.getD [])

/-- Go `checkDirectory` on the entry found at `directoryName`. -/
def checkDirectory (ord : RangeOrder) (directoryName : Path) (d : FsEntry) : Except Panic Returned :=
  match parseDir directoryName d with
  | (_, some err) => .ok (none, some err)
  | (pkgs, none) =>
    packagesLoop ord
      { files := match d with | .dir _ _ entries => parsedFiles directoryName entries | _ => [] }
      (ord.visit (pkgs.getD [])) []

/-! ## `filepath.Walk` and `Check` -/

/-- A non-nil error returned by a `filepath.WalkFunc`: the sentinel
`filepath.SkipDir`, or another error. -/
inductive WalkError where
  | skipDir
  | failed (err : GoError)
  deriving DecidableEq, Repr

/-- A `filepath.WalkFunc` together with the variables it captures: the path,
the file information (nil when `Lstat` failed) and the incoming error, then
the state before and after and the error returned. -/
abbrev WalkFunc (σ : Type) :=
  Path → Option FsEntry → Option GoError → σ → Except Panic (σ × Option WalkError)

mutual
/-- Go `filepath.walk(path, info, walkFn)`.  On a `broken` entry, for which Go
calls `walkFn` in place of `walk`, it is that call.  The error handed to
`walkFn` is the `*fs.PathError` of the failing call, which names `path`. -/
def walk {σ : Type} (walkFn : WalkFunc σ) (path : Path) : FsEntry → σ →
    Except Panic (σ × Option WalkError)
  | .file name content, s => walkFn path (some (.file name content)) none s
  | .broken _ _ err, s => walkFn path none (some (.pathError "lstat" path err)) s
  | .dir name readErr entries, s =>
    match walkFn path (some (.dir name readErr entries))
        (readErr.map (fun e => .pathError e.Op path e.Err)) s with
    | .error p => .error p
    | .ok (s1, err1) =>
      if readErr.isSome || err1.isSome then .ok (s1, err1)
      else walkEntries walkFn path entries s1
termination_by structural e => e
/-- The loop of `filepath.walk` over the names of a directory. -/
def walkEntries {σ : Type} (walkFn : WalkFunc σ) (path : Path) : List FsEntry → σ →
    Except Panic (σ × Option WalkError)
  | [], s => .ok (s, none)
  | e :: rest, s =>
    match walk walkFn (path ++ [e.name]) e s with
    | .error p => .error p
    | .ok (s1, none) => walkEntries walkFn path rest s1
    | .ok (s1, some err) =>
      match e with
      | .broken _ _ _ =>
        if err ≠ .skipDir then .ok (s1, some err) else walkEntries walkFn path rest s1
      | _ =>
        if !e.isDir || err ≠ .skipDir then .ok (s1, some err)
        else walkEntries walkFn path rest s1
termination_by structural l => l
end

/-- Go `filepath.Walk(root, fn)`: `SkipDir` from the root is no error. -/
def filepathWalk {σ : Type} (walkFn : WalkFunc σ) (root : Path) (rootEntry : FsEntry) (s : σ) :
    Except Panic (σ × Option GoError) :=
  match walk walkFn root rootEntry s with
  | .error p => .error p
  | .ok (s1, some (.failed err)) => .ok (s1, some err)
  | .ok (s1, _) => .ok (s1, none)

/-- The closure `Check` passes to `filepath.Walk` (lines 30-50); the state is
the captured variable `results`. -/
def checkWalkFn (ord : RangeOrder) : WalkFunc (List CheckerResult) :=
  fun path info err results =>
    match err with
    | some e => .ok (results, some (.failed e))
    | none =>
      match info with
      | none => .error .nilDereference
      | some info =>
        if !info.isDir then .ok (results, none)
        else if hasPrefix info.name "." then .ok (results, some .skipDir)
        else
          match checkDirectory ord path info with
          | .error p => .error p
          | .ok (_, some err) => .ok (results, some (.failed (.directory path err)))
          | .ok (dirResults, none) => .ok (results ++ dirResults.getD [], none)

/-- Go `Check` on the tree `root` found at the path `directoryName`. -/
def Check (ord : RangeOrder) (directoryName : Path) (root : FsEntry) : Except Panic Returned :=
  match filepathWalk (checkWalkFn ord) directoryName root [] with
  | .error p => .error p
  | .ok (_, some err) => .ok (none, some err)
  | .ok (results, none) => .ok (some results, none)


/-! ## Specification vocabulary -/

mutual

/-- The nodes of the tree under `n`, `n` itself included, in the order
`ast.Walk` meets them. -/
def Node.subnodes : Node → List Node
  | .ident name => [.ident name]
  | .selectorExpr x sel => .selectorExpr x sel :: (x.subnodes ++ [.ident sel])
  | .callExpr fn args => .callExpr fn args :: (fn.subnodes ++ subnodesList args)
  | .funcLit typ body =>
    .funcLit typ body :: (typ.subnodes ++ .blockStmt body :: subnodesList body)
  | .blockStmt list => .blockStmt list :: subnodesList list
  | .other children => .other children :: subnodesList children
termination_by structural n => n

/-- The nodes under the members of a list. -/
def subnodesList : List Node → List Node
  | [] => []
  | n :: ns => n.subnodes ++ subnodesList ns
termination_by structural l => l
end

/-- Spec: the block contains, at any depth, a call expression whose callee is
the bare identifier `f`. -/
def SpecCallsByName (f : String) (block : List Node) : Prop :=
  ∃ n ∈ subnodesList block, ∃ args, n = .callExpr (.ident f) args

/-- Spec: the body contains, somewhere, a call whose callee is a selector with
member name `Run`, with at least two arguments, the second a function literal
whose body calls `f` by its bare name. -/
def SpecRunClosureCalls (f : String) (body : List Node) : Prop :=
  ∃ n ∈ subnodesList body, ∃ x a typ lit rest,
    n = .callExpr (.selectorExpr x "Run") (a :: .funcLit typ lit :: rest) ∧
      SpecCallsByName f lit

/-- Spec: `f` is tested by a table of test functions: some test function of
the table has a body with a `Run` closure calling `f`. -/
def SpecTested (f : String) (testFuncs : GoMap String FuncDecl) : Prop :=
  ∃ t ∈ testFuncs, ∃ body, t.2.Body = some body ∧ SpecRunClosureCalls f body

/-- Every test function of the table has a body. -/
def HasBodies (testFuncs : GoMap String FuncDecl) : Prop :=
  ∀ t ∈ testFuncs, t.2.Body.isSome = true

/-! ## The node tests behind the two callbacks -/

/-- The shape of both callbacks of the decider: the flag is raised, and the
children are left out, at a node satisfying `p`. -/
def flagCallback (p : Node → Bool) : Option Node → Bool → Bool × Bool
  | some n, found => if p n then (false, true) else (true, found)
  | none, found => (true, found)

/-- The callback of `isCalledInRun` as a flag over the node test `p`: a state
that is a panic is handed on. -/
def panicFlagCallback (p : Node → Bool) :
    Option Node → Except Panic Bool → Bool × Except Panic Bool
  | _, .error e => (false, .error e)
  | some n, .ok found => if p n then (false, .ok true) else (true, .ok found)
  | none, .ok found => (true, .ok found)

/-- The node test of `isFunctionCalledInBlock`. -/
def callsIdent (targetFuncName : String) : Node → Bool
  | .callExpr (.ident name) _ => decide (name = targetFuncName)
  | _ => false

/-- The node test of `isCalledInRun`. -/
def runClosureCalls (targetFuncName : String) : Node → Bool
  | .callExpr fn args =>
    isRunCall (.callExpr fn args) &&
      match args with
      | _ :: .funcLit _ body :: _ => isFunctionCalledInBlock body targetFuncName
      | _ => false
  | _ => false

/-! ## The tables as the classifier leaves them -/

/-- The declarations of a package, file by file. -/
def Package.decls (pkg : Package) : List Decl :=
  pkg.Files.flatMap (fun e => e.2.Decls)

/-- The declarations of a package in the order `checkPackage` scans them. -/
def scanOrder (ord : RangeOrder) (pkg : Package) : List Decl :=
  (ord.visit pkg.Files).flatMap (fun e => e.2.Decls)

/-- The name goes to the test-function table: it begins with `Test`. -/
def IsTestName (n : String) : Prop :=
  hasPrefix n "Test" = true

/-- The name goes to the exported-candidate table: it does not begin with
`Test` and its first byte, read as a rune, is upper case. -/
def IsCandidateName (n : String) : Prop :=
  hasPrefix n "Test" = false ∧ ∃ b, (goBytes n).head? = some b ∧ isUpperLatin1 b = true

/-- The declaration is a function declaration named `n`. -/
def DeclaresFunc (n : String) (d : Decl) : Prop :=
  ∃ fd id, d = .funcDecl fd ∧ fd.Name = some id ∧ id.Name = n

/-- The entry of a table is keyed by the name of its declaration. -/
def KeyedByName (e : String × FuncDecl) : Prop :=
  ∃ id, e.2.Name = some id ∧ id.Name = e.1

/-- What holds of the two tables throughout the scan. -/
def Tables.WF (tb : Tables) : Prop :=
  tb.testFuncs.keys.Nodup ∧ tb.publicFuncs.keys.Nodup ∧
    (∀ e ∈ tb.testFuncs, IsTestName e.1 ∧ KeyedByName e) ∧
      (∀ e ∈ tb.publicFuncs, IsCandidateName e.1 ∧ KeyedByName e)

/-- The keys of both tables. -/
def Tables.keys (tb : Tables) : List String × List String :=
  (tb.testFuncs.keys, tb.publicFuncs.keys)

/-- The function `t` has a body, and some node of it passes the node test of
`isCalledInRun`. -/
def calledInRun (t : FuncDecl) (targetFuncName : String) : Bool :=
  match t.Body with
  | some body => (subnodesList body).any (runClosureCalls targetFuncName)
  | none => false

/-- No test function of the table has a `Run` closure calling the name of the
entry: the test `isTested` fails on it. -/
def isUntested (testFuncs : GoMap String FuncDecl) (e : String × FuncDecl) : Bool :=
  !(testFuncs.any (fun t => calledInRun t.2 e.1))

/-- Spec: the list holds exactly one Finding for each name of the
exported-candidate table for which `isTested` is false, and no other: the names
of the Findings, read off their messages, are pairwise distinct and are
exactly the untested candidate names. -/
def ExactlyUntested (ord : RangeOrder) (tb : Tables) (results : List CheckerResult) : Prop :=
  ∃ names : List String,
    results.map (fun r => r.Message) = names.map untestedMessage ∧
      names.Nodup ∧ (results.map (fun r => r.Message)).Nodup ∧
      ∀ n, n ∈ names ↔
        ∃ fd, (n, fd) ∈ tb.publicFuncs ∧ isTested ord fd tb.testFuncs = .ok false

/-! ## What `Check` scans -/

mutual
/-- The directories `Check` hands to `checkDirectory` when nothing fails, with
their paths, in pre-order: a directory whose name starts with `.` is left out
with everything below it, and so is what lies below a directory that cannot
be read. -/
def scannedDirs (path : Path) : FsEntry → List (Path × FsEntry)
  | .file _ _ => []
  | .broken _ _ _ => []
  | .dir name readErr entries =>
    if hasPrefix name "." then []
    else
      match readErr with
      | some _ => []
      | none => (path, .dir name none entries) :: scannedDirsList path entries
termination_by structural e => e
/-- The scanned directories below the entries of a directory. -/
def scannedDirsList (path : Path) : List FsEntry → List (Path × FsEntry)
  | [] => []
  | e :: es => scannedDirs (path ++ [e.name]) e ++ scannedDirsList path es
termination_by structural l => l
end

mutual
/-- A traversal step fails in the part of the tree the walk enters: `os.Lstat`
fails on an entry, or a directory cannot be read. -/
def traversalFails : FsEntry → Bool
  | .file _ _ => false
  | .broken _ _ _ => true
  | .dir name readErr entries =>
    readErr.isSome || (!hasPrefix name "." && traversalFailsList entries)
termination_by structural e => e
/-- A traversal step fails at or below one of the entries. -/
def traversalFailsList : List FsEntry → Bool
  | [] => false
  | e :: es => traversalFails e || traversalFailsList es
termination_by structural l => l
end

/-- The directory fails to scan: `checkDirectory` returns an error on it. -/
def ScanFails (ord : RangeOrder) (pd : Path × FsEntry) : Prop :=
  ∃ rs err, checkDirectory ord pd.1 pd.2 = .ok (rs, some err)

/-- Some scanned directory of the tree fails to parse, or a traversal step
fails. -/
def Fails (ord : RangeOrder) (path : Path) (e : FsEntry) : Prop :=
  traversalFails e = true ∨ ∃ pd ∈ scannedDirs path e, ScanFails ord pd

/-- The same for the entries of a directory. -/
def FailsList (ord : RangeOrder) (path : Path) (es : List FsEntry) : Prop :=
  traversalFailsList es = true ∨ ∃ pd ∈ scannedDirsList path es, ScanFails ord pd

/-- The Findings `checkDirectory` returns on a directory, none when it fails. -/
def dirFindings (ord : RangeOrder) (pd : Path × FsEntry) : List CheckerResult :=
  match checkDirectory ord pd.1 pd.2 with
  | .ok (rs, none) => rs.getD []
  | _ => []

/-- What holds of the outcome of `walk` with the callback of `Check` on the
entry `e` found at `path`, entered with the results `s`. -/
def WalkPost (ord : RangeOrder) (path : Path) (e : FsEntry) (s : List CheckerResult) :
    Except Panic (List CheckerResult × Option WalkError) → Prop
  | .error p => ∃ pd ∈ scannedDirs path e, checkDirectory ord pd.1 pd.2 = .error p
  | .ok (s1, none) =>
    ¬ Fails ord path e ∧ s1 = s ++ (scannedDirs path e).flatMap (dirFindings ord)
  | .ok (s1, some .skipDir) =>
    s1 = s ∧ ∃ name entries, e = .dir name none entries ∧ hasPrefix name "." = true
  | .ok (_, some (.failed _)) => Fails ord path e

/-- What holds of the outcome of `walkEntries` with the callback of `Check`. -/
def WalkEntriesPost (ord : RangeOrder) (path : Path) (es : List FsEntry)
    (s : List CheckerResult) : Except Panic (List CheckerResult × Option WalkError) → Prop
  | .error p => ∃ pd ∈ scannedDirsList path es, checkDirectory ord pd.1 pd.2 = .error p
  | .ok (s1, none) =>
    ¬ FailsList ord path es ∧ s1 = s ++ (scannedDirsList path es).flatMap (dirFindings ord)
  | .ok (_, some .skipDir) => False
  | .ok (_, some (.failed _)) => FailsList ord path es

mutual
/-- The tree with every directory whose name starts with `.` emptied. -/
def pruneHidden : FsEntry → FsEntry
  | .file name content => .file name content
  | .broken name isDir err => .broken name isDir err
  | .dir name readErr entries =>
    if hasPrefix name "." then .dir name readErr []
    else .dir name readErr (pruneHiddenList entries)
termination_by structural e => e
/-- The entries of a directory with the hidden directories below emptied. -/
def pruneHiddenList : List FsEntry → List FsEntry
  | [] => []
  | e :: es => pruneHidden e :: pruneHiddenList es
termination_by structural l => l
end

/-- The function declaration `fd` of a parsed package is the declaration `fd0` of
the file `file` found directly inside the directory `path`, whose entries are
`entries`, with its position placed in that file. -/
def DeclaredIn (path : Path) (entries : List FsEntry) (fd : FuncDecl) : Prop :=
  ∃ (file : String) (src : File) (fd0 : FuncDecl),
    FsEntry.file file (.ok src) ∈ entries ∧ Decl.funcDecl fd0 ∈ src.Decls ∧
      fd.Typ.Func = { fd0.Typ.Func with Filename := path ++ [file] }

/-- Spec: the node is a `Run` call with fewer than two arguments, or whose
second argument is not a function literal. -/
def SpecUnqualifiedRun (n : Node) : Prop :=
  ∃ x args, n = .callExpr (.selectorExpr x "Run") args ∧
    (args.length < 2 ∨ ∀ typ body, args.get? 1 ≠ some (.funcLit typ body))

/-- Spec: the node is a `Run` call: a call whose callee is a selector with
member name `Run`. -/
def SpecRunCall (n : Node) : Prop :=
  ∃ x args, n = .callExpr (.selectorExpr x "Run") args

/-- The test of `SpecUnqualifiedRun` as a Boolean. -/
def unqualifiedRun : Node → Bool
  | .callExpr (.selectorExpr _ sel) args =>
    decide (sel = "Run") &&
      (decide (args.length < 2) ||
        match args.get? 1 with
        | some (.funcLit _ _) => false
        | _ => true)
  | _ => false

/-- A traversal step that fails: the path of the entry, the failing operation
and the error of the system call. -/
structure TraversalFailure where
  Path : Path
  Op : String
  Err : String
  deriving DecidableEq, Repr

mutual
/-- The traversal steps that fail in the part of the tree the walk enters, the
entry `e` being found at `path`: `os.Lstat` on an entry, the reading of a
directory. -/
def traversalFailures (path : Path) : FsEntry → List TraversalFailure
  | .file _ _ => []
  | .broken _ _ err => [{ Path := path, Op := "lstat", Err := err }]
  | .dir name readErr entries =>
    match readErr with
    | some e => [{ Path := path, Op := e.Op, Err := e.Err }]
    | none => if hasPrefix name "." then [] else traversalFailuresList path entries
termination_by structural e => e
/-- The failing traversal steps at or below the entries of the directory found at
`path`. -/
def traversalFailuresList (path : Path) : List FsEntry → List TraversalFailure
  | [] => []
  | e :: es => traversalFailures (path ++ [e.name]) e ++ traversalFailuresList path es
termination_by structural l => l
end

/-- The Findings `checkPackage` returns on a package, none when it panics. -/
def pkgFindings (ord : RangeOrder) (fileSet : FileSet) (pkg : Package) : List CheckerResult :=
  match checkPackage ord pkg fileSet with
  | .ok (rs, none) => rs.getD []
  | _ => []

/-- The file set `checkDirectory` fills on the directory found at `path`. -/
def dirFileSet (path : Path) (entries : List FsEntry) : FileSet :=
  { files := parsedFiles path entries }

/-- The entries of a directory that are not directories themselves. -/
def directFiles (entries : List FsEntry) : List FsEntry :=
  entries.filter (fun e => !e.isDir)

/-- The packages of a directory are keyed by their name, and every file of a
package declares that name. -/
def GroupedByName (pkgs : GoMap String Package) : Prop :=
  pkgs.keys.Nodup ∧ ∀ e ∈ pkgs, e.2.Name = e.1 ∧ ∀ f ∈ e.2.Files, f.2.Name = e.1

/-! ## Declarations that share a name -/

/-- The function declaration named `n` that the declaration is, if it is one. -/
def Decl.named (n : String) : Decl → Option FuncDecl
  | .funcDecl fd => if fd.Name.map (fun id => id.Name) = some n then some fd else none
  | .otherDecl => none

/-- The last function declaration named `n` of a list of declarations. -/
def lastDeclared (n : String) : List Decl → Option FuncDecl
  | [] => none
  | d :: ds =>
    match lastDeclared n ds with
    | some fd => some fd
    | none => d.named n

/-- Spec: the last declaration of some test-function name, in the order the
package is scanned, has a body with a `Run` closure calling `f`. -/
def LastTestCalls (ord : RangeOrder) (pkg : Package) (f : String) : Prop :=
  ∃ n t body, IsTestName n ∧ lastDeclared n (scanOrder ord pkg) = some t ∧
    t.Body = some body ∧ SpecRunClosureCalls f body

/-- Spec: the last declaration of every test-function name, in the order the
package is scanned, has a body. -/
def LastTestsHaveBodies (ord : RangeOrder) (pkg : Package) : Prop :=
  ∀ n t, IsTestName n → lastDeclared n (scanOrder ord pkg) = some t → t.Body.isSome = true

/-- The package `pkg1` is the package `pkg` with the function declaration `t`
added, in a file of `pkg` or in a new file: listed file by file, the
declarations of `pkg1` are those of `pkg` with `t` inserted. -/
def AddsDecl (pkg : Package) (t : FuncDecl) (pkg1 : Package) : Prop :=
  ∃ (o o1 : RangeOrder) (l1 l2 : List Decl),
    scanOrder o pkg = l1 ++ l2 ∧ scanOrder o1 pkg1 = l1 ++ .funcDecl t :: l2

/-! ## Two runs of the scan -/

/-- The name goes to the test-function table, as a Boolean. -/
def isTestName (n : String) : Bool :=
  hasPrefix n "Test"

/-- The name goes to the exported-candidate table, as a Boolean. -/
def isCandidateName (n : String) : Bool :=
  !hasPrefix n "Test" &&
    match (goBytes n).head? with
    | some b => isUpperLatin1 b
    | none => false

/-- The name goes to one of the two tables. -/
def isTableName (n : String) : Bool :=
  isTestName n || isCandidateName n

/-- The names of the function declarations of a file. -/
def File.funcNames (f : File) : List String :=
  f.Decls.filterMap (fun d =>
    match d with
    | .funcDecl fd => fd.Name.map (fun id => id.Name)
    | .otherDecl => none)

/-- No name satisfying `p` is declared in two different files of the package. -/
def OneFilePer (p : String → Bool) (pkg : Package) : Prop :=
  ∀ x ∈ pkg.Files, ∀ y ∈ pkg.Files, x.1 ≠ y.1 →
    ∀ n ∈ x.2.funcNames, p n = true → n ∉ y.2.funcNames

/-- No name that goes to a table (the name of a test function or of an exported
candidate) is declared in two different files of the package. -/
def OneFilePerName (pkg : Package) : Prop :=
  OneFilePer isTableName pkg

/-- No name of a test function is declared in two different files of the
package. -/
def OneFilePerTestName (pkg : Package) : Prop :=
  OneFilePer isTestName pkg

/-- The declaration is no test function without a body. -/
def Decl.testHasBody : Decl → Bool
  | .funcDecl fd =>
    match fd.Name with
    | some id => !hasPrefix id.Name "Test" || fd.Body.isSome
    | none => true
  | .otherDecl => true

/-- Every test function declared in the package has a body. -/
def TestsHaveBodies (pkg : Package) : Prop :=
  ∀ d ∈ pkg.decls, d.testHasBody = true

instance : DecidablePred OneFilePerName := fun pkg => by
  unfold OneFilePerName OneFilePer
  infer_instance

instance : DecidablePred OneFilePerTestName := fun pkg => by
  unfold OneFilePerTestName OneFilePer
  infer_instance

instance : DecidablePred TestsHaveBodies := fun pkg => by
  unfold TestsHaveBodies
  infer_instance

/-- The last declaration named `n` so far, after one more file is scanned. -/
def lastAfterFile (n : String) (acc : Option FuncDecl) (e : Path × File) : Option FuncDecl :=
  match lastDeclared n e.2.Decls with
  | some fd => some fd
  | none => acc

/-- Two outcomes of a scan agree: the same panic, or the same error, a result
list in both or in neither, and the same set of Findings. -/
def SameOutcome : Except Panic Returned → Except Panic Returned → Prop
  | .error p, .error q => p = q
  | .ok (r1, e1), .ok (r2, e2) =>
    e1 = e2 ∧ r1.isSome = r2.isSome ∧ ∀ x, x ∈ r1.getD [] ↔ x ∈ r2.getD []
  | _, _ => False

/-- Two outcomes of a walk agree: the same panic, or the same error and the same
set of results collected. -/
def SameWalk :
    Except Panic (List CheckerResult × Option WalkError) →
      Except Panic (List CheckerResult × Option WalkError) → Prop
  | .error p, .error q => p = q
  | .ok (a, e1), .ok (b, e2) => e1 = e2 ∧ ∀ x, x ∈ a ↔ x ∈ b
  | _, _ => False

/-- The packages `parser.ParseDir` builds on a directory, none when it builds no
map. -/
def dirPackages (pd : Path × FsEntry) : GoMap String Package :=
  (parseDir pd.1 pd.2).1.getD []

/-- Every package of every listed directory satisfies `P`. -/
def EveryPackage (P : Package → Prop) (l : List (Path × FsEntry)) : Prop :=
  ∀ pd ∈ l, ∀ k ∈ dirPackages pd, P k.2

/-! ## Directories that fail to parse -/

/-- The entry of a directory makes `parser.ParseDir` fail: an entry named `*.go`,
no directory by the listing, on which `d.Info()` fails; or a file named
`*.go`, not starting with `.`, on which `parser.ParseFile` fails. -/
def unparsable : FsEntry → Bool
  | .file name (.error _) => !hasPrefix name "." && hasSuffix name ".go"
  | .file _ (.ok _) => false
  | .broken name isDir _ => !isDir && hasSuffix name ".go"
  | .dir _ _ _ => false

/-- The directory fails to parse: it cannot be read, or an entry directly inside
it makes `parser.ParseDir` fail. -/
def parseFails : FsEntry → Bool
  | .dir _ (some _) _ => true
  | .dir _ none entries => entries.any unparsable
  | .file _ _ => true
  | .broken _ _ _ => true

/-- Some scanned directory of the tree fails to parse, or a traversal step
fails. -/
def TreeFails (path : Path) (e : FsEntry) : Prop :=
  traversalFails e = true ∨ ∃ pd ∈ scannedDirs path e, parseFails pd.2 = true

/-! ## What an error carries -/

/-- What an error wraps: the error of a system call, or another error value. -/
inductive Cause where
  | errno (err : String)
  | error (err : GoError)
  deriving DecidableEq, Repr

/-- Go `errors.Unwrap(err)`: the cause an `*fs.PathError` wraps is its `Err`,
the cause an error built by `fmt.Errorf` with `%w` wraps is the operand. -/
def GoError.Unwrap : GoError → Option Cause
  | .pathError _ _ err => some (.errno err)
  | .parse _ => none
  | .directory _ cause => some (.error cause)
  | .package _ cause => some (.error cause)

/-- The path an error names: the `Path` of an `*fs.PathError`, the directory at
`%s` of the error of line 45. -/
def GoError.namedPath : GoError → Option Path
  | .pathError _ path _ => some path
  | .directory path _ => some path
  | .parse _ => none
  | .package _ _ => none

/-! ## Worked packages -/

deriving instance DecidableEq for Except

/-- The file of the worked declaration `Add`. -/
def addGo : Path := ["proj", "add.go"]

/-- The file of the worked test functions. -/
def addTestGo : Path := ["proj", "add_test.go"]

/-- The name token of `declAdd`. -/
def identAdd : Ident := { NamePos := ⟨addGo, 3, 6, none⟩, Name := "Add" }

/-- The function `func Add(a, b int) int { return a + b }` at line 3 of `add.go`:
the `func` keyword stands in column 1 and the name in column 6. -/
def declAdd : FuncDecl :=
  { Recv := none, Name := some identAdd, Typ := { Func := ⟨addGo, 3, 1, none⟩ },
    Body := some [.other [.other [.ident "a", .ident "b"]]] }

/-- The statement `Add(1, 2)`. -/
def callAdd : Node := .other [.callExpr (.ident "Add") [.other [], .other []]]

/-- The statement `t.Run("case", func(t *T) { Add(1, 2) })`. -/
def runCallingAdd : Node :=
  .other [.callExpr (.selectorExpr (.ident "t") "Run")
    [.other [], .funcLit (.other [.ident "t", .other [.ident "T"]]) [callAdd]]]

/-- The test `func TestAdd(t *T) { t.Run("case", func(t *T) { Add(1, 2) }) }`. -/
def declTestAddRun : FuncDecl :=
  { Recv := none, Name := some { NamePos := ⟨addTestGo, 5, 6, none⟩, Name := "TestAdd" },
    Typ := { Func := ⟨addTestGo, 5, 1, none⟩ }, Body := some [runCallingAdd] }

/-- The test `func TestAdd(t *T) { Add(1, 2) }`. -/
def declTestAddDirect : FuncDecl :=
  { Recv := none, Name := some { NamePos := ⟨addTestGo, 5, 6, none⟩, Name := "TestAdd" },
    Typ := { Func := ⟨addTestGo, 5, 1, none⟩ }, Body := some [callAdd] }

/-- The source file `add.go`: an import declaration and `Add`. -/
def fileAdd : File := { Name := "proj", Decls := [.otherDecl, .funcDecl declAdd] }

/-- Scenario A: `Add` and a test calling it inside a `Run` closure. -/
def pkgScenarioA : Package :=
  { Name := "proj",
    Files := [(addGo, fileAdd),
      (addTestGo, { Name := "proj", Decls := [.funcDecl declTestAddRun] })] }

/-- Scenario B: `Add` and no test file. -/
def pkgScenarioB : Package := { Name := "proj", Files := [(addGo, fileAdd)] }

/-- Scenario C: `Add` and a test calling it outside any `Run` closure. -/
def pkgScenarioC : Package :=
  { Name := "proj",
    Files := [(addGo, fileAdd),
      (addTestGo, { Name := "proj", Decls := [.funcDecl declTestAddDirect] })] }

/-- The file set of the worked packages. -/
def fileSetProj : FileSet := { files := [addGo, addTestGo] }

/-- The tables `checkPackage` builds on scenario C. -/
def tablesScenarioC : Tables :=
  { testFuncs := [("TestAdd", declTestAddDirect)], publicFuncs := [("Add", declAdd)] }

/-- The tables `checkPackage` builds on scenario A. -/
def tablesScenarioA : Tables :=
  { testFuncs := [("TestAdd", declTestAddRun)], publicFuncs := [("Add", declAdd)] }

/-- The test `func TestAdd(t *T) {}` declared a second time, with an empty body. -/
def declTestAddEmpty : FuncDecl :=
  { Recv := none, Name := some { NamePos := ⟨addTestGo, 9, 6, none⟩, Name := "TestAdd" },
    Typ := { Func := ⟨addTestGo, 9, 1, none⟩ }, Body := some [] }

/-- A package in which `TestAdd` is declared twice: first with a `Run` closure
calling `Add`, then with an empty body. -/
def pkgTestDeclaredTwice : Package :=
  { Name := "proj",
    Files := [(addGo, fileAdd),
      (addTestGo,
        { Name := "proj", Decls := [.funcDecl declTestAddRun, .funcDecl declTestAddEmpty] })] }

/-- The function `func étoile() {}`: its first rune `é` is a lower-case letter
encoded by the bytes `0xC3 0xA9`. -/
def declEtoile : FuncDecl :=
  { Recv := none, Name := some { NamePos := ⟨addGo, 7, 6, none⟩, Name := "étoile" },
    Typ := { Func := ⟨addGo, 7, 1, none⟩ }, Body := some [] }

/-- A package declaring `étoile` only. -/
def pkgEtoile : Package :=
  { Name := "proj", Files := [(addGo, { Name := "proj", Decls := [.funcDecl declEtoile] })] }

/-- The method `func (e *Example) Value() string { return e.Value }`. -/
def declValueMethod : FuncDecl :=
  { Recv := some (.other [.ident "e", .other [.ident "Example"]]),
    Name := some { NamePos := ⟨addGo, 9, 20, none⟩, Name := "Value" },
    Typ := { Func := ⟨addGo, 9, 1, none⟩ }, Body := some [.other [.selectorExpr (.ident "e") "Value"]] }

/-- A package declaring the method `Value` only. -/
def pkgMethod : Package :=
  { Name := "proj",
    Files := [(addGo, { Name := "proj", Decls := [.otherDecl, .funcDecl declValueMethod] })] }

/-! ## Worked directory trees -/

/-- The content of a file that does not parse. -/
def contentBad : Except GoError File := .error (.parse "expected declaration")

/-- Scenario E: the directory `a` holds `add.go` with the untested `Add`, the
directory `b` a file that fails to parse. -/
def treeScenarioE : FsEntry :=
  .dir "proj" none
    [.dir "a" none [.file "add.go" (.ok fileAdd)],
     .dir "b" none [.file "bad.go" contentBad]]

/-- The function `func Leaked() {}`. -/
def declLeaked : FuncDecl :=
  { Recv := none, Name := some { NamePos := ⟨[], 3, 6, none⟩, Name := "Leaked" },
    Typ := { Func := ⟨[], 3, 1, none⟩ }, Body := some [] }

/-- Scenario D: a directory `.git` holding a file that declares the untested
`Leaked` and a file that fails to parse, next to a clean `doc.go`. -/
def treeScenarioD : FsEntry :=
  .dir "proj" none
    [.dir ".git" none
      [.file "bad.go" contentBad,
       .file "leak.go" (.ok { Name := "leak", Decls := [.funcDecl declLeaked] })],
     .file "doc.go" (.ok { Name := "proj", Decls := [.otherDecl] })]

/-- Scenario D with the directory `.git` emptied. -/
def treeScenarioDEmptied : FsEntry :=
  .dir "proj" none
    [.dir ".git" none [],
     .file "doc.go" (.ok { Name := "proj", Decls := [.otherDecl] })]

/-! ## Worked inputs for the later claims -/

/-- A function declaration whose `Name` is nil. -/
def declNilName : FuncDecl :=
  { Recv := none, Name := none, Typ := { Func := ⟨addGo, 11, 1, none⟩ }, Body := some [] }

/-- A function declaration whose name is the empty string. -/
def declEmptyName : FuncDecl :=
  { Recv := none, Name := some { NamePos := ⟨addGo, 12, 6, none⟩, Name := "" },
    Typ := { Func := ⟨addGo, 12, 1, none⟩ }, Body := some [] }

/-- A package whose only declaration has the empty name. -/
def pkgEmptyName : Package :=
  { Name := "proj",
    Files := [(addGo, { Name := "proj", Decls := [.funcDecl declEmptyName] })] }

/-- A package whose only declaration has a nil name. -/
def pkgNilName : Package :=
  { Name := "proj",
    Files := [(addGo, { Name := "proj", Decls := [.funcDecl declNilName] })] }

/-- The test `func TestAdd(t *T) { t.Run("one"); t.Run("two", helper); Add(1, 2) }`:
a `Run` call with one argument and one whose second argument is an identifier. -/
def declTestAddShapes : FuncDecl :=
  { Recv := none, Name := some { NamePos := ⟨addTestGo, 5, 6, none⟩, Name := "TestAdd" },
    Typ := { Func := ⟨addTestGo, 5, 1, none⟩ },
    Body := some [.other [.callExpr (.selectorExpr (.ident "t") "Run") [.other []]],
      .other [.callExpr (.selectorExpr (.ident "t") "Run") [.other [], .ident "helper"]],
      callAdd] }

/-- `Add` with the test `declTestAddShapes`. -/
def pkgRunShapes : Package :=
  { Name := "proj",
    Files := [(addGo, fileAdd),
      (addTestGo, { Name := "proj", Decls := [.funcDecl declTestAddShapes] })] }

/-- The tables `checkPackage` builds on `pkgRunShapes`. -/
def tablesRunShapes : Tables :=
  { testFuncs := [("TestAdd", declTestAddShapes)], publicFuncs := [("Add", declAdd)] }

/-- A hidden root directory that cannot be read. -/
def treeHiddenUnreadable : FsEntry :=
  .dir ".hidden" (some { Op := "open", Err := "permission denied" }) []

/-- A hidden root directory holding the untested `Add`. -/
def treeHiddenRoot : FsEntry :=
  .dir "." none [.file "add.go" (.ok fileAdd)]

/-- A directory holding `add.go` and an entry on which `os.Lstat` fails. -/
def treeBrokenEntry : FsEntry :=
  .dir "proj" none
    [.file "add.go" (.ok fileAdd),
     .broken "gone" false "no such file or directory"]

/-- A directory holding `Add`, with a sub-directory whose test calls `Add`
inside a `Run` closure. -/
def treeTestInSubdir : FsEntry :=
  .dir "proj" none
    [.file "add.go" (.ok fileAdd),
     .dir "sub" none
      [.file "add_test.go" (.ok { Name := "proj", Decls := [.funcDecl declTestAddRun] })]]

/-- The function `func NewExample() *Example` of `example.go`. -/
def declNewExample : FuncDecl :=
  { Recv := none, Name := some { NamePos := ⟨[], 7, 6, none⟩, Name := "NewExample" },
    Typ := { Func := ⟨[], 7, 1, none⟩ }, Body := some [.other [.other [.ident "Example"]]] }

/-- The test `func TestNewExample(t *T) { t.Run("new", func(t *T) { NewExample() }) }`. -/
def declTestNewExample : FuncDecl :=
  { Recv := none, Name := some { NamePos := ⟨[], 5, 6, none⟩, Name := "TestNewExample" },
    Typ := { Func := ⟨[], 5, 1, none⟩ },
    Body := some [.other [.callExpr (.selectorExpr (.ident "t") "Run")
      [.other [], .funcLit (.other [.ident "t"]) [.other [.callExpr (.ident "NewExample") []]]]]] }

/-- The entries of a directory with files of two declared packages: `example.go`
of package `example`, and `example_test.go` of package `example_test`, whose
test calls `NewExample` inside a `Run` closure. -/
def entriesTwoPackages : List FsEntry :=
  [.file "example.go" (.ok { Name := "example", Decls := [.otherDecl, .funcDecl declNewExample] }),
   .file "example_test.go"
    (.ok { Name := "example_test", Decls := [.funcDecl declTestNewExample] })]

/-- The packages `parser.ParseDir` builds on `entriesTwoPackages`. -/
def pkgsTwoPackages : GoMap String Package :=
  (parseDir ["example"] (.dir "example" none entriesTwoPackages)).1.getD []

/-- `Add` declared a second time, at line 8 of `add.go`. -/
def declAddAgain : FuncDecl :=
  { Recv := none, Name := some { NamePos := ⟨addGo, 8, 6, none⟩, Name := "Add" },
    Typ := { Func := ⟨addGo, 8, 1, none⟩ }, Body := some [] }

/-- A package whose file `add.go` declares `Add` at line 3 and again at line 8. -/
def pkgAddDeclaredTwice : Package :=
  { Name := "proj",
    Files := [(addGo, { Name := "proj", Decls := [.funcDecl declAdd, .funcDecl declAddAgain] })] }

/-- `Add` as `add_linux.go` declares it at line 3 and as `add_windows.go`
declares it at line 5. -/
def declAddAt (line : Nat) : FuncDecl :=
  { Recv := none, Name := some { NamePos := ⟨[], line, 6, none⟩, Name := "Add" },
    Typ := { Func := ⟨[], line, 1, none⟩ }, Body := some [] }

/-- A directory whose two files, picked by build constraints, both declare
`Add`. -/
def treeAddPerPlatform : FsEntry :=
  .dir "proj" none
    [.file "add_linux.go" (.ok { Name := "proj", Decls := [.funcDecl (declAddAt 3)] }),
     .file "add_windows.go" (.ok { Name := "proj", Decls := [.funcDecl (declAddAt 5)] })]

/-! ## Declarations without a body -/

/-- The declaration `func TestAdd(t *T)`, which has no body. -/
def declTestAddNoBody : FuncDecl :=
  { Recv := none, Name := some { NamePos := ⟨addTestGo, 5, 6, none⟩, Name := "TestAdd" },
    Typ := { Func := ⟨addTestGo, 5, 1, none⟩ }, Body := none }

/-- The declaration `func TestAndSet(addr *uint32) bool` of a function that is
implemented in assembly: it has no body. -/
def declTestAndSet : FuncDecl :=
  { Recv := none, Name := some { NamePos := ⟨addGo, 12, 6, none⟩, Name := "TestAndSet" },
    Typ := { Func := ⟨addGo, 12, 1, none⟩ }, Body := none }

/-- `Add` with the test `func TestAdd(t *T)` that has no body. -/
def pkgTestWithoutBody : Package :=
  { Name := "proj",
    Files := [(addGo, fileAdd),
      (addTestGo, { Name := "proj", Decls := [.funcDecl declTestAddNoBody] })] }

/-- The file `add.go` declaring `Add` and the body-less `TestAndSet`. -/
def fileAddTestAndSet : File :=
  { Name := "proj", Decls := [.otherDecl, .funcDecl declAdd, .funcDecl declTestAndSet] }

/-- `Add` and the body-less `TestAndSet`, with the test of scenario C, which
calls `Add` outside any `Run` closure. -/
def pkgDirectCallAndSet : Package :=
  { Name := "proj",
    Files := [(addGo, fileAddTestAndSet),
      (addTestGo, { Name := "proj", Decls := [.funcDecl declTestAddDirect] })] }

/-- `Add` and the body-less `TestAndSet`, with the test of scenario A, which
calls `Add` inside a `Run` closure. -/
def pkgCoveredAndSet : Package :=
  { Name := "proj",
    Files := [(addGo, fileAddTestAndSet),
      (addTestGo, { Name := "proj", Decls := [.funcDecl declTestAddRun] })] }

/-- `Add` and the body-less `TestAndSet`, with the test `declTestAddShapes`,
whose `Run` calls have one argument or an identifier as second argument. -/
def pkgRunShapesAndSet : Package :=
  { Name := "proj",
    Files := [(addGo, fileAddTestAndSet),
      (addTestGo, { Name := "proj", Decls := [.funcDecl declTestAddShapes] })] }

/-- The method `func (s *Suite) TestAdd(t *T) { t.Run("case", func(t *T) { Add(1, 2) }) }`. -/
def declSuiteTestAdd : FuncDecl :=
  { Recv := some (.other [.ident "s", .other [.ident "Suite"]]),
    Name := some { NamePos := ⟨addTestGo, 7, 17, none⟩, Name := "TestAdd" },
    Typ := { Func := ⟨addTestGo, 7, 1, none⟩ }, Body := some [runCallingAdd] }

/-- `Add` with the method `TestAdd` of `*Suite`, whose `Run` closure calls `Add`. -/
def pkgSuiteMethod : Package :=
  { Name := "proj",
    Files := [(addGo, fileAdd),
      (addTestGo, { Name := "proj", Decls := [.funcDecl declSuiteTestAdd] })] }

/-! ## A `//line` directive -/

/-- Line 100 of `proj/.git/gen.go`, with no column: what the file set makes of
a position in the line below the comment `//line .git/gen.go:100` of a file of
the directory `proj`. -/
def genGoLine100 : Position := ⟨["proj", ".git", "gen.go"], 100, 0⟩

/-- `Add` as `add.go` declares it at line 3, right below the comment
`//line .git/gen.go:100`. -/
def declAddLineDirective : FuncDecl :=
  { Recv := none, Name := some { NamePos := ⟨[], 3, 6, some genGoLine100⟩, Name := "Add" },
    Typ := { Func := ⟨[], 3, 1, some genGoLine100⟩ }, Body := some [] }

/-- A directory with the hidden directory `.git`, which holds `gen.go`, and the
file `add.go`, which declares the untested `Add` under the directive
`//line .git/gen.go:100`. -/
def treeLineDirective : FsEntry :=
  .dir "proj" none
    [.dir ".git" none [.file "gen.go" (.ok { Name := "gen", Decls := [.otherDecl] })],
     .file "add.go" (.ok { Name := "proj", Decls := [.funcDecl declAddLineDirective] })]

/-- A directory `proj` whose sub-directory `vendor` cannot be read. -/
def treeUnreadableSubdir : FsEntry :=
  .dir "proj" none
    [.file "add.go" (.ok fileAdd),
     .dir "vendor" (some { Op := "open", Err := "permission denied" }) []]

/-! ## Names declared more than once -/

/-- `TestAdd` declared a second time, at line 9, with the `Run` closure calling
`Add`. -/
def declTestAddRunAgain : FuncDecl :=
  { Recv := none, Name := some { NamePos := ⟨addTestGo, 9, 6, none⟩, Name := "TestAdd" },
    Typ := { Func := ⟨addTestGo, 9, 1, none⟩ }, Body := some [runCallingAdd] }

/-- A package in which `TestAdd` is declared twice in one file: first without a
body, then with a `Run` closure calling `Add`. -/
def pkgTestRedeclared : Package :=
  { Name := "proj",
    Files := [(addGo, fileAdd),
      (addTestGo,
        { Name := "proj",
          Decls := [.funcDecl declTestAddNoBody, .funcDecl declTestAddRunAgain] })] }

/-- A package in which two test files both declare `TestAdd`:
`add_linux_test.go` with a `Run` closure calling `Add`, `add_windows_test.go`
with an empty body. -/
def pkgTestInTwoFiles : Package :=
  { Name := "proj",
    Files := [(addGo, fileAdd),
      (["proj", "add_linux_test.go"], { Name := "proj", Decls := [.funcDecl declTestAddRun] }),
      (["proj", "add_windows_test.go"],
        { Name := "proj", Decls := [.funcDecl declTestAddEmpty] })] }

/-- The test `func TestNew(t *T) {}`. -/
def declTestNew : FuncDecl :=
  { Recv := none, Name := some { NamePos := ⟨addTestGo, 3, 6, none⟩, Name := "TestNew" },
    Typ := { Func := ⟨addTestGo, 3, 1, none⟩ }, Body := some [] }

/-- The package `pkgTestInTwoFiles` with the new file `add_test.go`, which
declares `TestNew`. -/
def pkgTestInTwoFilesPlus : Package :=
  { Name := "proj",
    Files := [(addGo, fileAdd),
      (["proj", "add_linux_test.go"], { Name := "proj", Decls := [.funcDecl declTestAddRun] }),
      (["proj", "add_windows_test.go"],
        { Name := "proj", Decls := [.funcDecl declTestAddEmpty] }),
      (addTestGo, { Name := "proj", Decls := [.funcDecl declTestNew] })] }

/-- A function declaration `func name() {}` at the given line. -/
def declPlain (name : String) (line : Nat) : FuncDecl :=
  { Recv := none, Name := some { NamePos := ⟨[], line, 6, none⟩, Name := name },
    Typ := { Func := ⟨[], line, 1, none⟩ }, Body := some [] }

/-- A directory `proj` with three files of the package `calc` and one of the
package `calc_test`, and a sub-directory.  `calc.go` declares `init`, `Add`,
`Sub` and `Mul`; `calc_test.go` declares `TestAdd`, whose `Run` closure calls
`Add`; `setup.go` declares `init` again and `Reset`; `export_test.go`, of the
package `calc_test`, declares `Fixture`.  The sub-directory `sub` holds
`neg.go`, which declares `Neg`. -/
def treeCalc : FsEntry :=
  .dir "proj" none
    [.file "calc.go"
      (.ok { Name := "calc",
             Decls := [.otherDecl, .funcDecl (declPlain "init" 3), .funcDecl (declPlain "Add" 5),
               .funcDecl (declPlain "Sub" 7), .funcDecl (declPlain "Mul" 9)] }),
     .file "calc_test.go" (.ok { Name := "calc", Decls := [.funcDecl declTestAddRun] }),
     .file "setup.go"
      (.ok { Name := "calc",
             Decls := [.funcDecl (declPlain "init" 3), .funcDecl (declPlain "Reset" 5)] }),
     .file "export_test.go"
      (.ok { Name := "calc_test", Decls := [.funcDecl (declPlain "Fixture" 3)] }),
     .dir "sub" none
      [.file "neg.go" (.ok { Name := "sub", Decls := [.funcDecl (declPlain "Neg" 3)] })]]

/-! ## One more test in a package of three files -/

/-- The file `setup.go`. -/
def setupGo : Path := ["proj", "setup.go"]

/-- The function `func Sub(a, b int) int { return a - b }` at line 7 of `add.go`. -/
def declSub : FuncDecl :=
  { Recv := none, Name := some { NamePos := ⟨addGo, 7, 6, none⟩, Name := "Sub" },
    Typ := { Func := ⟨addGo, 7, 1, none⟩ },
    Body := some [.other [.other [.ident "a", .ident "b"]]] }

/-- The function `func Reset() {}` at line 3 of `setup.go`. -/
def declReset : FuncDecl :=
  { Recv := none, Name := some { NamePos := ⟨setupGo, 3, 6, none⟩, Name := "Reset" },
    Typ := { Func := ⟨setupGo, 3, 1, none⟩ }, Body := some [] }

/-- The test `func TestSub(t *T) { t.Run("case", func(t *T) { Sub(2, 1) }) }` at
line 11 of `add_test.go`. -/
def declTestSubRun : FuncDecl :=
  { Recv := none, Name := some { NamePos := ⟨addTestGo, 11, 6, none⟩, Name := "TestSub" },
    Typ := { Func := ⟨addTestGo, 11, 1, none⟩ },
    Body := some [.other [.callExpr (.selectorExpr (.ident "t") "Run")
      [.other [], .funcLit (.other [.ident "t", .other [.ident "T"]])
        [.other [.callExpr (.ident "Sub") [.other [], .other []]]]]]] }

/-- The file `add.go` declaring `Add` and `Sub`. -/
def fileAddSub : File :=
  { Name := "proj", Decls := [.otherDecl, .funcDecl declAdd, .funcDecl declSub] }

/-- A package of three files: `add.go` declares `Add` and `Sub`, `add_test.go`
declares `TestAdd`, whose `Run` closure calls `Add`, and `setup.go` declares
`Reset`. -/
def pkgThreeFiles : Package :=
  { Name := "proj",
    Files := [(addGo, fileAddSub),
      (addTestGo, { Name := "proj", Decls := [.funcDecl declTestAddRun] }),
      (setupGo, { Name := "proj", Decls := [.funcDecl declReset] })] }

/-- The package `pkgThreeFiles` with the test `TestSub` added to `add_test.go`. -/
def pkgThreeFilesPlus : Package :=
  { Name := "proj",
    Files := [(addGo, fileAddSub),
      (addTestGo,
        { Name := "proj", Decls := [.funcDecl declTestAddRun, .funcDecl declTestSubRun] }),
      (setupGo, { Name := "proj", Decls := [.funcDecl declReset] })] }

/-! # Theorems -/

/-! ## `ast.Inspect` with a callback that raises a flag -/

mutual
theorem Inspect_flagCallback (p : Node → Bool) :
    ∀ (n : Node) (s : Bool), Inspect (flagCallback p) n s = (s || n.subnodes.any p)
  | .ident name, s => by
    by_cases h : p (.ident name) <;> simp [Inspect, inspectLeaf, flagCallback, Node.subnodes, h]
  | .selectorExpr x sel, s => by
    have hx := Inspect_flagCallback p x
    by_cases h : p (.selectorExpr x sel) <;> by_cases h2 : p (.ident sel) <;>
      simp [Inspect, inspectLeaf, flagCallback, Node.subnodes, h, h2, hx, Bool.or_assoc]
  | .callExpr fn args, s => by
    have hx := Inspect_flagCallback p fn
    have hl := inspectList_flagCallback p args
    by_cases h : p (.callExpr fn args) <;>
      simp [Inspect, flagCallback, Node.subnodes, h, hx, hl, Bool.or_assoc]
  | .funcLit typ body, s => by
    have hx := Inspect_flagCallback p typ
    have hl := inspectList_flagCallback p body
    by_cases h : p (.funcLit typ body) <;> by_cases h2 : p (.blockStmt body) <;>
      simp [Inspect, flagCallback, Node.subnodes, h, h2, hx, hl, Bool.or_assoc]
  | .blockStmt list, s => by
    have hl := inspectList_flagCallback p list
    by_cases h : p (.blockStmt list) <;>
      simp [Inspect, flagCallback, Node.subnodes, h, hl, Bool.or_assoc]
  | .other children, s => by
    have hl := inspectList_flagCallback p children
    by_cases h : p (.other children) <;>
      simp [Inspect, flagCallback, Node.subnodes, h, hl, Bool.or_assoc]
termination_by structural n => n

theorem inspectList_flagCallback (p : Node → Bool) :
    ∀ (l : List Node) (s : Bool),
      inspectList (flagCallback p) l s = (s || (subnodesList l).any p)
  | [], s => by simp [inspectList, subnodesList]
  | n :: ns, s => by
    have hn := Inspect_flagCallback p n
    have hl := inspectList_flagCallback p ns
    simp [inspectList, subnodesList, hn, hl, Bool.or_assoc]
termination_by structural l => l
end

mutual
theorem Inspect_panicFlagCallback (p : Node → Bool) :
    ∀ (n : Node) (s : Bool),
      Inspect (panicFlagCallback p) n (.ok s) = .ok (s || n.subnodes.any p)
  | .ident name, s => by
    by_cases h : p (.ident name) <;>
      simp [Inspect, inspectLeaf, panicFlagCallback, Node.subnodes, h]
  | .selectorExpr x sel, s => by
    have hx := Inspect_panicFlagCallback p x
    by_cases h : p (.selectorExpr x sel) <;> by_cases h2 : p (.ident sel) <;>
      simp [Inspect, inspectLeaf, panicFlagCallback, Node.subnodes, h, h2, hx, Bool.or_assoc]
  | .callExpr fn args, s => by
    have hx := Inspect_panicFlagCallback p fn
    have hl := inspectList_panicFlagCallback p args
    by_cases h : p (.callExpr fn args) <;>
      simp [Inspect, panicFlagCallback, Node.subnodes, h, hx, hl, Bool.or_assoc]
  | .funcLit typ body, s => by
    have hx := Inspect_panicFlagCallback p typ
    have hl := inspectList_panicFlagCallback p body
    by_cases h : p (.funcLit typ body) <;> by_cases h2 : p (.blockStmt body) <;>
      simp [Inspect, panicFlagCallback, Node.subnodes, h, h2, hx, hl, Bool.or_assoc]
  | .blockStmt list, s => by
    have hl := inspectList_panicFlagCallback p list
    by_cases h : p (.blockStmt list) <;>
      simp [Inspect, panicFlagCallback, Node.subnodes, h, hl, Bool.or_assoc]
  | .other children, s => by
    have hl := inspectList_panicFlagCallback p children
    by_cases h : p (.other children) <;>
      simp [Inspect, panicFlagCallback, Node.subnodes, h, hl, Bool.or_assoc]
termination_by structural n => n
theorem inspectList_panicFlagCallback (p : Node → Bool) :
    ∀ (l : List Node) (s : Bool),
      inspectList (panicFlagCallback p) l (.ok s) = .ok (s || (subnodesList l).any p)
  | [], s => by simp [inspectList, subnodesList]
  | n :: ns, s => by
    have hn := Inspect_panicFlagCallback p n
    have hl := inspectList_panicFlagCallback p ns
    simp [inspectList, subnodesList, hn, hl, Bool.or_assoc]
termination_by structural l => l
end

theorem isFunctionCalledInBlock_eq_any (block : List Node) (f : String) :
    isFunctionCalledInBlock block f = (subnodesList block).any (callsIdent f) := by
  have hcb : (fun (n : Option Node) (found : Bool) =>
      match n with
      | some (.callExpr (.ident name) _) =>
        if name = f then (false, true) else (true, found)
      | _ => (true, found)) = flagCallback (callsIdent f) := by
    funext n found
    cases n with
    | none => rfl
    | some m =>
      cases m with
      | callExpr fn args =>
        cases fn <;> simp [flagCallback, callsIdent]
      | _ => simp [flagCallback, callsIdent]
  unfold isFunctionCalledInBlock
  rw [hcb, Inspect_flagCallback]
  simp [Node.subnodes, callsIdent]

theorem isFunctionCalledInBlock_iff (block : List Node) (f : String) :
    isFunctionCalledInBlock block f = true ↔ SpecCallsByName f block := by
  rw [isFunctionCalledInBlock_eq_any, List.any_eq_true]
  constructor
  · rintro ⟨n, hn, hp⟩
    refine ⟨n, hn, ?_⟩
    cases n with
    | callExpr fn args =>
      cases fn with
      | ident name =>
        simp [callsIdent] at hp
        exact ⟨args, by rw [hp]⟩
      | _ => simp [callsIdent] at hp
    | _ => simp [callsIdent] at hp
  · rintro ⟨n, hn, args, rfl⟩
    exact ⟨_, hn, by simp [callsIdent]⟩

theorem any_runClosureCalls_iff (body : List Node) (f : String) :
    (subnodesList body).any (runClosureCalls f) = true ↔ SpecRunClosureCalls f body := by
  rw [List.any_eq_true]
  constructor
  · rintro ⟨n, hn, hp⟩
    refine ⟨n, hn, ?_⟩
    cases n with
    | callExpr fn args =>
      cases fn with
      | selectorExpr x sel =>
        rcases args with _ | ⟨a, _ | ⟨b, rest⟩⟩
        · simp [runClosureCalls] at hp
        · simp [runClosureCalls] at hp
        · cases b with
          | funcLit typ lit =>
            simp [runClosureCalls, isRunCall] at hp
            refine ⟨x, a, typ, lit, rest, by rw [hp.1], ?_⟩
            exact (isFunctionCalledInBlock_iff lit f).1 hp.2
          | _ => simp [runClosureCalls] at hp
      | _ => simp [runClosureCalls, isRunCall] at hp
    | _ => simp [runClosureCalls] at hp
  · rintro ⟨n, hn, x, a, typ, lit, rest, rfl, hc⟩
    refine ⟨_, hn, ?_⟩
    simp [runClosureCalls, isRunCall, (isFunctionCalledInBlock_iff lit f).2 hc]

/-- On a function with a body `isCalledInRun` does not panic: the index
`Args[1]` is guarded by the length test; it returns whether some node of the
body passes its node test. -/
theorem isCalledInRun_some (t : FuncDecl) (f : String) (body : List Node)
    (hb : t.Body = some body) :
    isCalledInRun t f = .ok ((subnodesList body).any (runClosureCalls f)) := by
  have hcb : (fun (n : Option Node) (st : Except Panic Bool) =>
      match st with
      | .error p => (false, Except.error p)
      | .ok found =>
        match n with
        | some (.callExpr fn args) =>
          if isRunCall (.callExpr fn args) then
            if 2 ≤ args.length then
              match args.get? 1 with
              | none => (false, .error .indexOutOfRange)
              | some (.funcLit _ lit) =>
                if isFunctionCalledInBlock lit f then (false, .ok true)
                else (true, .ok found)
              | some _ => (true, .ok found)
            else (true, .ok found)
          else (true, .ok found)
        | _ => (true, .ok found)) = panicFlagCallback (runClosureCalls f) := by
    funext n st
    cases st with
    | error p => cases n <;> rfl
    | ok found =>
      cases n with
      | none => rfl
      | some m =>
        cases m with
        | callExpr fn args =>
          by_cases hr : isRunCall (.callExpr fn args) = true
          · rcases args with _ | ⟨a, _ | ⟨b, rest⟩⟩
            · simp [panicFlagCallback, runClosureCalls, hr]
            · simp [panicFlagCallback, runClosureCalls, hr]
            · cases b <;> simp [panicFlagCallback, runClosureCalls, hr]
          · simp [panicFlagCallback, runClosureCalls, hr]
        | _ => simp [panicFlagCallback, runClosureCalls]
  simp only [isCalledInRun, hb]
  rw [hcb, Inspect_panicFlagCallback]
  simp [Node.subnodes, runClosureCalls]

/-- On a function without a body `isCalledInRun` panics. -/
theorem isCalledInRun_none (t : FuncDecl) (f : String) (hb : t.Body = none) :
    isCalledInRun t f = .error .nilDereference := by
  simp [isCalledInRun, hb]

/-- What `isCalledInRun` does: a panic on a nil body, and otherwise the answer
whether some node of the body passes its node test. -/
theorem isCalledInRun_eq (t : FuncDecl) (f : String) :
    isCalledInRun t f =
      if t.Body.isSome then .ok (calledInRun t f) else .error .nilDereference := by
  cases hb : t.Body with
  | none => simp [isCalledInRun_none t f hb]
  | some body => simp [isCalledInRun_some t f body hb, calledInRun, hb]

theorem calledInRun_iff (t : FuncDecl) (f : String) :
    calledInRun t f = true ↔ ∃ body, t.Body = some body ∧ SpecRunClosureCalls f body := by
  unfold calledInRun
  cases hb : t.Body with
  | none => simp
  | some body =>
    simp only [Option.some.injEq, exists_eq_left']
    exact any_runClosureCalls_iff body f

theorem any_eq_of_perm {α : Type} (p : α → Bool) {l1 l2 : List α} (h : l1.Perm l2) :
    l1.any p = l2.any p := by
  rw [Bool.eq_iff_iff, List.any_eq_true, List.any_eq_true]
  constructor
  · rintro ⟨x, hx, hp⟩
    exact ⟨x, h.mem_iff.1 hx, hp⟩
  · rintro ⟨x, hx, hp⟩
    exact ⟨x, h.mem_iff.2 hx, hp⟩

theorem any_calledInRun_iff (f : String) (testFuncs : GoMap String FuncDecl) :
    testFuncs.any (fun t => calledInRun t.2 f) = true ↔ SpecTested f testFuncs := by
  rw [List.any_eq_true]
  constructor
  · rintro ⟨t, ht, hc⟩
    exact ⟨t, ht, (calledInRun_iff t.2 f).1 hc⟩
  · rintro ⟨t, ht, hc⟩
    exact ⟨t, ht, (calledInRun_iff t.2 f).2 hc⟩

/-- The loop of `isTested`, when it returns, returns whether some test function
visited has a qualifying `Run` closure. -/
theorem isTestedLoop_ok (fd : FuncDecl) (id : Ident) (h : fd.Name = some id) :
    ∀ (l : List (String × FuncDecl)) (b : Bool), isTestedLoop fd l = .ok b →
      b = l.any (fun t => calledInRun t.2 id.Name)
  | [], b, hl => by
    simp only [isTestedLoop, Except.ok.injEq] at hl
    simp [← hl]
  | (k, t) :: rest, b, hl => by
    have ih := isTestedLoop_ok fd id h rest b
    simp only [isTestedLoop, h, isCalledInRun_eq] at hl
    cases hb : t.Body.isSome with
    | false => simp [hb] at hl
    | true =>
      simp only [hb, if_true] at hl
      cases hc : calledInRun t id.Name with
      | true =>
        simp only [hc, Except.ok.injEq] at hl
        simp [← hl, hc]
      | false =>
        simp only [hc] at hl
        simp [hc, ih hl]

/-- The loop of `isTested` on test functions that all have a body. -/
theorem isTestedLoop_eq (fd : FuncDecl) (id : Ident) (h : fd.Name = some id) :
    ∀ l : List (String × FuncDecl), (∀ t ∈ l, t.2.Body.isSome = true) →
      isTestedLoop fd l = .ok (l.any (fun t => calledInRun t.2 id.Name))
  | [], _ => by simp [isTestedLoop]
  | (k, t) :: rest, hb => by
    have ih := isTestedLoop_eq fd id h rest (fun t ht => hb t (List.mem_cons_of_mem _ ht))
    have hk : t.Body.isSome = true := hb (k, t) (List.mem_cons_self _ _)
    cases hc : calledInRun t id.Name <;>
      simp [isTestedLoop, h, isCalledInRun_eq, hk, hc, ih]

/-- The loop of `isTested` returns false only after it has searched the body of
every test function. -/
theorem isTestedLoop_false (fd : FuncDecl) (id : Ident) (h : fd.Name = some id) :
    ∀ l : List (String × FuncDecl), isTestedLoop fd l = .ok false →
      ∀ t ∈ l, t.2.Body.isSome = true
  | [], _ => by simp
  | (k, t) :: rest, hl => by
    have ih := isTestedLoop_false fd id h rest
    simp only [isTestedLoop, h, isCalledInRun_eq] at hl
    cases hb : t.Body.isSome with
    | false => simp [hb] at hl
    | true =>
      simp only [hb, if_true] at hl
      cases hc : calledInRun t id.Name with
      | true => simp [hc] at hl
      | false =>
        simp only [hc] at hl
        intro x hx
        rcases List.mem_cons.1 hx with rfl | hx
        · exact hb
        · exact ih hl x hx

/-- The only panic of the loop of `isTested` on a named function is the nil
dereference at a test function without a body. -/
theorem isTestedLoop_error (fd : FuncDecl) (id : Ident) (h : fd.Name = some id) :
    ∀ (l : List (String × FuncDecl)) (p : Panic), isTestedLoop fd l = .error p →
      p = .nilDereference ∧ ∃ t ∈ l, t.2.Body = none
  | [], p, hl => by simp [isTestedLoop] at hl
  | (k, t) :: rest, p, hl => by
    have ih := isTestedLoop_error fd id h rest p
    simp only [isTestedLoop, h, isCalledInRun_eq] at hl
    cases hb : t.Body with
    | none =>
      simp only [hb, Option.isSome_none, Bool.false_eq_true, if_false,
        Except.error.injEq] at hl
      exact ⟨hl.symm, (k, t), List.mem_cons_self _ _, hb⟩
    | some body =>
      simp only [hb, Option.isSome_some, if_true] at hl
      cases hc : calledInRun t id.Name with
      | true => simp [hc] at hl
      | false =>
        simp only [hc] at hl
        obtain ⟨hp, x, hx, hxb⟩ := ih hl
        exact ⟨hp, x, List.mem_cons_of_mem _ hx, hxb⟩

theorem hasBodies_visit (ord : RangeOrder) (testFuncs : GoMap String FuncDecl) :
    (∀ t ∈ ord.visit testFuncs, t.2.Body.isSome = true) ↔ HasBodies testFuncs := by
  unfold HasBodies
  constructor
  · exact fun h t ht => h t ((ord.visit_perm _).mem_iff.2 ht)
  · exact fun h t ht => h t ((ord.visit_perm _).mem_iff.1 ht)

/-- When `isTested` returns, it returns whether the table tests the name. -/
theorem isTested_ok (ord : RangeOrder) (fd : FuncDecl) (id : Ident) (h : fd.Name = some id)
    (testFuncs : GoMap String FuncDecl) (b : Bool) (hb : isTested ord fd testFuncs = .ok b) :
    b = testFuncs.any (fun t => calledInRun t.2 id.Name) := by
  unfold isTested at hb
  rw [isTestedLoop_ok fd id h _ b hb]
  exact any_eq_of_perm _ (ord.visit_perm testFuncs)

/-- On a table whose test functions all have a body, `isTested` returns. -/
theorem isTested_eq (ord : RangeOrder) (fd : FuncDecl) (id : Ident) (h : fd.Name = some id)
    (testFuncs : GoMap String FuncDecl) (hb : HasBodies testFuncs) :
    isTested ord fd testFuncs = .ok (testFuncs.any (fun t => calledInRun t.2 id.Name)) := by
  unfold isTested
  rw [isTestedLoop_eq fd id h _ ((hasBodies_visit ord testFuncs).2 hb)]
  congr 1
  exact any_eq_of_perm _ (ord.visit_perm testFuncs)

/-- `isTested` returns false exactly when every test function of the table has a
body and none has a qualifying `Run` closure, in every visiting order. -/
theorem isTested_false_iff (ord : RangeOrder) (fd : FuncDecl) (id : Ident)
    (h : fd.Name = some id) (testFuncs : GoMap String FuncDecl) :
    isTested ord fd testFuncs = .ok false ↔
      HasBodies testFuncs ∧ ¬ SpecTested id.Name testFuncs := by
  constructor
  · intro hf
    have hb : HasBodies testFuncs :=
      (hasBodies_visit ord testFuncs).1 (isTestedLoop_false fd id h _ hf)
    refine ⟨hb, ?_⟩
    rw [← any_calledInRun_iff, ← isTested_ok ord fd id h testFuncs false hf]
    simp
  · rintro ⟨hb, hn⟩
    rw [isTested_eq ord fd id h testFuncs hb]
    rw [← any_calledInRun_iff] at hn
    simp only [Bool.not_eq_true] at hn
    rw [hn]

theorem isTested_true (ord : RangeOrder) (fd : FuncDecl) (id : Ident) (h : fd.Name = some id)
    (testFuncs : GoMap String FuncDecl) (ht : isTested ord fd testFuncs = .ok true) :
    SpecTested id.Name testFuncs := by
  rw [← any_calledInRun_iff, ← isTested_ok ord fd id h testFuncs true ht]

theorem isTested_error (ord : RangeOrder) (fd : FuncDecl) (id : Ident) (h : fd.Name = some id)
    (testFuncs : GoMap String FuncDecl) (p : Panic) (hp : isTested ord fd testFuncs = .error p) :
    p = .nilDereference ∧ ¬ HasBodies testFuncs := by
  obtain ⟨h1, t, ht, hb⟩ := isTestedLoop_error fd id h _ p hp
  refine ⟨h1, fun hall => ?_⟩
  have := hall t ((ord.visit_perm _).mem_iff.1 ht)
  rw [hb] at this
  cases this

/-- With a test function without a body in the table and no test function with a
qualifying `Run` closure, `isTested` panics in every visiting order. -/
theorem isTested_panics (ord : RangeOrder) (fd : FuncDecl) (id : Ident) (h : fd.Name = some id)
    (testFuncs : GoMap String FuncDecl) (hb : ¬ HasBodies testFuncs)
    (hn : ¬ SpecTested id.Name testFuncs) :
    isTested ord fd testFuncs = .error .nilDereference := by
  cases hr : isTested ord fd testFuncs with
  | error p => rw [(isTested_error ord fd id h testFuncs p hr).1]
  | ok b =>
    cases b with
    | true => exact absurd (isTested_true ord fd id h testFuncs hr) hn
    | false => exact absurd ((isTested_false_iff ord fd id h testFuncs).1 hr).1 hb

/-- C1, the code against the claim.  For a candidate `f` and a table whose test
functions all have a body, `isTested` returns, and it returns true exactly
when some test function of the table has in its body a call of a selector
named `Run` with at least two arguments whose second argument is a function
literal whose body contains a call of the bare identifier `f`.  A test
function without a body breaks this: `isTested` returns false only when no
test function lacks a body, so with `func TestAdd(t *T)` in the table it
panics where the claim says false, and with a second test function that does
call `f` in a `Run` closure it returns true or panics by the order in which
the table is visited. -/
theorem C1_isTested_panics_on_test_without_body :
    (∀ (ord : RangeOrder) (f : FuncDecl) (id : Ident) (T : GoMap String FuncDecl),
        f.Name = some id →
          (HasBodies T →
            (isTested ord f T = .ok true ↔ SpecTested id.Name T) ∧
              (isTested ord f T = .ok false ↔ ¬ SpecTested id.Name T)) ∧
          (isTested ord f T = .ok true → SpecTested id.Name T) ∧
          (isTested ord f T = .ok false ↔ HasBodies T ∧ ¬ SpecTested id.Name T) ∧
          (¬ HasBodies T → ¬ SpecTested id.Name T →
            isTested ord f T = .error .nilDereference)) ∧
      (SpecTested "Add" [("TestAdd", declTestAddRun)] ∧
        isTested RangeOrder.stored declAdd [("TestAdd", declTestAddRun)] = .ok true) ∧
      (¬ SpecTested "Add" [("TestAdd", declTestAddNoBody)] ∧
        isTested RangeOrder.stored declAdd [("TestAdd", declTestAddNoBody)] =
          .error .nilDereference) ∧
      (SpecTested "Add" [("TestAdd", declTestAddRun), ("TestAndSet", declTestAndSet)] ∧
        isTested RangeOrder.stored declAdd
            [("TestAdd", declTestAddRun), ("TestAndSet", declTestAndSet)] = .ok true ∧
        isTested RangeOrder.reversed declAdd
            [("TestAdd", declTestAddRun), ("TestAndSet", declTestAndSet)] =
          .error .nilDereference) := by
  refine ⟨?_, ⟨?_, by decide⟩, ⟨?_, by decide⟩, ⟨?_, by decide, by decide⟩⟩
  · intro ord f id T hname
    refine ⟨fun hb => ?_, isTested_true ord f id hname T,
      isTested_false_iff ord f id hname T, isTested_panics ord f id hname T⟩
    rw [isTested_eq ord f id hname T hb, ← any_calledInRun_iff]
    cases T.any (fun t => calledInRun t.2 id.Name) <;> simp
  · exact (any_calledInRun_iff _ _).1 (by decide)
  · rw [← any_calledInRun_iff]
    decide
  · exact (any_calledInRun_iff _ _).1 (by decide)

/-! ## Maps -/

theorem GoMap.mem_insert {κ α : Type} [DecidableEq κ] (m : GoMap κ α) (k : κ) (v : α)
    (e : κ × α) : e ∈ m.insert k v ↔ (e ∈ m ∧ e.1 ≠ k) ∨ e = (k, v) := by
  simp [GoMap.insert, List.mem_append, List.mem_filter]

theorem GoMap.mem_keys_insert {κ α : Type} [DecidableEq κ] (m : GoMap κ α) (k : κ) (v : α)
    (n : κ) : n ∈ (m.insert k v).keys ↔ n ∈ m.keys ∨ n = k := by
  simp only [GoMap.keys, List.mem_map]
  constructor
  · rintro ⟨e, he, rfl⟩
    rcases (GoMap.mem_insert m k v e).1 he with ⟨h1, _⟩ | h
    · exact Or.inl ⟨e, h1, rfl⟩
    · exact Or.inr (by rw [h])
  · rintro (⟨e, he, rfl⟩ | rfl)
    · by_cases hk : e.1 = k
      · exact ⟨(k, v), (GoMap.mem_insert m k v _).2 (Or.inr rfl), hk.symm⟩
      · exact ⟨e, (GoMap.mem_insert m k v e).2 (Or.inl ⟨he, hk⟩), rfl⟩
    · exact ⟨(n, v), (GoMap.mem_insert m n v _).2 (Or.inr rfl), rfl⟩

theorem GoMap.keys_insert_nodup {κ α : Type} [DecidableEq κ] (m : GoMap κ α) (k : κ) (v : α)
    (h : m.keys.Nodup) : (m.insert k v).keys.Nodup := by
  unfold GoMap.keys GoMap.insert
  rw [List.map_append, List.nodup_append]
  refine ⟨?_, by simp, ?_⟩
  · exact List.Nodup.sublist ((List.filter_sublist _).map _) h
  · intro x hx hx2
    simp only [List.map_cons, List.map_nil, List.mem_singleton] at hx2
    simp only [List.mem_map, List.mem_filter] at hx
    obtain ⟨e, ⟨_, he⟩, rfl⟩ := hx
    simp at he
    exact he hx2

/-! ## The classifier -/

theorem classifyDecls_append (tb : Tables) (l1 l2 : List Decl) :
    classifyDecls tb (l1 ++ l2) =
      match classifyDecls tb l1 with
      | .error p => .error p
      | .ok tb1 => classifyDecls tb1 l2 := by
  induction l1 generalizing tb with
  | nil => simp [classifyDecls]
  | cons d ds ih =>
    simp only [List.cons_append, classifyDecls]
    cases classifyDecl tb d with
    | error p => rfl
    | ok tb1 => exact ih tb1

theorem classifyFiles_eq (tb : Tables) (fs : List (Path × File)) :
    classifyFiles tb fs = classifyDecls tb (fs.flatMap (fun e => e.2.Decls)) := by
  induction fs generalizing tb with
  | nil => simp [classifyFiles, classifyDecls]
  | cons f fs ih =>
    obtain ⟨p, file⟩ := f
    simp only [classifyFiles, List.flatMap_cons, classifyDecls_append]
    cases classifyDecls tb file.Decls with
    | error p => rfl
    | ok tb1 => exact ih tb1

theorem classify_eq (ord : RangeOrder) (pkg : Package) :
    classify ord pkg = classifyDecls { testFuncs := [], publicFuncs := [] } (scanOrder ord pkg) := by
  unfold classify scanOrder
  exact classifyFiles_eq _ _

theorem mem_scanOrder (ord : RangeOrder) (pkg : Package) (d : Decl) :
    d ∈ scanOrder ord pkg ↔ d ∈ pkg.decls := by
  unfold scanOrder Package.decls
  simp only [List.mem_flatMap]
  constructor
  · rintro ⟨e, he, hd⟩
    exact ⟨e, (ord.visit_perm pkg.Files).mem_iff.1 he, hd⟩
  · rintro ⟨e, he, hd⟩
    exact ⟨e, (ord.visit_perm pkg.Files).mem_iff.2 he, hd⟩

/-- One step of the scan: what `classifyDecl` does to the tables. -/
theorem classifyDecl_spec (tb tb1 : Tables) (d : Decl) (h : classifyDecl tb d = .ok tb1)
    (hwf : tb.WF) :
    tb1.WF ∧
      (∀ n, n ∈ tb1.testFuncs.keys ↔ n ∈ tb.testFuncs.keys ∨ (IsTestName n ∧ DeclaresFunc n d)) ∧
      (∀ n, n ∈ tb1.publicFuncs.keys ↔
        n ∈ tb.publicFuncs.keys ∨ (IsCandidateName n ∧ DeclaresFunc n d)) ∧
      (∀ e ∈ tb1.testFuncs, e ∈ tb.testFuncs ∨ d = .funcDecl e.2) ∧
      (∀ e ∈ tb1.publicFuncs, e ∈ tb.publicFuncs ∨ d = .funcDecl e.2) := by
  obtain ⟨hn1, hn2, ht, hp⟩ := hwf
  have notTest : ∀ n, IsCandidateName n → ¬ IsTestName n := by
    intro n hc htn
    rw [IsTestName, hc.1] at htn
    exact Bool.false_ne_true htn
  cases d with
  | otherDecl =>
    simp only [classifyDecl, Except.ok.injEq] at h
    subst h
    refine ⟨⟨hn1, hn2, ht, hp⟩, ?_, ?_, fun e he => Or.inl he, fun e he => Or.inl he⟩ <;>
      intro n <;> simp [DeclaresFunc]
  | funcDecl fd =>
    cases hname : fd.Name with
    | none =>
      simp only [classifyDecl, hname, Except.ok.injEq] at h
      subst h
      refine ⟨⟨hn1, hn2, ht, hp⟩, ?_, ?_, fun e he => Or.inl he, fun e he => Or.inl he⟩ <;>
        intro n <;> simp [DeclaresFunc, hname]
    | some id =>
      have hdecl : ∀ n, DeclaresFunc n (.funcDecl fd) ↔ n = id.Name := by
        intro n
        constructor
        · rintro ⟨fd1, id1, heq, hn, rfl⟩
          cases heq
          rw [hname] at hn
          cases hn
          rfl
        · rintro rfl
          exact ⟨fd, id, rfl, hname, rfl⟩
      by_cases hpre : hasPrefix id.Name "Test" = true
      · simp only [classifyDecl, hname, hpre, if_true, Except.ok.injEq] at h
        subst h
        refine ⟨⟨GoMap.keys_insert_nodup _ _ _ hn1, hn2, ?_, hp⟩, ?_, ?_, ?_,
          fun e he => Or.inl he⟩
        · intro e he
          rcases (GoMap.mem_insert _ _ _ e).1 he with ⟨h1, _⟩ | rfl
          · exact ht e h1
          · exact ⟨hpre, id, hname, rfl⟩
        · intro n
          rw [GoMap.mem_keys_insert, hdecl]
          constructor
          · rintro (h1 | rfl)
            · exact Or.inl h1
            · exact Or.inr ⟨hpre, rfl⟩
          · rintro (h1 | ⟨_, h2⟩)
            · exact Or.inl h1
            · exact Or.inr h2
        · intro n
          rw [hdecl]
          constructor
          · exact fun h1 => Or.inl h1
          · rintro (h1 | ⟨h2, rfl⟩)
            · exact h1
            · exact absurd hpre (notTest _ h2)
        · intro e he
          rcases (GoMap.mem_insert _ _ _ e).1 he with ⟨h1, _⟩ | rfl
          · exact Or.inl h1
          · exact Or.inr rfl
      · have hpre2 : hasPrefix id.Name "Test" = false := by
          cases hb : hasPrefix id.Name "Test"
          · rfl
          · exact absurd hb hpre
        cases hhead : (goBytes id.Name).head? with
        | none => simp [classifyDecl, hname, hpre2, hhead] at h
        | some b =>
          by_cases hup : isUpperLatin1 b = true
          · simp only [classifyDecl, hname, hpre2, hhead, hup, if_true, Except.ok.injEq] at h
            simp only [Bool.false_eq_true, if_false, Except.ok.injEq] at h
            subst h
            have hcand : IsCandidateName id.Name := ⟨hpre2, b, hhead, hup⟩
            refine ⟨⟨hn1, GoMap.keys_insert_nodup _ _ _ hn2, ht, ?_⟩, ?_, ?_,
              fun e he => Or.inl he, ?_⟩
            · intro e he
              rcases (GoMap.mem_insert _ _ _ e).1 he with ⟨h1, _⟩ | rfl
              · exact hp e h1
              · exact ⟨hcand, id, hname, rfl⟩
            · intro n
              rw [hdecl]
              constructor
              · exact fun h1 => Or.inl h1
              · rintro (h1 | ⟨h2, rfl⟩)
                · exact h1
                · exact absurd h2 hpre
            · intro n
              rw [GoMap.mem_keys_insert, hdecl]
              constructor
              · rintro (h1 | rfl)
                · exact Or.inl h1
                · exact Or.inr ⟨hcand, rfl⟩
              · rintro (h1 | ⟨_, h2⟩)
                · exact Or.inl h1
                · exact Or.inr h2
            · intro e he
              rcases (GoMap.mem_insert _ _ _ e).1 he with ⟨h1, _⟩ | rfl
              · exact Or.inl h1
              · exact Or.inr rfl
          · simp only [classifyDecl, hname, hpre2, hhead, hup, Except.ok.injEq] at h
            simp only [Bool.false_eq_true, if_false, Except.ok.injEq] at h
            subst h
            refine ⟨⟨hn1, hn2, ht, hp⟩, ?_, ?_, fun e he => Or.inl he, fun e he => Or.inl he⟩
            · intro n
              rw [hdecl]
              constructor
              · exact fun h1 => Or.inl h1
              · rintro (h1 | ⟨h2, rfl⟩)
                · exact h1
                · exact absurd h2 hpre
            · intro n
              rw [hdecl]
              constructor
              · exact fun h1 => Or.inl h1
              · rintro (h1 | ⟨⟨_, b2, hb2, hu2⟩, rfl⟩)
                · exact h1
                · rw [hhead] at hb2
                  cases hb2
                  exact absurd hu2 hup

theorem goBytes_head_of_ne_empty (n : String) (h : n ≠ "") : ∃ b, (goBytes n).head? = some b := by
  have hdata : n.data ≠ [] := by
    intro h0
    apply h
    apply String.ext
    rw [h0]
  obtain ⟨c, cs, hc⟩ := List.exists_cons_of_ne_nil hdata
  have henc : String.utf8EncodeChar c ≠ [] := by
    intro h0
    have h1 := String.length_utf8EncodeChar c
    rw [h0] at h1
    have h2 := Char.utf8Size_pos c
    simp at h1
    omega
  obtain ⟨u, us, hu⟩ := List.exists_cons_of_ne_nil henc
  refine ⟨u.toNat, ?_⟩
  simp [goBytes, String.toUTF8, hc, hu]

theorem classifyDecl_total (tb : Tables) (d : Decl) (h : ∀ n, DeclaresFunc n d → n ≠ "") :
    ∃ tb1, classifyDecl tb d = .ok tb1 := by
  cases d with
  | otherDecl => exact ⟨tb, rfl⟩
  | funcDecl fd =>
    cases hname : fd.Name with
    | none => exact ⟨tb, by simp [classifyDecl, hname]⟩
    | some id =>
      obtain ⟨b, hb⟩ := goBytes_head_of_ne_empty id.Name (h _ ⟨fd, id, rfl, hname, rfl⟩)
      simp only [classifyDecl, hname, hb]
      split
      · exact ⟨_, rfl⟩
      · split
        · exact ⟨_, rfl⟩
        · exact ⟨_, rfl⟩

theorem classifyDecls_total (ds : List Decl) (h : ∀ d ∈ ds, ∀ n, DeclaresFunc n d → n ≠ "") :
    ∀ tb : Tables, ∃ tb1, classifyDecls tb ds = .ok tb1 := by
  induction ds with
  | nil => exact fun tb => ⟨tb, rfl⟩
  | cons d ds ih =>
    intro tb
    obtain ⟨tb1, h1⟩ := classifyDecl_total tb d (h d (List.mem_cons_self _ _))
    obtain ⟨tb2, h2⟩ := ih (fun d1 hd1 => h d1 (List.mem_cons_of_mem _ hd1)) tb1
    exact ⟨tb2, by simp [classifyDecls, h1, h2]⟩

/-- The scan of a list of declarations: what `classifyDecls` does to the tables. -/
theorem classifyDecls_spec (ds : List Decl) :
    ∀ (tb tb1 : Tables), classifyDecls tb ds = .ok tb1 → tb.WF →
      tb1.WF ∧
        (∀ n, n ∈ tb1.testFuncs.keys ↔
          n ∈ tb.testFuncs.keys ∨ (IsTestName n ∧ ∃ d ∈ ds, DeclaresFunc n d)) ∧
        (∀ n, n ∈ tb1.publicFuncs.keys ↔
          n ∈ tb.publicFuncs.keys ∨ (IsCandidateName n ∧ ∃ d ∈ ds, DeclaresFunc n d)) ∧
        (∀ e ∈ tb1.testFuncs, e ∈ tb.testFuncs ∨ .funcDecl e.2 ∈ ds) ∧
        (∀ e ∈ tb1.publicFuncs, e ∈ tb.publicFuncs ∨ .funcDecl e.2 ∈ ds) := by
  induction ds with
  | nil =>
    intro tb tb1 h hwf
    simp only [classifyDecls, Except.ok.injEq] at h
    subst h
    refine ⟨hwf, ?_, ?_, fun e he => Or.inl he, fun e he => Or.inl he⟩ <;> intro n <;> simp
  | cons d ds ih =>
    intro tb tb1 h hwf
    simp only [classifyDecls] at h
    cases hstep : classifyDecl tb d with
    | error p => simp [hstep] at h
    | ok tbm =>
      simp only [hstep] at h
      obtain ⟨wfm, kt, kp, vt, vp⟩ := classifyDecl_spec tb tbm d hstep hwf
      obtain ⟨wf1, kt1, kp1, vt1, vp1⟩ := ih tbm tb1 h wfm
      refine ⟨wf1, ?_, ?_, ?_, ?_⟩
      · intro n
        rw [kt1, kt]
        simp only [List.mem_cons, exists_eq_or_imp]
        tauto
      · intro n
        rw [kp1, kp]
        simp only [List.mem_cons, exists_eq_or_imp]
        tauto
      · intro e he
        rcases vt1 e he with h1 | h1
        · rcases vt e h1 with h2 | h2
          · exact Or.inl h2
          · exact Or.inr (by rw [h2]; exact List.mem_cons_self _ _)
        · exact Or.inr (List.mem_cons_of_mem _ h1)
      · intro e he
        rcases vp1 e he with h1 | h1
        · rcases vp e h1 with h2 | h2
          · exact Or.inl h2
          · exact Or.inr (by rw [h2]; exact List.mem_cons_self _ _)
        · exact Or.inr (List.mem_cons_of_mem _ h1)

theorem Tables.WF_empty : Tables.WF { testFuncs := [], publicFuncs := [] } := by
  refine ⟨?_, ?_, ?_, ?_⟩ <;> simp [GoMap.keys]

/-- The tables `checkPackage` has built when the scan of a package is over. -/
theorem classify_spec (ord : RangeOrder) (pkg : Package) (tb : Tables)
    (h : classify ord pkg = .ok tb) :
    tb.WF ∧
      (∀ n, n ∈ tb.testFuncs.keys ↔ (IsTestName n ∧ ∃ d ∈ pkg.decls, DeclaresFunc n d)) ∧
      (∀ n, n ∈ tb.publicFuncs.keys ↔ (IsCandidateName n ∧ ∃ d ∈ pkg.decls, DeclaresFunc n d)) ∧
      (∀ e ∈ tb.testFuncs, .funcDecl e.2 ∈ pkg.decls) ∧
      (∀ e ∈ tb.publicFuncs, .funcDecl e.2 ∈ pkg.decls) := by
  rw [classify_eq] at h
  obtain ⟨wf, kt, kp, vt, vp⟩ := classifyDecls_spec _ _ _ h Tables.WF_empty
  refine ⟨wf, ?_, ?_, ?_, ?_⟩
  · intro n
    rw [kt]
    simp [GoMap.keys, mem_scanOrder]
  · intro n
    rw [kp]
    simp [GoMap.keys, mem_scanOrder]
  · intro e he
    rcases vt e he with h1 | h1
    · simp at h1
    · exact (mem_scanOrder ord pkg _).1 h1
  · intro e he
    rcases vp e he with h1 | h1
    · simp at h1
    · exact (mem_scanOrder ord pkg _).1 h1

theorem classify_total (ord : RangeOrder) (pkg : Package)
    (h : ∀ d ∈ pkg.decls, ∀ n, DeclaresFunc n d → n ≠ "") :
    ∃ tb, classify ord pkg = .ok tb := by
  rw [classify_eq]
  exact classifyDecls_total _ (fun d hd => h d ((mem_scanOrder ord pkg d).1 hd)) _

/-! ## The report -/

theorem untestedMessage_injective (a b : String) (h : untestedMessage a = untestedMessage b) :
    a = b := by
  unfold untestedMessage at h
  rw [String.ext_iff] at h
  simp only [String.data_append] at h
  exact String.ext (List.append_cancel_left (List.append_cancel_right h))


/-- When `isTested` returns on an entry of the candidate table, it returns
whether the table of test functions tests the name of the entry. -/
theorem isTested_of_keyed (ord : RangeOrder) (testFuncs : GoMap String FuncDecl)
    (e : String × FuncDecl) (h : KeyedByName e) (b : Bool)
    (hb : isTested ord e.2 testFuncs = .ok b) : b = !isUntested testFuncs e := by
  obtain ⟨id, hn, hk⟩ := h
  rw [isTested_ok ord e.2 id hn testFuncs b hb, hk]
  simp [isUntested]

theorem isTested_of_bodies (ord : RangeOrder) (testFuncs : GoMap String FuncDecl)
    (e : String × FuncDecl) (h : KeyedByName e) (hb : HasBodies testFuncs) :
    isTested ord e.2 testFuncs = .ok (!isUntested testFuncs e) := by
  obtain ⟨id, hn, hk⟩ := h
  rw [isTested_eq ord e.2 id hn testFuncs hb, hk]
  simp [isUntested]

theorem mem_filter_isUntested (testFuncs : GoMap String FuncDecl) (e : String × FuncDecl) :
    isUntested testFuncs e = true ↔ ¬ SpecTested e.1 testFuncs := by
  rw [← any_calledInRun_iff]
  simp [isUntested]

/-- The report loop, when it returns: one result for each entry that is not
tested, in the order of the entries. -/
theorem reportLoop_ok (ord : RangeOrder) (fileSet : FileSet) (testFuncs : GoMap String FuncDecl) :
    ∀ (l : List (String × FuncDecl)) (acc results : List CheckerResult),
      (∀ e ∈ l, KeyedByName e) → reportLoop ord fileSet testFuncs l acc = .ok results →
        results = acc ++ (l.filter (isUntested testFuncs)).map (fun e => mkResult fileSet e.1 e.2)
  | [], acc, results, _, hr => by
    simp only [reportLoop, Except.ok.injEq] at hr
    simp [← hr]
  | (k, fd) :: rest, acc, results, h, hr => by
    have ih := fun acc1 => reportLoop_ok ord fileSet testFuncs rest acc1 results
      (fun e he => h e (List.mem_cons_of_mem _ he))
    rw [reportLoop] at hr
    cases ht : isTested ord fd testFuncs with
    | error p => simp [ht] at hr
    | ok tested =>
      have hk := isTested_of_keyed ord testFuncs (k, fd) (h _ (List.mem_cons_self _ _))
        tested ht
      simp only [ht] at hr
      cases hu : isUntested testFuncs (k, fd) with
      | true =>
        rw [hu] at hk
        simp only [Bool.not_true] at hk
        subst hk
        simp only [Bool.not_false, if_true] at hr
        rw [ih _ hr]
        simp [List.filter_cons, hu]
      | false =>
        rw [hu] at hk
        simp only [Bool.not_false] at hk
        subst hk
        simp only [Bool.not_true, Bool.false_eq_true, if_false] at hr
        rw [ih _ hr]
        simp [List.filter_cons, hu]

/-- The report loop on a table of test functions that all have a body. -/
theorem reportLoop_eq (ord : RangeOrder) (fileSet : FileSet) (testFuncs : GoMap String FuncDecl)
    (hb : HasBodies testFuncs) :
    ∀ (l : List (String × FuncDecl)) (acc : List CheckerResult),
      (∀ e ∈ l, KeyedByName e) →
        reportLoop ord fileSet testFuncs l acc =
          .ok (acc ++ (l.filter (isUntested testFuncs)).map (fun e => mkResult fileSet e.1 e.2))
  | [], acc, _ => by simp [reportLoop]
  | (k, fd) :: rest, acc, h => by
    have hk := isTested_of_bodies ord testFuncs (k, fd) (h _ (List.mem_cons_self _ _)) hb
    have ih := fun acc1 => reportLoop_eq ord fileSet testFuncs hb rest acc1
      (fun e he => h e (List.mem_cons_of_mem _ he))
    simp only at hk
    cases hu : isUntested testFuncs (k, fd) <;>
      simp [reportLoop, hk, hu, ih, List.filter_cons]

/-- The only panic of the report loop is the nil dereference of `isTested`. -/
theorem reportLoop_error (ord : RangeOrder) (fileSet : FileSet)
    (testFuncs : GoMap String FuncDecl) :
    ∀ (l : List (String × FuncDecl)) (acc : List CheckerResult) (p : Panic),
      (∀ e ∈ l, KeyedByName e) → reportLoop ord fileSet testFuncs l acc = .error p →
        p = .nilDereference ∧ ¬ HasBodies testFuncs
  | [], acc, p, _, hr => by simp [reportLoop] at hr
  | (k, fd) :: rest, acc, p, h, hr => by
    have ih := fun acc1 => reportLoop_error ord fileSet testFuncs rest acc1 p
      (fun e he => h e (List.mem_cons_of_mem _ he))
    obtain ⟨id, hn, -⟩ := h (k, fd) (List.mem_cons_self _ _)
    rw [reportLoop] at hr
    cases ht : isTested ord fd testFuncs with
    | error q =>
      simp only [ht, Except.error.injEq] at hr
      rw [← hr]
      exact isTested_error ord fd id hn testFuncs q ht
    | ok tested =>
      simp only [ht] at hr
      split at hr
      · exact ih _ hr
      · exact ih _ hr

/-- The report loop panics as soon as `isTested` panics on one of the entries. -/
theorem reportLoop_panics (ord : RangeOrder) (fileSet : FileSet)
    (testFuncs : GoMap String FuncDecl) :
    ∀ (l : List (String × FuncDecl)) (acc : List CheckerResult),
      (∀ e ∈ l, KeyedByName e) →
        (∃ e ∈ l, isTested ord e.2 testFuncs = .error .nilDereference) →
          reportLoop ord fileSet testFuncs l acc = .error .nilDereference
  | [], acc, _, hex => by simp at hex
  | (k, fd) :: rest, acc, h, hex => by
    have ih := fun acc1 => reportLoop_panics ord fileSet testFuncs rest acc1
      (fun e he => h e (List.mem_cons_of_mem _ he))
    obtain ⟨id, hn, -⟩ := h (k, fd) (List.mem_cons_self _ _)
    rw [reportLoop]
    cases ht : isTested ord fd testFuncs with
    | error q =>
      simp only
      rw [(isTested_error ord fd id hn testFuncs q ht).1]
    | ok tested =>
      have hrest : ∃ e ∈ rest, isTested ord e.2 testFuncs = .error .nilDereference := by
        obtain ⟨e, he, hp⟩ := hex
        rcases List.mem_cons.1 he with rfl | he
        · rw [ht] at hp
          cases hp
        · exact ⟨e, he, hp⟩
      simp only
      split
      · exact ih _ hrest
      · exact ih _ hrest

theorem visit_keyed (ord : RangeOrder) (pkg : Package) (tb : Tables)
    (h : classify ord pkg = .ok tb) : ∀ e ∈ ord.visit tb.publicFuncs, KeyedByName e := by
  obtain ⟨wf, -⟩ := classify_spec ord pkg tb h
  exact fun e he => (wf.2.2.2 e ((ord.visit_perm _).mem_iff.1 he)).2

/-- The results of `checkPackage`, when it returns: one result for each entry of
`publicFuncs` that is not tested, in the order the table is visited. -/
theorem checkPackage_ok (ord : RangeOrder) (pkg : Package) (fileSet : FileSet) (tb : Tables)
    (h : classify ord pkg = .ok tb) (res : Option (List CheckerResult)) (err : Option GoError)
    (hr : checkPackage ord pkg fileSet = .ok (res, err)) :
    err = none ∧
      res = some (((ord.visit tb.publicFuncs).filter (isUntested tb.testFuncs)).map
        (fun e => mkResult fileSet e.1 e.2)) := by
  simp only [checkPackage, h] at hr
  cases hl : reportLoop ord fileSet tb.testFuncs (ord.visit tb.publicFuncs) [] with
  | error p => simp [hl] at hr
  | ok results =>
    simp only [hl, Except.ok.injEq, Prod.mk.injEq] at hr
    have := reportLoop_ok ord fileSet tb.testFuncs _ [] results (visit_keyed ord pkg tb h) hl
    simp only [List.nil_append] at this
    exact ⟨hr.2.symm, by rw [← hr.1, this]⟩

/-- The results of `checkPackage` once the tables are built, when every test
function of the table has a body. -/
theorem checkPackage_eq (ord : RangeOrder) (pkg : Package) (fileSet : FileSet) (tb : Tables)
    (h : classify ord pkg = .ok tb) (hb : HasBodies tb.testFuncs) :
    checkPackage ord pkg fileSet =
      .ok (some (((ord.visit tb.publicFuncs).filter (isUntested tb.testFuncs)).map
        (fun e => mkResult fileSet e.1 e.2)), none) := by
  simp [checkPackage, h, reportLoop_eq ord fileSet tb.testFuncs hb _ [] (visit_keyed ord pkg tb h)]

/-- With a test function without a body in the table and a candidate that no
test function tests, `checkPackage` panics in every visiting order. -/
theorem checkPackage_panics (ord : RangeOrder) (pkg : Package) (fileSet : FileSet) (tb : Tables)
    (h : classify ord pkg = .ok tb) (hb : ¬ HasBodies tb.testFuncs)
    (hc : ∃ c ∈ tb.publicFuncs, ¬ SpecTested c.1 tb.testFuncs) :
    checkPackage ord pkg fileSet = .error .nilDereference := by
  obtain ⟨wf, -⟩ := classify_spec ord pkg tb h
  obtain ⟨c, hmem, hn⟩ := hc
  obtain ⟨-, id, hid, hkey⟩ := wf.2.2.2 c hmem
  have hp : isTested ord c.2 tb.testFuncs = .error .nilDereference :=
    isTested_panics ord c.2 id hid tb.testFuncs hb (by rw [hkey]; exact hn)
  simp [checkPackage, h, reportLoop_panics ord fileSet tb.testFuncs _ []
    (visit_keyed ord pkg tb h) ⟨c, (ord.visit_perm _).mem_iff.2 hmem, hp⟩]

theorem visit_keys_nodup (ord : RangeOrder) (m : GoMap String FuncDecl) (h : m.keys.Nodup) :
    ((ord.visit m).map Prod.fst).Nodup :=
  (((ord.visit_perm m).map Prod.fst).nodup_iff).2 h

theorem mem_of_keys_nodup {m : GoMap String FuncDecl} (h : m.keys.Nodup) {k : String}
    {v w : FuncDecl} (hv : (k, v) ∈ m) (hw : (k, w) ∈ m) : v = w := by
  induction m with
  | nil => cases hv
  | cons e m ih =>
    simp only [GoMap.keys, List.map_cons, List.nodup_cons, List.mem_map, not_exists, not_and] at h
    rcases List.mem_cons.1 hv with rfl | hv1 <;> rcases List.mem_cons.1 hw with h2 | hw1
    · cases h2; rfl
    · exact absurd rfl (h.1 (k, w) hw1)
    · subst h2; exact absurd rfl (h.1 (k, v) hv1)
    · exact ih h.2 hv1 hw1

theorem results_messages_nodup (ord : RangeOrder) (fileSet : FileSet) (tb : Tables)
    (hwf : tb.WF) :
    ((((ord.visit tb.publicFuncs).filter (isUntested tb.testFuncs)).map
      (fun e => mkResult fileSet e.1 e.2)).map (fun r => r.Message)).Nodup := by
  have hnod : (((ord.visit tb.publicFuncs).filter (isUntested tb.testFuncs)).map
      Prod.fst).Nodup :=
    List.Nodup.sublist ((List.filter_sublist _).map _) (visit_keys_nodup ord _ hwf.2.1)
  have : (((ord.visit tb.publicFuncs).filter (isUntested tb.testFuncs)).map
      (fun e => mkResult fileSet e.1 e.2)).map (fun r => r.Message) =
      (((ord.visit tb.publicFuncs).filter (isUntested tb.testFuncs)).map Prod.fst).map
        untestedMessage := by
    simp [mkResult, Function.comp_def]
  rw [this]
  exact List.Nodup.map_on (fun a _ b _ hab => untestedMessage_injective a b hab) hnod

/-- A returned list comes from a table whose test functions all have a body, as
soon as some candidate is not tested. -/
theorem hasBodies_of_ok (ord : RangeOrder) (pkg : Package) (fileSet : FileSet) (tb : Tables)
    (h : classify ord pkg = .ok tb) (res : Option (List CheckerResult)) (err : Option GoError)
    (hr : checkPackage ord pkg fileSet = .ok (res, err))
    (hc : ∃ c ∈ tb.publicFuncs, ¬ SpecTested c.1 tb.testFuncs) : HasBodies tb.testFuncs := by
  by_contra hb
  rw [checkPackage_panics ord pkg fileSet tb h hb hc] at hr
  cases hr

/-- The Findings of a returned list are those of the candidates on which
`isTested` is false. -/
theorem checkPackage_mem_iff (ord : RangeOrder) (pkg : Package) (fileSet : FileSet) (tb : Tables)
    (h : classify ord pkg = .ok tb) (results : List CheckerResult)
    (hr : checkPackage ord pkg fileSet = .ok (some results, none)) (r : CheckerResult) :
    r ∈ results ↔
      ∃ e ∈ tb.publicFuncs, isTested ord e.2 tb.testFuncs = .ok false ∧
        r = mkResult fileSet e.1 e.2 := by
  obtain ⟨wf, -⟩ := classify_spec ord pkg tb h
  obtain ⟨-, hres⟩ := checkPackage_ok ord pkg fileSet tb h _ _ hr
  simp only [Option.some.injEq] at hres
  have key : ∀ e ∈ tb.publicFuncs,
      (isUntested tb.testFuncs e = true ↔ isTested ord e.2 tb.testFuncs = .ok false) := by
    intro e he
    obtain ⟨-, id, hid, hkey⟩ := wf.2.2.2 e he
    rw [mem_filter_isUntested, isTested_false_iff ord e.2 id hid, hkey]
    constructor
    · exact fun hn => ⟨hasBodies_of_ok ord pkg fileSet tb h _ _ hr ⟨e, he, hn⟩, hn⟩
    · exact fun hn => hn.2
  rw [hres]
  simp only [List.mem_map, List.mem_filter]
  constructor
  · rintro ⟨e, ⟨hv, hu⟩, rfl⟩
    have he := (ord.visit_perm _).mem_iff.1 hv
    exact ⟨e, he, (key e he).1 hu, rfl⟩
  · rintro ⟨e, he, ht, rfl⟩
    exact ⟨e, ⟨(ord.visit_perm _).mem_iff.2 he, (key e he).2 ht⟩, rfl⟩

/-- A returned list holds exactly one Finding for each untested candidate. -/
theorem checkPackage_exactly (ord : RangeOrder) (pkg : Package) (fileSet : FileSet) (tb : Tables)
    (h : classify ord pkg = .ok tb) (results : List CheckerResult)
    (hr : checkPackage ord pkg fileSet = .ok (some results, none)) :
    ExactlyUntested ord tb results := by
  obtain ⟨wf, -⟩ := classify_spec ord pkg tb h
  obtain ⟨-, hres⟩ := checkPackage_ok ord pkg fileSet tb h _ _ hr
  simp only [Option.some.injEq] at hres
  have hnod : (((ord.visit tb.publicFuncs).filter (isUntested tb.testFuncs)).map
      Prod.fst).Nodup :=
    List.Nodup.sublist ((List.filter_sublist _).map _) (visit_keys_nodup ord _ wf.2.1)
  refine ⟨((ord.visit tb.publicFuncs).filter (isUntested tb.testFuncs)).map Prod.fst,
    ?_, hnod, ?_, ?_⟩
  · rw [hres]
    simp [mkResult, Function.comp_def]
  · rw [hres]
    exact results_messages_nodup ord fileSet tb wf
  · intro n
    constructor
    · intro hn
      obtain ⟨e, he, rfl⟩ := List.mem_map.1 hn
      have hmem : mkResult fileSet e.1 e.2 ∈ results := by
        rw [hres]
        exact List.mem_map.2 ⟨e, he, rfl⟩
      obtain ⟨e2, he2, ht, heq⟩ := (checkPackage_mem_iff ord pkg fileSet tb h results hr _).1 hmem
      have hname : e.1 = e2.1 := by
        have := congrArg CheckerResult.Message heq
        exact untestedMessage_injective _ _ this
      exact ⟨e2.2, by rw [hname]; exact he2, ht⟩
    · rintro ⟨fd, hmem, ht⟩
      have := (checkPackage_mem_iff ord pkg fileSet tb h results hr
        (mkResult fileSet n fd)).2 ⟨(n, fd), hmem, ht, rfl⟩
      rw [hres] at this
      obtain ⟨e, he, heq⟩ := List.mem_map.1 this
      have hname : e.1 = n := untestedMessage_injective _ _ (congrArg CheckerResult.Message heq)
      exact List.mem_map.2 ⟨e, he, hname⟩

/-- C2, the code against the claim.  Once the tables are built, every list
`checkPackage` returns holds exactly one Finding for each name of the
exported-candidate table for which `isTested` is false and none for any other
function, and `checkPackage` returns such a list whenever every test function
of the table has a body (as on scenario C).  With a test function without a
body in the table and a candidate that no test function tests, it panics in
every visiting order and returns no Finding at all: so it does on `Add`, the
body-less `TestAndSet` and the test of scenario C. -/
theorem C2_checkPackage_panics_on_test_without_body :
    (∀ (ord : RangeOrder) (pkg : Package) (fileSet : FileSet) (tb : Tables),
        classify ord pkg = .ok tb →
          (∀ results, checkPackage ord pkg fileSet = .ok (some results, none) →
            ExactlyUntested ord tb results) ∧
          (HasBodies tb.testFuncs →
            ∃ results, checkPackage ord pkg fileSet = .ok (some results, none)) ∧
          (¬ HasBodies tb.testFuncs → (∃ c ∈ tb.publicFuncs, ¬ SpecTested c.1 tb.testFuncs) →
            checkPackage ord pkg fileSet = .error .nilDereference)) ∧
      checkPackage RangeOrder.stored pkgScenarioC fileSetProj =
        .ok (some [⟨addGo, 3, 1, untestedMessage "Add"⟩], none) ∧
      ((classify RangeOrder.stored pkgDirectCallAndSet).map Tables.keys =
          .ok (["TestAndSet", "TestAdd"], ["Add"]) ∧
        ¬ SpecTested "Add" [("TestAndSet", declTestAndSet), ("TestAdd", declTestAddDirect)] ∧
        checkPackage RangeOrder.stored pkgDirectCallAndSet fileSetProj = .error .nilDereference ∧
        checkPackage RangeOrder.reversed pkgDirectCallAndSet fileSetProj =
          .error .nilDereference) := by
  refine ⟨?_, by decide, by decide, ?_, by decide, by decide⟩
  · intro ord pkg fileSet tb h
    exact ⟨fun results hr => checkPackage_exactly ord pkg fileSet tb h results hr,
      fun hb => ⟨_, checkPackage_eq ord pkg fileSet tb h hb⟩,
      checkPackage_panics ord pkg fileSet tb h⟩
  · rw [← any_calledInRun_iff]
    decide

/-- C3, the code against the claim.  In a package whose tables are built, let `f`
be an exported candidate such that no test function declared in the package
has a `Run` call whose function-literal second argument calls `f` by its bare
name (every call to `f` in test functions lies outside those closures).  Then
every list `checkPackage` returns holds the Finding for `f`, and it returns
one when every test function of the table has a body (as on scenario C).  When
a test function of the table has no body it panics instead: with `add.go` and
`func TestAdd(t *T)` no Finding for `Add` is produced. -/
theorem C3_unreported_on_test_without_body :
    (∀ (ord : RangeOrder) (pkg : Package) (fileSet : FileSet) (tb : Tables) (f : String)
        (fd : FuncDecl), classify ord pkg = .ok tb → (f, fd) ∈ tb.publicFuncs →
          (∀ t id body, .funcDecl t ∈ pkg.decls → t.Name = some id →
            hasPrefix id.Name "Test" = true → t.Body = some body →
              ¬ SpecRunClosureCalls f body) →
            (∀ results, checkPackage ord pkg fileSet = .ok (some results, none) →
              mkResult fileSet f fd ∈ results) ∧
            (HasBodies tb.testFuncs →
              ∃ results, checkPackage ord pkg fileSet = .ok (some results, none)) ∧
            (¬ HasBodies tb.testFuncs →
              checkPackage ord pkg fileSet = .error .nilDereference)) ∧
      checkPackage RangeOrder.stored pkgScenarioC fileSetProj =
        .ok (some [mkResult fileSetProj "Add" declAdd], none) ∧
      ((classify RangeOrder.stored pkgTestWithoutBody).map Tables.keys =
          .ok (["TestAdd"], ["Add"]) ∧
        (∀ t id body, .funcDecl t ∈ pkgTestWithoutBody.decls → t.Name = some id →
          hasPrefix id.Name "Test" = true → t.Body = some body →
            ¬ SpecRunClosureCalls "Add" body) ∧
        checkPackage RangeOrder.stored pkgTestWithoutBody fileSetProj =
          .error .nilDereference) := by
  refine ⟨?_, by decide, by decide, ?_, by decide⟩
  · intro ord pkg fileSet tb f fd h hf hout
    obtain ⟨wf, -, -, vt, -⟩ := classify_spec ord pkg tb h
    have hnot : ¬ SpecTested f tb.testFuncs := by
      rintro ⟨t, ht, body, hbody, hcall⟩
      obtain ⟨htest, id, hid, hkey⟩ := wf.2.2.1 t ht
      exact hout t.2 id body (vt t ht) hid (by rw [hkey]; exact htest) hbody hcall
    obtain ⟨-, id, hid, hkey⟩ := wf.2.2.2 (f, fd) hf
    refine ⟨fun results hr => ?_, fun hb => ⟨_, checkPackage_eq ord pkg fileSet tb h hb⟩,
      fun hb => checkPackage_panics ord pkg fileSet tb h hb ⟨(f, fd), hf, hnot⟩⟩
    refine (checkPackage_mem_iff ord pkg fileSet tb h results hr _).2 ⟨(f, fd), hf, ?_, rfl⟩
    rw [isTested_false_iff ord fd id hid, hkey]
    exact ⟨hasBodies_of_ok ord pkg fileSet tb h _ _ hr ⟨(f, fd), hf, hnot⟩, hnot⟩
  · intro t id body ht hid hpre hbody
    have : t = declAdd ∨ t = declTestAddNoBody := by
      simpa [Package.decls, pkgTestWithoutBody, fileAdd] using ht
    rcases this with rfl | rfl
    · simp only [declAdd, Option.some.injEq] at hid
      subst hid
      exact absurd hpre (by decide)
    · simp [declTestAddNoBody] at hbody

/-- Counterexample to C4: `TestAdd` is declared twice, first with a `Run` closure
calling `Add`, then with an empty body.  A test function declared in the
package calls `Add` inside a `Run` closure, and `checkPackage` still reports
`Add`, because the table keeps the declaration scanned last. -/
theorem C4_counterexample_test_declared_twice :
    (.funcDecl declTestAddRun ∈ pkgTestDeclaredTwice.decls ∧
        hasPrefix "TestAdd" "Test" = true ∧
        isCalledInRun declTestAddRun "Add" = .ok true) ∧
      checkPackage RangeOrder.stored pkgTestDeclaredTwice fileSetProj =
        .ok (some [⟨addGo, 3, 1, untestedMessage "Add"⟩], none) := by
  refine ⟨⟨?_, by decide, by decide⟩, by decide⟩
  simp [Package.decls, pkgTestDeclaredTwice]

/-- C4 as amended: if some test function of the test-function table (for each
name the declaration scanned last) has a `Run` call whose function-literal
second argument calls `f` by its bare name, then no list `checkPackage`
returns holds a Finding for `f`, whatever else the package declares; and
`checkPackage` returns a list when every test function of the table has a
body. -/
theorem C4_tested_by_table_entry_not_reported (ord : RangeOrder) (pkg : Package)
    (fileSet : FileSet) (tb : Tables) (f : String)
    (h : classify ord pkg = .ok tb) (hcall : SpecTested f tb.testFuncs) :
    (∀ results, checkPackage ord pkg fileSet = .ok (some results, none) →
        ∀ r ∈ results, r.Message ≠ untestedMessage f) ∧
      (HasBodies tb.testFuncs →
        ∃ results, checkPackage ord pkg fileSet = .ok (some results, none)) := by
  obtain ⟨wf, -⟩ := classify_spec ord pkg tb h
  refine ⟨?_, fun hb => ⟨_, checkPackage_eq ord pkg fileSet tb h hb⟩⟩
  intro results hr r hmem hmsg
  obtain ⟨e, he, ht, rfl⟩ := (checkPackage_mem_iff ord pkg fileSet tb h results hr r).1 hmem
  have hname : e.1 = f := untestedMessage_injective _ _ hmsg
  obtain ⟨-, id, hid, hkey⟩ := wf.2.2.2 e he
  have := ((isTested_false_iff ord e.2 id hid tb.testFuncs).1 ht).2
  rw [hkey, hname] at this
  exact this hcall

/-- Witness of amended C4 on scenario A. -/
theorem C4_witness_scenario_a :
    SpecTested "Add" tablesScenarioA.testFuncs ∧
      checkPackage RangeOrder.stored pkgScenarioA fileSetProj = .ok (some [], none) ∧
      ((∀ results, checkPackage RangeOrder.stored pkgScenarioA fileSetProj =
            .ok (some results, none) → ∀ r ∈ results, r.Message ≠ untestedMessage "Add") ∧
        (HasBodies tablesScenarioA.testFuncs →
          ∃ results, checkPackage RangeOrder.stored pkgScenarioA fileSetProj =
            .ok (some results, none))) :=
  have hcall : SpecTested "Add" tablesScenarioA.testFuncs :=
    (any_calledInRun_iff "Add" tablesScenarioA.testFuncs).1 (by decide)
  ⟨hcall, by decide,
    C4_tested_by_table_entry_not_reported RangeOrder.stored pkgScenarioA fileSetProj
      tablesScenarioA "Add" rfl hcall⟩

/-- C5: in a package all of whose named function declarations have a non-empty
name, the classifier completes, and of the tables it builds: a declared name
is a key of the test-function table if and only if it begins with `Test`, and
only declared names are keys; no name is a key of both tables; and two
declarations of one name are classified alike whatever else they hold. -/
theorem C5_test_table_iff_name_begins_with_Test (ord : RangeOrder) (pkg : Package)
    (hne : ∀ d ∈ pkg.decls, ∀ n, DeclaresFunc n d → n ≠ "") :
    ∃ tb, classify ord pkg = .ok tb ∧
      (∀ n, (∃ d ∈ pkg.decls, DeclaresFunc n d) →
        (n ∈ tb.testFuncs.keys ↔ hasPrefix n "Test" = true)) ∧
      (∀ n, n ∈ tb.testFuncs.keys → ∃ d ∈ pkg.decls, DeclaresFunc n d) ∧
      (∀ n, ¬ (n ∈ tb.testFuncs.keys ∧ n ∈ tb.publicFuncs.keys)) ∧
      (∀ (tb0 : Tables) (d1 d2 : FuncDecl),
        d1.Name.map (fun id => id.Name) = d2.Name.map (fun id => id.Name) →
          (classifyDecl tb0 (.funcDecl d1)).map Tables.keys =
            (classifyDecl tb0 (.funcDecl d2)).map Tables.keys) := by
  obtain ⟨tb, htb⟩ := classify_total ord pkg hne
  obtain ⟨-, kt, kp, -, -⟩ := classify_spec ord pkg tb htb
  refine ⟨tb, htb, ?_, ?_, ?_, ?_⟩
  · intro n hd
    rw [kt]
    exact ⟨fun h1 => h1.1, fun h1 => ⟨h1, hd⟩⟩
  · intro n hn
    exact ((kt n).1 hn).2
  · rintro n ⟨h1, h2⟩
    have ht := ((kt n).1 h1).1
    have hc := ((kp n).1 h2).1.1
    rw [IsTestName, hc] at ht
    exact Bool.false_ne_true ht
  · intro tb0 d1 d2 hsame
    cases h1 : d1.Name with
    | none =>
      cases h2 : d2.Name with
      | none => simp [classifyDecl, h1, h2]
      | some id2 => simp [h1, h2] at hsame
    | some id1 =>
      cases h2 : d2.Name with
      | none => simp [h1, h2] at hsame
      | some id2 =>
        simp only [h1, h2, Option.map_some', Option.some.injEq] at hsame
        simp only [classifyDecl, h1, h2, hsame]
        split
        · simp [Except.map, Tables.keys, GoMap.keys, GoMap.insert]
        · split
          · rfl
          · split <;> simp [Except.map, Tables.keys, GoMap.keys, GoMap.insert]

/-- Witness of C5 on scenario A. -/
theorem C5_witness_scenario_a :
    ∃ tb, classify RangeOrder.stored pkgScenarioA = .ok tb ∧
      (∀ n, (∃ d ∈ pkgScenarioA.decls, DeclaresFunc n d) →
        (n ∈ tb.testFuncs.keys ↔ hasPrefix n "Test" = true)) ∧
      (∀ n, n ∈ tb.testFuncs.keys → ∃ d ∈ pkgScenarioA.decls, DeclaresFunc n d) ∧
      (∀ n, ¬ (n ∈ tb.testFuncs.keys ∧ n ∈ tb.publicFuncs.keys)) ∧
      (∀ (tb0 : Tables) (d1 d2 : FuncDecl),
        d1.Name.map (fun id => id.Name) = d2.Name.map (fun id => id.Name) →
          (classifyDecl tb0 (.funcDecl d1)).map Tables.keys =
            (classifyDecl tb0 (.funcDecl d2)).map Tables.keys) :=
  C5_test_table_iff_name_begins_with_Test RangeOrder.stored pkgScenarioA (by
    intro d hd n hn
    have hd1 : d = .otherDecl ∨ d = .funcDecl declAdd ∨ d = .funcDecl declTestAddRun := by
      simpa [Package.decls, pkgScenarioA, fileAdd] using hd
    obtain ⟨fd, id, hdecl, hname, rfl⟩ := hn
    rcases hd1 with rfl | rfl | rfl
    · cases hdecl
    · cases hdecl
      simp only [declAdd, Option.some.injEq] at hname
      subst hname
      decide
    · cases hdecl
      simp only [declTestAddRun, Option.some.injEq] at hname
      subst hname
      decide)

/-- C6, the code at the failing input `func étoile() {}`: the first rune `é`
(U+00E9) is not upper case, the name does not begin with `Test`, and yet the
classifier enters the name in the exported-candidate table and `checkPackage`
reports it, because byte 0 of the name is `0xC3`, which read as a rune is the
upper-case letter `Ã`. -/
theorem C6_lowercase_first_rune_classified_exported :
    ("étoile".get 0).toNat = 0xE9 ∧ isUpperLatin1 ("étoile".get 0).toNat = false ∧
      hasPrefix "étoile" "Test" = false ∧
      (goBytes "étoile").head? = some 0xC3 ∧
      (classify RangeOrder.stored pkgEtoile).map Tables.keys = .ok ([], ["étoile"]) ∧
      checkPackage RangeOrder.stored pkgEtoile fileSetProj =
        .ok (some [⟨addGo, 7, 1, untestedMessage "étoile"⟩], none) := by
  refine ⟨by decide, by decide, by decide, by decide, by decide, by decide⟩

/-- Counterexample to C7: the method `func (e *Example) Value() string` has a
receiver, and the classifier enters it in the exported-candidate table; as no
test calls it, `checkPackage` produces a Finding for the method.  And the
method `func (s *Suite) TestAdd(t *T)` is entered in the test-function table
and serves as a test function: its `Run` closure calls `Add`, and `Add` is
not reported. -/
theorem C7_counterexample_method_reported :
    (declValueMethod.Recv.isSome = true ∧
        (classify RangeOrder.stored pkgMethod).map Tables.keys = .ok ([], ["Value"]) ∧
        checkPackage RangeOrder.stored pkgMethod fileSetProj =
          .ok (some [⟨addGo, 9, 1, untestedMessage "Value"⟩], none)) ∧
      (declSuiteTestAdd.Recv.isSome = true ∧
        (classify RangeOrder.stored pkgSuiteMethod).map Tables.keys =
          .ok (["TestAdd"], ["Add"]) ∧
        isTested RangeOrder.stored declAdd [("TestAdd", declSuiteTestAdd)] = .ok true ∧
        checkPackage RangeOrder.stored pkgSuiteMethod fileSetProj = .ok (some [], none)) := by
  refine ⟨⟨by decide, by decide, by decide⟩, by decide, by decide, by decide, by decide⟩

/-- C7 as amended: the classifier and the decider never read the receiver, so a
method is treated exactly like the function of the same name and body.  In a
package whose tables are built, a declared method whose name begins with
`Test` has its name in the test-function table, and when the table holds it,
it serves as a test function: a name called in a `Run` closure of its body
gets no Finding.  A declared method whose name does not begin with `Test` and
starts with an upper-case byte has its name in the exported-candidate table,
and gets a Finding in every list returned when the table does not test it.
`checkPackage` returns a list when every test function of the table has a
body. -/
theorem C7_method_classified_by_name (ord : RangeOrder) (pkg : Package) (fileSet : FileSet)
    (tb : Tables) (m : FuncDecl) (id : Ident)
    (h : classify ord pkg = .ok tb) (hm : .funcDecl m ∈ pkg.decls)
    (hrecv : m.Recv.isSome = true) (hname : m.Name = some id) :
    (∀ tb0, (classifyDecl tb0 (.funcDecl m)).map Tables.keys =
        (classifyDecl tb0 (.funcDecl { m with Recv := none })).map Tables.keys) ∧
      (∀ f, isCalledInRun m f = isCalledInRun { m with Recv := none } f) ∧
      (hasPrefix id.Name "Test" = true → id.Name ∈ tb.testFuncs.keys) ∧
      (IsCandidateName id.Name → id.Name ∈ tb.publicFuncs.keys) ∧
      (∀ f body, (id.Name, m) ∈ tb.testFuncs → m.Body = some body →
        SpecRunClosureCalls f body →
          ∀ results, checkPackage ord pkg fileSet = .ok (some results, none) →
            ∀ r ∈ results, r.Message ≠ untestedMessage f) ∧
      (IsCandidateName id.Name → ¬ SpecTested id.Name tb.testFuncs →
        ∀ results, checkPackage ord pkg fileSet = .ok (some results, none) →
          ∃ r ∈ results, r.Message = untestedMessage id.Name) ∧
      (HasBodies tb.testFuncs →
        ∃ results, checkPackage ord pkg fileSet = .ok (some results, none)) := by
  have _ := hrecv
  obtain ⟨wf, kt, kp, -, -⟩ := classify_spec ord pkg tb h
  have hdecl : ∃ d ∈ pkg.decls, DeclaresFunc id.Name d := ⟨_, hm, m, id, rfl, hname, rfl⟩
  refine ⟨?_, fun f => rfl, fun h1 => (kt _).2 ⟨h1, hdecl⟩, fun h1 => (kp _).2 ⟨h1, hdecl⟩,
    ?_, ?_, fun hb => ⟨_, checkPackage_eq ord pkg fileSet tb h hb⟩⟩
  · intro tb0
    simp only [classifyDecl, hname]
    split
    · simp [Except.map, Tables.keys, GoMap.keys, GoMap.insert]
    · split
      · rfl
      · split <;> simp [Except.map, Tables.keys, GoMap.keys, GoMap.insert]
  · intro f body hmem hbody hcall results hr r hmemr hmsg
    obtain ⟨e, he, ht, rfl⟩ := (checkPackage_mem_iff ord pkg fileSet tb h results hr r).1 hmemr
    have hf : e.1 = f := untestedMessage_injective _ _ hmsg
    obtain ⟨-, id2, hid2, hkey⟩ := wf.2.2.2 e he
    have hnot := ((isTested_false_iff ord e.2 id2 hid2 tb.testFuncs).1 ht).2
    rw [hkey, hf] at hnot
    exact hnot ⟨(id.Name, m), hmem, body, hbody, hcall⟩
  · intro hc hnot results hr
    have hkey : id.Name ∈ tb.publicFuncs.keys := (kp _).2 ⟨hc, hdecl⟩
    obtain ⟨e, he, hk⟩ := List.mem_map.1 hkey
    obtain ⟨-, id2, hid2, hkey2⟩ := wf.2.2.2 e he
    have hnot2 : ¬ SpecTested e.1 tb.testFuncs := by rw [hk]; exact hnot
    refine ⟨mkResult fileSet e.1 e.2, ?_, by simp [mkResult, hk]⟩
    refine (checkPackage_mem_iff ord pkg fileSet tb h results hr _).2 ⟨e, he, ?_, rfl⟩
    rw [isTested_false_iff ord e.2 id2 hid2, hkey2]
    exact ⟨hasBodies_of_ok ord pkg fileSet tb h _ _ hr ⟨e, he, hnot2⟩, hnot2⟩

/-- Witness of amended C7: the method `Value` is reported, and the method
`TestAdd` of `*Suite` is a key of the test-function table and keeps `Add` from
being reported. -/
theorem C7_witness_method_value :
    (classify RangeOrder.stored pkgMethod =
        .ok { testFuncs := [], publicFuncs := [("Value", declValueMethod)] } ∧
      checkPackage RangeOrder.stored pkgMethod fileSetProj =
        .ok (some [⟨addGo, 9, 1, untestedMessage "Value"⟩], none) ∧
      (IsCandidateName "Value" → "Value" ∈ ["Value"]) ∧
      (IsCandidateName "Value" → ¬ SpecTested "Value" [] →
        ∀ results, checkPackage RangeOrder.stored pkgMethod fileSetProj =
            .ok (some results, none) →
          ∃ r ∈ results, r.Message = untestedMessage "Value")) ∧
    (classify RangeOrder.stored pkgSuiteMethod =
        .ok { testFuncs := [("TestAdd", declSuiteTestAdd)], publicFuncs := [("Add", declAdd)] } ∧
      checkPackage RangeOrder.stored pkgSuiteMethod fileSetProj = .ok (some [], none) ∧
      (hasPrefix "TestAdd" "Test" = true → "TestAdd" ∈ ["TestAdd"]) ∧
      (∀ f body, ("TestAdd", declSuiteTestAdd) ∈ [("TestAdd", declSuiteTestAdd)] →
        declSuiteTestAdd.Body = some body → SpecRunClosureCalls f body →
          ∀ results, checkPackage RangeOrder.stored pkgSuiteMethod fileSetProj =
              .ok (some results, none) →
            ∀ r ∈ results, r.Message ≠ untestedMessage f)) :=
  have h1 := C7_method_classified_by_name RangeOrder.stored pkgMethod fileSetProj
    { testFuncs := [], publicFuncs := [("Value", declValueMethod)] } declValueMethod
    { NamePos := ⟨addGo, 9, 20, none⟩, Name := "Value" } rfl
    (by simp [Package.decls, pkgMethod]) rfl rfl
  have h2 := C7_method_classified_by_name RangeOrder.stored pkgSuiteMethod fileSetProj
    { testFuncs := [("TestAdd", declSuiteTestAdd)], publicFuncs := [("Add", declAdd)] }
    declSuiteTestAdd { NamePos := ⟨addTestGo, 7, 17, none⟩, Name := "TestAdd" } rfl
    (by simp [Package.decls, pkgSuiteMethod]) rfl rfl
  ⟨⟨rfl, by decide, h1.2.2.2.1, h1.2.2.2.2.2.1⟩, ⟨rfl, by decide, h2.2.2.1, h2.2.2.2.2.1⟩⟩

/-- Counterexample to C8: `Add` is declared at line 3 with the `func` keyword in
column 1 and the name token `Add` in column 6; the Finding for `Add` carries
column 1, not the column of the name token. -/
theorem C8_counterexample_position_of_func_keyword :
    identAdd.NamePos = ⟨addGo, 3, 6, none⟩ ∧ declAdd.Name = some identAdd ∧
      checkPackage RangeOrder.stored pkgScenarioB fileSetProj =
        .ok (some [⟨addGo, 3, 1, untestedMessage "Add"⟩], none) ∧
      (1 : Nat) ≠ (fileSetProj.Position identAdd.NamePos).Column := by
  refine ⟨rfl, rfl, by decide, by decide⟩

/-- C8 as amended: in a package whose tables are built, in every list
`checkPackage` returns the Finding of every untested exported candidate `f`
carries the file name, line and column of `funcDecl.Pos()`, the position of
the `func` keyword of the declaration the table holds for `f`, as the file set
resolves it; and every Finding returned is such a Finding.  `checkPackage`
returns a list when every test function of the table has a body. -/
theorem C8_finding_at_func_keyword (ord : RangeOrder) (pkg : Package) (fileSet : FileSet)
    (tb : Tables) (h : classify ord pkg = .ok tb) :
    (∀ results, checkPackage ord pkg fileSet = .ok (some results, none) →
      (∀ f fd, (f, fd) ∈ tb.publicFuncs → isTested ord fd tb.testFuncs = .ok false →
        ∃ r ∈ results, r.Message = untestedMessage f ∧
          r.FileName = (fileSet.Position fd.Typ.Func).Filename ∧
          r.Line = (fileSet.Position fd.Typ.Func).Line ∧
          r.Column = (fileSet.Position fd.Typ.Func).Column) ∧
      (∀ r ∈ results, ∃ f fd, (f, fd) ∈ tb.publicFuncs ∧
        isTested ord fd tb.testFuncs = .ok false ∧
        r.Message = untestedMessage f ∧
          r.FileName = (fileSet.Position fd.Typ.Func).Filename ∧
          r.Line = (fileSet.Position fd.Typ.Func).Line ∧
          r.Column = (fileSet.Position fd.Typ.Func).Column)) ∧
      (HasBodies tb.testFuncs →
        ∃ results, checkPackage ord pkg fileSet = .ok (some results, none)) := by
  refine ⟨fun results hr => ⟨?_, ?_⟩, fun hb => ⟨_, checkPackage_eq ord pkg fileSet tb h hb⟩⟩
  · intro f fd hmem ht
    exact ⟨mkResult fileSet f fd,
      (checkPackage_mem_iff ord pkg fileSet tb h results hr _).2 ⟨(f, fd), hmem, ht, rfl⟩,
      rfl, rfl, rfl, rfl⟩
  · intro r hmem
    obtain ⟨e, he, ht, rfl⟩ := (checkPackage_mem_iff ord pkg fileSet tb h results hr r).1 hmem
    exact ⟨e.1, e.2, he, ht, rfl, rfl, rfl, rfl⟩

/-- Witness of amended C8 on scenario B. -/
theorem C8_witness_scenario_b :
    classify RangeOrder.stored pkgScenarioB =
        .ok { testFuncs := [], publicFuncs := [("Add", declAdd)] } ∧
      checkPackage RangeOrder.stored pkgScenarioB fileSetProj =
        .ok (some [⟨addGo, 3, 1, untestedMessage "Add"⟩], none) ∧
      ((∀ results, checkPackage RangeOrder.stored pkgScenarioB fileSetProj =
          .ok (some results, none) →
        (∀ f fd, (f, fd) ∈ [("Add", declAdd)] → isTested RangeOrder.stored fd [] = .ok false →
          ∃ r ∈ results, r.Message = untestedMessage f ∧
            r.FileName = (fileSetProj.Position fd.Typ.Func).Filename ∧
            r.Line = (fileSetProj.Position fd.Typ.Func).Line ∧
            r.Column = (fileSetProj.Position fd.Typ.Func).Column) ∧
        (∀ r ∈ results, ∃ f fd, (f, fd) ∈ [("Add", declAdd)] ∧
          isTested RangeOrder.stored fd [] = .ok false ∧
          r.Message = untestedMessage f ∧
            r.FileName = (fileSetProj.Position fd.Typ.Func).Filename ∧
            r.Line = (fileSetProj.Position fd.Typ.Func).Line ∧
            r.Column = (fileSetProj.Position fd.Typ.Func).Column)) ∧
        (HasBodies ([] : GoMap String FuncDecl) →
          ∃ results, checkPackage RangeOrder.stored pkgScenarioB fileSetProj =
            .ok (some results, none))) :=
  ⟨rfl, by decide,
    C8_finding_at_func_keyword RangeOrder.stored pkgScenarioB fileSetProj
      { testFuncs := [], publicFuncs := [("Add", declAdd)] } rfl⟩

/-! ## The walk of `Check` -/

theorem checkWalkFn_visible (ord : RangeOrder) (path : Path) (name : String)
    (entries : List FsEntry) (s : List CheckerResult) (hv : hasPrefix name "." = false) :
    checkWalkFn ord path (some (.dir name none entries)) none s =
      match checkDirectory ord path (.dir name none entries) with
      | .error p => .error p
      | .ok (_, some err) => .ok (s, some (.failed (.directory path err)))
      | .ok (dirResults, none) => .ok (s ++ dirResults.getD [], none) := by
  simp [checkWalkFn, FsEntry.isDir, FsEntry.name, hv]

theorem checkWalkFn_hidden (ord : RangeOrder) (path : Path) (name : String)
    (entries : List FsEntry) (s : List CheckerResult) (hv : hasPrefix name "." = true) :
    checkWalkFn ord path (some (.dir name none entries)) none s = .ok (s, some .skipDir) := by
  simp [checkWalkFn, FsEntry.isDir, FsEntry.name, hv]

/-- The walk of a directory that can be read: the callback gets no error. -/
theorem walk_readable {σ : Type} (walkFn : WalkFunc σ) (path : Path) (name : String)
    (entries : List FsEntry) (s : σ) :
    walk walkFn path (.dir name none entries) s =
      match walkFn path (some (.dir name none entries)) none s with
      | .error p => .error p
      | .ok (s1, err1) =>
        if (none : Option ReadError).isSome || err1.isSome then .ok (s1, err1)
        else walkEntries walkFn path entries s1 := by
  rw [walk]
  rfl

mutual
theorem walk_post (ord : RangeOrder) :
    ∀ (e : FsEntry) (path : Path) (s : List CheckerResult),
      WalkPost ord path e s (walk (checkWalkFn ord) path e s)
  | .file name content, path, s => by
    simp [walk, checkWalkFn, FsEntry.isDir, WalkPost, Fails, traversalFails, scannedDirs]
  | .broken name isDir err, path, s => by
    simp [walk, checkWalkFn, WalkPost, Fails, traversalFails]
  | .dir name (some err) entries, path, s => by
    simp [walk, checkWalkFn, WalkPost, Fails, traversalFails]
  | .dir name none entries, path, s => by
    cases hv : hasPrefix name "."
    · -- a directory that is scanned
      have hl := walkEntries_post ord entries path
      rw [walk_readable, checkWalkFn_visible ord path name entries s hv]
      cases hcd : checkDirectory ord path (.dir name none entries) with
      | error p =>
        simp only [WalkPost]
        exact ⟨(path, .dir name none entries), by simp [scannedDirs, hv], hcd⟩
      | ok r =>
        obtain ⟨rs, oerr⟩ := r
        cases oerr with
        | some err =>
          simp only [Option.isSome_none, Option.isSome_some, Bool.or_true, if_true, WalkPost]
          exact Or.inr ⟨(path, .dir name none entries), by simp [scannedDirs, hv], rs, err, hcd⟩
        | none =>
          simp only [Option.isSome_none, Bool.or_self, Bool.false_eq_true, if_false]
          have hpost := hl (s ++ rs.getD [])
          have hfind : dirFindings ord (path, .dir name none entries) = rs.getD [] := by
            simp [dirFindings, hcd]
          have hfails : Fails ord path (.dir name none entries) ↔ FailsList ord path entries := by
            unfold Fails FailsList
            simp only [traversalFails, scannedDirs, hv, Option.isSome_none, Bool.false_or,
              Bool.not_false, Bool.true_and, Bool.false_eq_true, if_false, List.mem_cons,
              exists_eq_or_imp]
            constructor
            · rintro (h1 | h1 | h1)
              · exact Or.inl h1
              · obtain ⟨rs1, e1, h2⟩ := h1
                rw [hcd] at h2
                cases h2
              · exact Or.inr h1
            · rintro (h1 | h1)
              · exact Or.inl h1
              · exact Or.inr (Or.inr h1)
          cases hw : walkEntries (checkWalkFn ord) path entries (s ++ rs.getD []) with
          | error p =>
            rw [hw] at hpost
            simp only [WalkEntriesPost] at hpost
            obtain ⟨pd, hpd, hp⟩ := hpost
            simp only [WalkPost]
            exact ⟨pd, by simp [scannedDirs, hv, hpd], hp⟩
          | ok r1 =>
            obtain ⟨s1, oe⟩ := r1
            rw [hw] at hpost
            cases oe with
            | none =>
              simp only [WalkEntriesPost] at hpost
              simp only [WalkPost]
              refine ⟨fun hf => hpost.1 (hfails.1 hf), ?_⟩
              rw [hpost.2]
              simp [scannedDirs, hv, hfind]
            | some we =>
              cases we with
              | skipDir => simp [WalkEntriesPost] at hpost
              | failed err =>
                simp only [WalkEntriesPost] at hpost
                simp only [WalkPost]
                exact hfails.2 hpost
    · -- a hidden directory
      rw [walk_readable, checkWalkFn_hidden ord path name entries s hv]
      simp [WalkPost, hv]
termination_by structural e => e
theorem walkEntries_post (ord : RangeOrder) :
    ∀ (es : List FsEntry) (path : Path) (s : List CheckerResult),
      WalkEntriesPost ord path es s (walkEntries (checkWalkFn ord) path es s)
  | [], path, s => by
    simp [walkEntries, WalkEntriesPost, FailsList, traversalFailsList, scannedDirsList]
  | e :: rest, path, s => by
    have he := walk_post ord e (path ++ [e.name]) s
    have hrest := walkEntries_post ord rest path
    have hfl : FailsList ord path (e :: rest) ↔
        Fails ord (path ++ [e.name]) e ∨ FailsList ord path rest := by
      unfold Fails FailsList
      simp only [traversalFailsList, scannedDirsList, Bool.or_eq_true, List.mem_append]
      constructor
      · rintro ((h1 | h1) | ⟨pd, (h2 | h2), h3⟩)
        · exact Or.inl (Or.inl h1)
        · exact Or.inr (Or.inl h1)
        · exact Or.inl (Or.inr ⟨pd, h2, h3⟩)
        · exact Or.inr (Or.inr ⟨pd, h2, h3⟩)
      · rintro ((h1 | ⟨pd, h2, h3⟩) | (h1 | ⟨pd, h2, h3⟩))
        · exact Or.inl (Or.inl h1)
        · exact Or.inr ⟨pd, Or.inl h2, h3⟩
        · exact Or.inl (Or.inr h1)
        · exact Or.inr ⟨pd, Or.inr h2, h3⟩
    rw [walkEntries]
    cases hw : walk (checkWalkFn ord) (path ++ [e.name]) e s with
    | error p =>
      rw [hw] at he
      simp only [WalkPost] at he
      obtain ⟨pd, hpd, hp⟩ := he
      simp only [WalkEntriesPost]
      exact ⟨pd, by simp [scannedDirsList, hpd], hp⟩
    | ok r =>
      obtain ⟨s1, oe⟩ := r
      rw [hw] at he
      cases oe with
      | none =>
        simp only [WalkPost] at he
        have hr := hrest s1
        simp only
        cases hw2 : walkEntries (checkWalkFn ord) path rest s1 with
        | error p =>
          rw [hw2] at hr
          simp only [WalkEntriesPost] at hr ⊢
          obtain ⟨pd, hpd, hp⟩ := hr
          exact ⟨pd, by simp [scannedDirsList, hpd], hp⟩
        | ok r2 =>
          obtain ⟨s2, oe2⟩ := r2
          rw [hw2] at hr
          cases oe2 with
          | none =>
            simp only [WalkEntriesPost] at hr ⊢
            refine ⟨fun hf => ?_, ?_⟩
            · rcases hfl.1 hf with h1 | h1
              · exact he.1 h1
              · exact hr.1 h1
            · rw [hr.2, he.2]
              simp [scannedDirsList]
          | some we =>
            cases we with
            | skipDir => simp [WalkEntriesPost] at hr
            | failed err =>
              simp only [WalkEntriesPost] at hr ⊢
              exact hfl.2 (Or.inr hr)
      | some we =>
        cases we with
        | failed err =>
          simp only [WalkPost] at he
          have : WalkEntriesPost ord path (e :: rest) s (.ok (s1, some (.failed err))) := by
            simp only [WalkEntriesPost]
            exact hfl.2 (Or.inl he)
          cases e <;> simpa [FsEntry.isDir] using this
        | skipDir =>
          simp only [WalkPost] at he
          obtain ⟨hs, name, entries, rfl, hhid⟩ := he
          subst hs
          have hr := hrest s1
          have hnof : ¬ Fails ord (path ++ [name]) (.dir name none entries) := by
            simp [Fails, traversalFails, scannedDirs, hhid]
          simp only [FsEntry.isDir, Bool.not_true, Bool.false_or, ne_eq, not_true_eq_false,
            decide_False, Bool.false_eq_true, if_false]
          cases hw2 : walkEntries (checkWalkFn ord) path rest s1 with
          | error p =>
            rw [hw2] at hr
            simp only [WalkEntriesPost] at hr ⊢
            obtain ⟨pd, hpd, hp⟩ := hr
            exact ⟨pd, by simp [scannedDirsList, hpd], hp⟩
          | ok r2 =>
            obtain ⟨s2, oe2⟩ := r2
            rw [hw2] at hr
            cases oe2 with
            | none =>
              simp only [WalkEntriesPost] at hr ⊢
              refine ⟨fun hf => ?_, ?_⟩
              · rcases hfl.1 hf with h1 | h1
                · exact hnof h1
                · exact hr.1 h1
              · rw [hr.2]
                simp [scannedDirsList, scannedDirs, hhid, FsEntry.name]
            | some we =>
              cases we with
              | skipDir => simp [WalkEntriesPost] at hr
              | failed err =>
                simp only [WalkEntriesPost] at hr ⊢
                exact hfl.2 (Or.inr hr)
termination_by structural es => es
end

/-- The three outcomes of `Check`: a panic of some directory scan; the Findings
of the scanned directories in order, when nothing fails; an error and no
results, when something fails. -/
theorem Check_cases (ord : RangeOrder) (dn : Path) (root : FsEntry) :
    (∃ p, Check ord dn root = .error p ∧
        ∃ pd ∈ scannedDirs dn root, checkDirectory ord pd.1 pd.2 = .error p) ∨
      (¬ Fails ord dn root ∧
        Check ord dn root = .ok (some ((scannedDirs dn root).flatMap (dirFindings ord)), none)) ∨
      (Fails ord dn root ∧ ∃ err, Check ord dn root = .ok (none, some err)) := by
  have hpost := walk_post ord root dn []
  unfold Check filepathWalk
  cases hw : walk (checkWalkFn ord) dn root [] with
  | error p =>
    rw [hw] at hpost
    exact Or.inl ⟨p, rfl, hpost⟩
  | ok r =>
    obtain ⟨s1, oe⟩ := r
    rw [hw] at hpost
    cases oe with
    | none =>
      simp only [WalkPost, List.nil_append] at hpost
      exact Or.inr (Or.inl ⟨hpost.1, by rw [hpost.2]⟩)
    | some we =>
      cases we with
      | skipDir =>
        simp only [WalkPost] at hpost
        obtain ⟨hs, name, entries, rfl, hhid⟩ := hpost
        refine Or.inr (Or.inl ⟨?_, ?_⟩)
        · simp [Fails, traversalFails, scannedDirs, hhid]
        · simp [scannedDirs, hhid, hs]
      | failed err =>
        simp only [WalkPost] at hpost
        exact Or.inr (Or.inr ⟨hpost, err, rfl⟩)

/-! ## Hidden directories -/

theorem pruneHidden_name (e : FsEntry) : (pruneHidden e).name = e.name := by
  cases e with
  | file name content => simp [pruneHidden]
  | broken name isDir err => simp [pruneHidden]
  | dir name readErr entries =>
    simp only [pruneHidden]
    split <;> rfl

theorem pruneHidden_isDir (e : FsEntry) : (pruneHidden e).isDir = e.isDir := by
  cases e with
  | file name content => simp [pruneHidden]
  | broken name isDir err => simp [pruneHidden]
  | dir name readErr entries =>
    simp only [pruneHidden]
    split <;> rfl

theorem parseDirLoop_prune (path : Path) :
    ∀ (es : List FsEntry) (pkgs : GoMap String Package) (first : Option GoError),
      parseDirLoop path (pruneHiddenList es) pkgs first = parseDirLoop path es pkgs first
  | [], pkgs, first => by simp [pruneHiddenList]
  | e :: rest, pkgs, first => by
    have ih := parseDirLoop_prune path rest
    cases e with
    | file name content =>
      simp only [pruneHiddenList, pruneHidden, parseDirLoop, ih]
    | broken name isDir err =>
      simp only [pruneHiddenList, pruneHidden, parseDirLoop, ih]
    | dir name readErr entries =>
      simp only [pruneHiddenList, pruneHidden]
      split <;> simp [parseDirLoop, FsEntry.isDir, ih]

theorem parsedFiles_prune (path : Path) (es : List FsEntry) :
    parsedFiles path (pruneHiddenList es) = parsedFiles path es := by
  induction es with
  | nil => simp [pruneHiddenList]
  | cons e rest ih =>
    unfold parsedFiles at ih ⊢
    simp only [pruneHiddenList, List.filter_cons, pruneHidden_isDir, pruneHidden_name, filter]
    split <;> simp_all [pruneHidden_name, filter]

theorem checkDirectory_prune (ord : RangeOrder) (path : Path) (name : String)
    (readErr : Option ReadError) (entries : List FsEntry) :
    checkDirectory ord path (.dir name readErr (pruneHiddenList entries)) =
      checkDirectory ord path (.dir name readErr entries) := by
  cases readErr with
  | some err => simp [checkDirectory, parseDir]
  | none => simp [checkDirectory, parseDir, parseDirLoop_prune, parsedFiles_prune]

mutual
theorem walk_prune (ord : RangeOrder) :
    ∀ (e : FsEntry) (path : Path) (s : List CheckerResult),
      walk (checkWalkFn ord) path (pruneHidden e) s = walk (checkWalkFn ord) path e s
  | .file name content, path, s => by simp [pruneHidden]
  | .broken name isDir err, path, s => by simp [pruneHidden]
  | .dir name (some err) entries, path, s => by
    simp only [pruneHidden]
    split <;> simp [walk, checkWalkFn]
  | .dir name none entries, path, s => by
    have hl := walkEntries_prune ord entries path
    cases hv : hasPrefix name "."
    · simp only [pruneHidden, hv, Bool.false_eq_true, if_false]
      rw [walk_readable, walk_readable, checkWalkFn_visible ord path name _ s hv,
        checkWalkFn_visible ord path name _ s hv, checkDirectory_prune]
      cases checkDirectory ord path (.dir name none entries) with
      | error p => rfl
      | ok r =>
        obtain ⟨rs, oerr⟩ := r
        cases oerr with
        | some err => rfl
        | none => simp [hl]
    · simp only [pruneHidden, hv, if_true]
      rw [walk_readable, walk_readable, checkWalkFn_hidden ord path name _ s hv,
        checkWalkFn_hidden ord path name _ s hv]
      rfl
termination_by structural e => e
theorem walkEntries_prune (ord : RangeOrder) :
    ∀ (es : List FsEntry) (path : Path) (s : List CheckerResult),
      walkEntries (checkWalkFn ord) path (pruneHiddenList es) s =
        walkEntries (checkWalkFn ord) path es s
  | [], path, s => by simp [pruneHiddenList]
  | e :: rest, path, s => by
    have he := walk_prune ord e
    have hr := walkEntries_prune ord rest path
    simp only [pruneHiddenList]
    rw [walkEntries, walkEntries, pruneHidden_name, he]
    cases walk (checkWalkFn ord) (path ++ [e.name]) e s with
    | error p => rfl
    | ok r =>
      obtain ⟨s1, oe⟩ := r
      cases oe with
      | none => simp [hr]
      | some we =>
        cases e with
        | file name content => simp [pruneHidden, hr]
        | broken name isDir err => simp [pruneHidden, hr]
        | dir name readErr entries =>
          cases hv : hasPrefix name "." <;> simp [pruneHidden, hv, FsEntry.isDir, hr]
termination_by structural es => es
end

theorem Check_prune (ord : RangeOrder) (dn : Path) (root : FsEntry) :
    Check ord dn (pruneHidden root) = Check ord dn root := by
  simp [Check, filepathWalk, walk_prune]

/-! ## The files of the Findings -/

theorem parseFile_origin (filename : Path) (content : Except GoError File) (src : File)
    (h : parseFile filename content = .ok src) :
    ∃ src0, content = .ok src0 ∧ ∀ fd, .funcDecl fd ∈ src.Decls →
      ∃ fd0, Decl.funcDecl fd0 ∈ src0.Decls ∧
        fd.Typ.Func = { fd0.Typ.Func with Filename := filename } := by
  cases content with
  | error e => simp [parseFile] at h
  | ok f =>
    simp only [parseFile, Except.ok.injEq] at h
    subst h
    refine ⟨f, rfl, ?_⟩
    intro fd hfd
    simp only [List.mem_map] at hfd
    obtain ⟨d, hmem, hd⟩ := hfd
    cases d with
    | otherDecl => simp [stampDecl] at hd
    | funcDecl d0 =>
      simp only [stampDecl, Decl.funcDecl.injEq] at hd
      exact ⟨d0, hmem, by rw [← hd]⟩

theorem GoMap.lookup_mem {κ α : Type} [DecidableEq κ] (m : GoMap κ α) (k : κ) (v : α)
    (h : m.lookup k = some v) : ∃ e ∈ m, e.2 = v := by
  unfold GoMap.lookup at h
  cases hf : m.find? (fun e => decide (e.1 = k)) with
  | none => simp [hf] at h
  | some e =>
    simp only [hf, Option.map_some', Option.some.injEq] at h
    exact ⟨e, List.mem_of_find?_eq_some hf, h⟩

/-- What holds of every declaration of the packages and of the file added holds
of every declaration of the packages after `addFile`. -/
theorem addFile_decls (Q : FuncDecl → Prop) (pkgs : GoMap String Package) (filename : Path)
    (src : File) (hp : ∀ e ∈ pkgs, ∀ fd, .funcDecl fd ∈ e.2.decls → Q fd)
    (hs : ∀ fd, .funcDecl fd ∈ src.Decls → Q fd) :
    ∀ e ∈ addFile pkgs filename src, ∀ fd, .funcDecl fd ∈ e.2.decls → Q fd := by
  intro e he
  unfold addFile at he
  rcases (GoMap.mem_insert _ _ _ e).1 he with ⟨h1, -⟩ | rfl
  · exact hp e h1
  · intro fd hfd
    simp only [Package.decls, List.mem_flatMap] at hfd
    obtain ⟨f, hf, hmem⟩ := hfd
    rcases (GoMap.mem_insert _ _ _ f).1 hf with ⟨h1, -⟩ | rfl
    · cases hl : pkgs.lookup src.Name with
      | none => simp [hl] at h1
      | some pkg =>
        simp only [hl] at h1
        obtain ⟨e0, he0, rfl⟩ := GoMap.lookup_mem pkgs src.Name pkg hl
        exact hp e0 he0 fd (by
          simp only [Package.decls, List.mem_flatMap]
          exact ⟨f, h1, hmem⟩)
    · exact hs fd hmem

/-- Every declaration of a package built by the loop of `parser.ParseDir` is a
declaration of a file among the entries, placed in that file. -/
theorem parseDirLoop_declared (path : Path) (entries : List FsEntry) :
    ∀ (es : List FsEntry) (pkgs : GoMap String Package) (first : Option GoError)
      (pkgs1 : GoMap String Package) (first1 : Option GoError),
      (∀ d ∈ es, d ∈ entries) →
        (∀ e ∈ pkgs, ∀ fd, .funcDecl fd ∈ e.2.decls → DeclaredIn path entries fd) →
          parseDirLoop path es pkgs first = (some pkgs1, first1) →
            ∀ e ∈ pkgs1, ∀ fd, .funcDecl fd ∈ e.2.decls → DeclaredIn path entries fd
  | [], pkgs, first, pkgs1, first1, _, hp, h => by
    simp only [parseDirLoop, Prod.mk.injEq, Option.some.injEq] at h
    rw [← h.1]
    exact hp
  | d :: rest, pkgs, first, pkgs1, first1, hsub, hp, h => by
    have ih := fun pkgs0 first0 hp0 h0 =>
      parseDirLoop_declared path entries rest pkgs0 first0 pkgs1 first1
        (fun x hx => hsub x (List.mem_cons_of_mem _ hx)) hp0 h0
    simp only [parseDirLoop] at h
    split at h
    · exact ih _ _ hp h
    · cases d with
      | broken name isDir err => simp at h
      | dir name readErr entries0 => exact ih _ _ hp h
      | file name content =>
        simp only at h
        split at h
        · exact ih _ _ hp h
        · cases hpf : parseFile (path ++ [name]) content with
          | error e =>
            simp only [hpf] at h
            exact ih _ _ hp h
          | ok src =>
            simp only [hpf] at h
            obtain ⟨src0, hc, hsrc⟩ := parseFile_origin _ _ _ hpf
            subst hc
            refine ih _ _ (addFile_decls _ pkgs _ src hp ?_) h
            intro fd hfd
            obtain ⟨fd0, hfd0, hpos⟩ := hsrc fd hfd
            exact ⟨name, src0, fd0, hsub _ (List.mem_cons_self _ _), hfd0, hpos⟩

/-- Every Finding of a package is the Finding of one of its declarations. -/
theorem checkPackage_mem (ord : RangeOrder) (pkg : Package) (fileSet : FileSet)
    (res : Option (List CheckerResult)) (err : Option GoError)
    (h : checkPackage ord pkg fileSet = .ok (res, err)) :
    err = none ∧ ∀ r ∈ res.getD [], ∃ fd, .funcDecl fd ∈ pkg.decls ∧
      r.FileName = (fileSet.Position fd.Typ.Func).Filename := by
  cases hc : classify ord pkg with
  | error p => simp [checkPackage, hc] at h
  | ok tb =>
    obtain ⟨herr, hres⟩ := checkPackage_ok ord pkg fileSet tb hc res err h
    obtain ⟨-, -, -, -, vp⟩ := classify_spec ord pkg tb hc
    refine ⟨herr, ?_⟩
    rw [hres]
    intro r hr
    simp only [Option.getD_some, List.mem_map, List.mem_filter] at hr
    obtain ⟨e, ⟨he, -⟩, rfl⟩ := hr
    exact ⟨e.2, vp e ((ord.visit_perm _).mem_iff.1 he), rfl⟩

theorem packagesLoop_mem (ord : RangeOrder) (fileSet : FileSet) :
    ∀ (l : List (String × Package)) (acc : List CheckerResult)
      (res : Option (List CheckerResult)),
      packagesLoop ord fileSet l acc = .ok (res, none) →
        ∀ r ∈ res.getD [], r ∈ acc ∨ ∃ e ∈ l, ∃ fd, .funcDecl fd ∈ e.2.decls ∧
          r.FileName = (fileSet.Position fd.Typ.Func).Filename
  | [], acc, res, h => by
    simp only [packagesLoop, Except.ok.injEq, Prod.mk.injEq, and_true] at h
    rw [← h]
    intro r hr
    exact Or.inl hr
  | (k, pkg) :: rest, acc, res, h => by
    have ih := packagesLoop_mem ord fileSet rest
    rw [packagesLoop] at h
    cases hcp : checkPackage ord pkg fileSet with
    | error p => simp [hcp] at h
    | ok r0 =>
      obtain ⟨rs, oerr⟩ := r0
      obtain ⟨herr, hmem⟩ := checkPackage_mem ord pkg fileSet rs oerr hcp
      subst herr
      simp only [hcp] at h
      intro r hr
      rcases ih _ _ h r hr with h1 | ⟨e, he, hfd⟩
      · rcases List.mem_append.1 h1 with h2 | h2
        · exact Or.inl h2
        · exact Or.inr ⟨(k, pkg), List.mem_cons_self _ _, hmem r h2⟩
      · exact Or.inr ⟨e, List.mem_cons_of_mem _ he, hfd⟩

/-- The Findings of a directory are Findings of declarations of files directly
inside it; a Finding names the file of its declaration unless a `//line`
directive is in force there. -/
theorem dirFindings_origin (ord : RangeOrder) (path : Path) (d : FsEntry) :
    ∀ r ∈ dirFindings ord (path, d), ∃ (name : String) (entries : List FsEntry),
      d = .dir name none entries ∧
        ∃ (file : String) (src : File) (fd : FuncDecl),
          FsEntry.file file (.ok src) ∈ entries ∧ Decl.funcDecl fd ∈ src.Decls ∧
            r.FileName =
              match fd.Typ.Func.Adjusted with
              | some q => q.Filename
              | none => path ++ [file] := by
  intro r hr
  unfold dirFindings at hr
  cases hcd : checkDirectory ord path d with
  | error p => simp [hcd] at hr
  | ok ret =>
    obtain ⟨rs, oerr⟩ := ret
    cases oerr with
    | some err => simp [hcd] at hr
    | none =>
      simp only [hcd] at hr
      unfold checkDirectory at hcd
      cases hpd : parseDir path d with
      | mk pkgs perr =>
        cases perr with
        | some err => simp [hpd] at hcd
        | none =>
          simp only [hpd] at hcd
          cases d with
          | file name content => simp [parseDir] at hpd
          | broken name isDir err => simp [parseDir] at hpd
          | dir name readErr entries =>
            cases readErr with
            | some err => simp [parseDir] at hpd
            | none =>
              refine ⟨name, entries, rfl, ?_⟩
              simp only [parseDir] at hpd
              have hst : ∀ e ∈ pkgs.getD [], ∀ fd, .funcDecl fd ∈ e.2.decls →
                  DeclaredIn path entries fd := by
                cases pkgs with
                | none => simp
                | some ps =>
                  exact parseDirLoop_declared path entries entries [] none ps none
                    (fun _ hx => hx) (by simp) hpd
              rcases packagesLoop_mem ord _ _ _ _ hcd r hr with h1 | ⟨e, he, fd, hfd, hname⟩
              · cases h1
              · obtain ⟨file, src, fd0, hfile, hfd0, hpos⟩ :=
                  hst e ((ord.visit_perm _).mem_iff.1 he) fd hfd
                refine ⟨file, src, fd0, hfile, hfd0, ?_⟩
                rw [hname, hpos]
                simp only [FileSet.Position]
                cases fd0.Typ.Func.Adjusted <;> rfl

mutual
theorem scannedDirs_path :
    ∀ (e : FsEntry) (path : Path) (pd : Path × FsEntry), pd ∈ scannedDirs path e →
      hasPrefix e.name "." = false ∧
        ∃ dirs, pd.1 = path ++ dirs ∧ ∀ c ∈ dirs, hasPrefix c "." = false
  | .file name content, path, pd, h => by simp [scannedDirs] at h
  | .broken name isDir err, path, pd, h => by simp [scannedDirs] at h
  | .dir name (some err) entries, path, pd, h => by
    simp only [scannedDirs] at h
    split at h <;> simp at h
  | .dir name none entries, path, pd, h => by
    have hl := scannedDirsList_path entries path pd
    cases hv : hasPrefix name "."
    · simp only [scannedDirs, hv, Bool.false_eq_true, if_false, List.mem_cons] at h
      refine ⟨by simp [FsEntry.name, hv], ?_⟩
      rcases h with rfl | h
      · exact ⟨[], by simp, by simp⟩
      · exact hl h
    · simp [scannedDirs, hv] at h
termination_by structural e => e
theorem scannedDirsList_path :
    ∀ (es : List FsEntry) (path : Path) (pd : Path × FsEntry), pd ∈ scannedDirsList path es →
      ∃ dirs, pd.1 = path ++ dirs ∧ ∀ c ∈ dirs, hasPrefix c "." = false
  | [], path, pd, h => by simp [scannedDirsList] at h
  | e :: rest, path, pd, h => by
    have he := scannedDirs_path e (path ++ [e.name]) pd
    have hr := scannedDirsList_path rest path pd
    simp only [scannedDirsList, List.mem_append] at h
    rcases h with h | h
    · obtain ⟨hvis, dirs, hp, hall⟩ := he h
      refine ⟨e.name :: dirs, by simp [hp], ?_⟩
      intro c hc
      rcases List.mem_cons.1 hc with rfl | hc
      · exact hvis
      · exact hall c hc
    · exact hr h
termination_by structural es => es
end

/-- Counterexample to C9: the directory `proj` holds the hidden directory `.git`
with the file `gen.go`, and the file `add.go`, which declares the untested
`Add` below the comment `//line .git/gen.go:100`.  `Check` returns the
Finding for `Add` with the file name `proj/.git/gen.go`: the Finding has a
file inside a directory whose name starts with `.`. -/
theorem C9_counterexample_line_directive :
    Check RangeOrder.stored ["proj"] treeLineDirective =
        .ok (some [⟨["proj", ".git", "gen.go"], 100, 0, untestedMessage "Add"⟩], none) ∧
      hasPrefix ".git" "." = true ∧
      scannedDirs ["proj"] treeLineDirective =
        [(["proj"], treeLineDirective)] := by
  refine ⟨by decide, by decide, ?_⟩
  have h1 : hasPrefix "proj" "." = false := by decide
  have h2 : hasPrefix ".git" "." = true := by decide
  simp [treeLineDirective, scannedDirs, scannedDirsList, h1, h2, FsEntry.name]

/-- C9 as amended: `Check` never scans a directory whose name starts with `.`
nor anything below it.  Two trees that agree once their hidden directories
are emptied have the same outcome, so whatever a hidden directory holds (a
file that fails to parse, an untested function) neither adds a Finding nor
makes `Check` return an error.  And every returned Finding is the Finding of
a declaration of a file found directly inside a scanned directory, which is
reached from the root through directories whose names do not start with `.`,
the root included; the Finding carries the name of that file, unless a
`//line` directive in force at the declaration gives another. -/
theorem C9_hidden_directories_not_scanned (ord : RangeOrder) (dn : Path) (root : FsEntry) :
    (∀ root2, pruneHidden root2 = pruneHidden root →
        Check ord dn root2 = Check ord dn root) ∧
      (∀ results err, Check ord dn root = .ok (some results, err) →
        ∀ r ∈ results, hasPrefix root.name "." = false ∧
          ∃ (dirs : List String) (name : String) (entries : List FsEntry) (file : String)
            (src : File) (fd : FuncDecl),
            (∀ c ∈ dirs, hasPrefix c "." = false) ∧
              (dn ++ dirs, FsEntry.dir name none entries) ∈ scannedDirs dn root ∧
              FsEntry.file file (.ok src) ∈ entries ∧ Decl.funcDecl fd ∈ src.Decls ∧
              r.FileName =
                match fd.Typ.Func.Adjusted with
                | some q => q.Filename
                | none => dn ++ dirs ++ [file]) := by
  refine ⟨?_, ?_⟩
  · intro root2 h
    rw [← Check_prune ord dn root2, h, Check_prune]
  · intro results err h r hr
    rcases Check_cases ord dn root with ⟨p, h1, -⟩ | ⟨-, h1⟩ | ⟨-, err1, h1⟩
    · rw [h1] at h
      cases h
    · rw [h1] at h
      simp only [Except.ok.injEq, Prod.mk.injEq, Option.some.injEq] at h
      rw [← h.1] at hr
      obtain ⟨pd, hpd, hrpd⟩ := List.mem_flatMap.1 hr
      obtain ⟨hvis, dirs, hp, hall⟩ := scannedDirs_path root dn pd hpd
      obtain ⟨p1, p2⟩ := pd
      simp only at hp
      subst hp
      obtain ⟨name, entries, hd, file, src, fd, hfile, hfd, hname⟩ :=
        dirFindings_origin ord (dn ++ dirs) p2 r hrpd
      subst hd
      exact ⟨hvis, dirs, name, entries, file, src, fd, hall, hpd, hfile, hfd, hname⟩
    · rw [h1] at h
      cases h

/-- Scenario D evaluated: the directory `.git` holds a file that fails to parse
and the untested `Leaked`; `Check` returns no Finding and no error, as on the
tree with `.git` emptied. -/
theorem C9_scenario_d :
    pruneHidden treeScenarioD = treeScenarioDEmptied ∧
      Check RangeOrder.stored ["proj"] treeScenarioD = .ok (some [], none) ∧
      Check RangeOrder.stored ["proj"] treeScenarioDEmptied = .ok (some [], none) := by
  refine ⟨?_, by decide, by decide⟩
  have h1 : hasPrefix "proj" "." = false := by decide
  have h2 : hasPrefix ".git" "." = true := by decide
  simp [treeScenarioD, treeScenarioDEmptied, pruneHidden, pruneHiddenList, h1, h2]

/-! ## The packages of a directory -/

theorem classifyDecl_error (tb : Tables) (d : Decl) (p : Panic)
    (h : classifyDecl tb d = .error p) : p = .indexOutOfRange := by
  cases d with
  | otherDecl => simp [classifyDecl] at h
  | funcDecl fd =>
    cases hname : fd.Name with
    | none => simp [classifyDecl, hname] at h
    | some id =>
      simp only [classifyDecl, hname] at h
      split at h
      · simp at h
      · split at h
        · simp only [Except.error.injEq] at h
          exact h.symm
        · split at h <;> simp at h

theorem classifyDecls_error (ds : List Decl) :
    ∀ (tb : Tables) (p : Panic), classifyDecls tb ds = .error p → p = .indexOutOfRange := by
  induction ds with
  | nil => intro tb p h; simp [classifyDecls] at h
  | cons d ds ih =>
    intro tb p h
    simp only [classifyDecls] at h
    cases hstep : classifyDecl tb d with
    | error q =>
      simp only [hstep, Except.error.injEq] at h
      rw [← h]
      exact classifyDecl_error tb d q hstep
    | ok tbm =>
      simp only [hstep] at h
      exact ih tbm p h

/-- What `checkPackage` returns is a list and no error. -/
theorem checkPackage_shape (ord : RangeOrder) (pkg : Package) (fileSet : FileSet)
    (res : Option (List CheckerResult)) (err : Option GoError)
    (h : checkPackage ord pkg fileSet = .ok (res, err)) : res.isSome = true ∧ err = none := by
  unfold checkPackage at h
  split at h
  · cases h
  · split at h
    · cases h
    · simp only [Except.ok.injEq, Prod.mk.injEq] at h
      simp [← h.1, ← h.2]

/-- The outcomes of `checkPackage`: the panic of the classifier on an empty
name; or, with the tables built, the results and no error, or the panic of the
decider on a test function without a body. -/
theorem checkPackage_cases (ord : RangeOrder) (pkg : Package) (fileSet : FileSet) :
    (classify ord pkg = .error .indexOutOfRange ∧
        checkPackage ord pkg fileSet = .error .indexOutOfRange) ∨
      ∃ tb, classify ord pkg = .ok tb ∧
        (checkPackage ord pkg fileSet =
            .ok (some (((ord.visit tb.publicFuncs).filter (isUntested tb.testFuncs)).map
              (fun e => mkResult fileSet e.1 e.2)), none) ∨
          (checkPackage ord pkg fileSet = .error .nilDereference ∧
            ¬ HasBodies tb.testFuncs)) := by
  cases hc : classify ord pkg with
  | error p =>
    have hp : p = .indexOutOfRange := by
      rw [classify_eq] at hc
      exact classifyDecls_error _ _ p hc
    subst hp
    exact Or.inl ⟨rfl, by simp [checkPackage, hc]⟩
  | ok tb =>
    refine Or.inr ⟨tb, rfl, ?_⟩
    cases hr : checkPackage ord pkg fileSet with
    | ok r =>
      obtain ⟨res, err⟩ := r
      obtain ⟨herr, hres⟩ := checkPackage_ok ord pkg fileSet tb hc res err hr
      exact Or.inl (by rw [herr, hres])
    | error p =>
      refine Or.inr ?_
      simp only [checkPackage, hc] at hr
      cases hl : reportLoop ord fileSet tb.testFuncs (ord.visit tb.publicFuncs) [] with
      | ok results => simp [hl] at hr
      | error q =>
        simp only [hl, Except.error.injEq] at hr
        obtain ⟨hq, hb⟩ := reportLoop_error ord fileSet tb.testFuncs _ [] q
          (visit_keyed ord pkg tb hc) hl
        rw [← hr, hq]
        exact ⟨rfl, hb⟩

/-- A scan of a package that does not panic returns its Findings. -/
theorem checkPackage_isOk (ord : RangeOrder) (pkg : Package) (fileSet : FileSet)
    (h : (checkPackage ord pkg fileSet).isOk = true) :
    checkPackage ord pkg fileSet = .ok (some (pkgFindings ord fileSet pkg), none) := by
  cases hr : checkPackage ord pkg fileSet with
  | error p =>
    rw [hr] at h
    simp [Except.isOk, Except.toBool] at h
  | ok r =>
    obtain ⟨res, err⟩ := r
    obtain ⟨hsome, herr⟩ := checkPackage_shape ord pkg fileSet res err hr
    subst herr
    cases res with
    | none => simp at hsome
    | some rs => simp [pkgFindings, hr]

theorem packagesLoop_eq (ord : RangeOrder) (fileSet : FileSet) :
    ∀ (l : List (String × Package)) (acc : List CheckerResult),
      (∀ e ∈ l, (checkPackage ord e.2 fileSet).isOk = true) →
        packagesLoop ord fileSet l acc =
          .ok (some (acc ++ l.flatMap (fun e => pkgFindings ord fileSet e.2)), none)
  | [], acc, _ => by simp [packagesLoop]
  | (k, pkg) :: rest, acc, h => by
    have ih := packagesLoop_eq ord fileSet rest
    have hk := checkPackage_isOk ord pkg fileSet (h (k, pkg) (List.mem_cons_self _ _))
    rw [packagesLoop, hk]
    simp only
    rw [ih _ (fun e he => h e (List.mem_cons_of_mem _ he))]
    simp

theorem parseDirLoop_directFiles (path : Path) :
    ∀ (es : List FsEntry) (pkgs : GoMap String Package) (first : Option GoError),
      parseDirLoop path (directFiles es) pkgs first = parseDirLoop path es pkgs first
  | [], pkgs, first => by simp [directFiles]
  | e :: rest, pkgs, first => by
    have ih := parseDirLoop_directFiles path rest
    unfold directFiles at ih ⊢
    cases hd : e.isDir
    · simp only [List.filter_cons, hd, Bool.not_false, if_true]
      cases e with
      | file name content => simp only [parseDirLoop, ih]
      | broken name isDir err => simp only [parseDirLoop, ih]
      | dir name readErr entries => simp [FsEntry.isDir] at hd
    · simp only [List.filter_cons, hd, Bool.not_true, Bool.false_eq_true, if_false]
      rw [ih]
      simp [parseDirLoop, hd]

theorem parsedFiles_directFiles (path : Path) (es : List FsEntry) :
    parsedFiles path (directFiles es) = parsedFiles path es := by
  unfold parsedFiles directFiles
  rw [List.filter_filter]
  congr 1
  apply List.filter_congr
  intro e _
  cases e.isDir <;> simp

/-- A directory is scanned from the entries directly inside it that are not
directories. -/
theorem checkDirectory_directFiles (ord : RangeOrder) (path : Path) (name : String)
    (entries : List FsEntry) :
    checkDirectory ord path (.dir name none (directFiles entries)) =
      checkDirectory ord path (.dir name none entries) := by
  simp [checkDirectory, parseDir, parseDirLoop_directFiles, parsedFiles_directFiles]

theorem packagesLoop_some (ord : RangeOrder) (fileSet : FileSet) :
    ∀ (l : List (String × Package)) (acc : List CheckerResult)
      (res : Option (List CheckerResult)) (err : Option GoError),
      packagesLoop ord fileSet l acc = .ok (res, err) → res.isSome = true ∧ err = none
  | [], acc, res, err, h => by
    simp only [packagesLoop, Except.ok.injEq, Prod.mk.injEq] at h
    simp [← h.1, ← h.2]
  | (k, pkg) :: rest, acc, res, err, h => by
    have ih := packagesLoop_some ord fileSet rest
    rw [packagesLoop] at h
    cases hcp : checkPackage ord pkg fileSet with
    | error p => simp [hcp] at h
    | ok r0 =>
      obtain ⟨rs, oerr⟩ := r0
      obtain ⟨-, herr⟩ := checkPackage_shape ord pkg fileSet rs oerr hcp
      subst herr
      simp only [hcp] at h
      exact ih _ _ _ h

/-- A scan that returns no error returns a list. -/
theorem checkDirectory_some (ord : RangeOrder) (path : Path) (d : FsEntry)
    (res : Option (List CheckerResult))
    (h : checkDirectory ord path d = .ok (res, none)) :
    res = some (dirFindings ord (path, d)) := by
  have hf : dirFindings ord (path, d) = res.getD [] := by simp [dirFindings, h]
  unfold checkDirectory at h
  cases hpd : parseDir path d with
  | mk pkgs perr =>
    cases perr with
    | some err => simp [hpd] at h
    | none =>
      simp only [hpd] at h
      obtain ⟨hsome, -⟩ := packagesLoop_some ord _ _ _ _ _ h
      cases res with
      | none => simp at hsome
      | some rs => simp [hf]

theorem not_fails_of_check_some (ord : RangeOrder) (dn : Path) (root : FsEntry)
    (results : List CheckerResult) (err : Option GoError)
    (h : Check ord dn root = .ok (some results, err)) : ¬ Fails ord dn root := by
  rcases Check_cases ord dn root with ⟨p, h1, -⟩ | ⟨hnf, -⟩ | ⟨-, err1, h1⟩
  · rw [h1] at h
    cases h
  · exact hnf
  · rw [h1] at h
    cases h

/-! ## Directories that fail to parse -/

/-- The loop of `parser.ParseDir` returns an error exactly when it starts with
one or meets an entry that makes it fail. -/
theorem parseDirLoop_error (path : Path) :
    ∀ (es : List FsEntry) (pkgs : GoMap String Package) (first : Option GoError),
      (parseDirLoop path es pkgs first).2.isSome = (first.isSome || es.any unparsable)
  | [], pkgs, first => by simp [parseDirLoop]
  | d :: rest, pkgs, first => by
    have ih := parseDirLoop_error path rest
    cases d with
    | dir name readErr entries =>
      simp [parseDirLoop, FsEntry.isDir, unparsable, ih]
    | broken name isDir err =>
      cases hd : isDir <;> cases hs : hasSuffix name ".go" <;>
        simp [parseDirLoop, FsEntry.isDir, FsEntry.name, unparsable, ih, hd, hs]
    | file name content =>
      cases hs : hasSuffix name ".go" <;> cases hp : hasPrefix name "." <;>
        cases content <;> cases first <;>
        simp [parseDirLoop, FsEntry.isDir, FsEntry.name, unparsable, filter, parseFile, ih,
          hs, hp]

/-- `parser.ParseDir` returns an error exactly on a directory that fails to
parse. -/
theorem parseDir_error (path : Path) (d : FsEntry) :
    (parseDir path d).2.isSome = parseFails d := by
  cases d with
  | file name content => simp [parseDir, parseFails]
  | broken name isDir err => simp [parseDir, parseFails]
  | dir name readErr entries =>
    cases readErr with
    | some e => simp [parseDir, parseFails]
    | none => simp [parseDir, parseFails, parseDirLoop_error]

/-- `checkDirectory` returns an error exactly on a directory that fails to
parse; the error then comes with nil results, before any package is checked. -/
theorem checkDirectory_fails_iff (ord : RangeOrder) (path : Path) (d : FsEntry) :
    (∃ rs err, checkDirectory ord path d = .ok (rs, some err)) ↔ parseFails d = true := by
  have hp := parseDir_error path d
  unfold checkDirectory
  cases hpd : parseDir path d with
  | mk pkgs perr =>
    rw [hpd] at hp
    cases perr with
    | some err =>
      simp only [Option.isSome_some] at hp
      simp [← hp]
    | none =>
      simp only [Option.isSome_none] at hp
      simp only [← hp, Bool.false_eq_true, iff_false, not_exists]
      intro rs err h
      obtain ⟨-, herr⟩ := packagesLoop_some ord _ _ _ _ _ h
      cases herr

theorem checkDirectory_of_parseFails (ord : RangeOrder) (path : Path) (d : FsEntry)
    (h : parseFails d = true) : ∃ err, checkDirectory ord path d = .ok (none, some err) := by
  have hp := parseDir_error path d
  rw [h] at hp
  unfold checkDirectory
  cases hpd : parseDir path d with
  | mk pkgs perr =>
    rw [hpd] at hp
    cases perr with
    | some err => exact ⟨err, rfl⟩
    | none => simp at hp

/-- A tree fails in the sense of the outcome of `checkDirectory` exactly when a
scanned directory fails to parse or a traversal step fails. -/
theorem fails_iff_treeFails (ord : RangeOrder) (path : Path) (e : FsEntry) :
    Fails ord path e ↔ TreeFails path e := by
  unfold Fails TreeFails ScanFails
  constructor
  · rintro (h | ⟨pd, hpd, hs⟩)
    · exact Or.inl h
    · exact Or.inr ⟨pd, hpd, (checkDirectory_fails_iff ord pd.1 pd.2).1 hs⟩
  · rintro (h | ⟨pd, hpd, hs⟩)
    · exact Or.inl h
    · exact Or.inr ⟨pd, hpd, (checkDirectory_fails_iff ord pd.1 pd.2).2 hs⟩

/-- C10: on a tree none of whose directory scans panics, `Check` returns; when
some scanned directory fails to parse (it cannot be read, or a `.go` file
directly inside it does not parse) or a traversal step fails, it returns an
error together with nil results, whatever Findings earlier directories
produced; otherwise it returns the result list and no error.  So an error
always comes with nil results, and a result list is returned only when every
scanned directory was scanned without error. -/
theorem C10_error_discards_results (ord : RangeOrder) (dn : Path) (root : FsEntry)
    (hnp : ∀ pd ∈ scannedDirs dn root, (checkDirectory ord pd.1 pd.2).isOk = true) :
    (TreeFails dn root → ∃ err, Check ord dn root = .ok (none, some err)) ∧
      (¬ TreeFails dn root →
        Check ord dn root =
          .ok (some ((scannedDirs dn root).flatMap (dirFindings ord)), none)) ∧
      (∀ res err, Check ord dn root = .ok (res, some err) → res = none) ∧
      (∀ results err, Check ord dn root = .ok (some results, err) →
        err = none ∧ ¬ TreeFails dn root) := by
  have hcases := Check_cases ord dn root
  rw [fails_iff_treeFails] at hcases
  have nopanic : ∀ p, Check ord dn root ≠ .error p := by
    intro p hp
    rcases hcases with ⟨p1, h1, pd, hpd, hcd⟩ | ⟨-, h1⟩ | ⟨-, err, h1⟩
    · have := hnp pd hpd
      rw [hcd] at this
      simp [Except.isOk, Except.toBool] at this
    · rw [h1] at hp
      cases hp
    · rw [h1] at hp
      cases hp
  refine ⟨?_, ?_, ?_, ?_⟩
  · intro hf
    rcases hcases with ⟨p1, h1, -⟩ | ⟨hnf, -⟩ | ⟨-, herr⟩
    · exact absurd h1 (nopanic p1)
    · exact absurd hf hnf
    · exact herr
  · intro hnf
    rcases hcases with ⟨p1, h1, -⟩ | ⟨-, h1⟩ | ⟨hf, -⟩
    · exact absurd h1 (nopanic p1)
    · exact h1
    · exact absurd hf hnf
  · intro res err h
    rcases hcases with ⟨p1, h1, -⟩ | ⟨-, h1⟩ | ⟨-, err1, h1⟩
    · rw [h1] at h
      cases h
    · rw [h1] at h
      cases h
    · rw [h1] at h
      cases h
      rfl
  · intro results err h
    rcases hcases with ⟨p1, h1, -⟩ | ⟨hnf, h1⟩ | ⟨-, err1, h1⟩
    · rw [h1] at h
      cases h
    · rw [h1] at h
      cases h
      exact ⟨rfl, hnf⟩
    · rw [h1] at h
      cases h

/-- Witness of C10 on scenario E: the directory `a` produces the Finding for
`Add`, the file `bad.go` of the directory `b` fails to parse, and `Check`
returns the error of `b` with nil results. -/
theorem C10_witness_scenario_e :
    (∀ pd ∈ scannedDirs ["proj"] treeScenarioE,
        (checkDirectory RangeOrder.stored pd.1 pd.2).isOk = true) ∧
      dirFindings RangeOrder.stored (["proj", "a"], .dir "a" none [.file "add.go" (.ok fileAdd)]) =
        [⟨["proj", "a", "add.go"], 3, 1, untestedMessage "Add"⟩] ∧
      TreeFails ["proj"] treeScenarioE ∧
      Check RangeOrder.stored ["proj"] treeScenarioE =
        .ok (none, some (.directory ["proj", "b"] (.parse "expected declaration"))) ∧
      ((TreeFails ["proj"] treeScenarioE →
          ∃ err, Check RangeOrder.stored ["proj"] treeScenarioE = .ok (none, some err)) ∧
        (¬ TreeFails ["proj"] treeScenarioE →
          Check RangeOrder.stored ["proj"] treeScenarioE =
            .ok (some ((scannedDirs ["proj"] treeScenarioE).flatMap
              (dirFindings RangeOrder.stored)), none)) ∧
        (∀ res err, Check RangeOrder.stored ["proj"] treeScenarioE = .ok (res, some err) →
          res = none) ∧
        (∀ results err, Check RangeOrder.stored ["proj"] treeScenarioE = .ok (some results, err) →
          err = none ∧ ¬ TreeFails ["proj"] treeScenarioE)) :=
  have hnp : ∀ pd ∈ scannedDirs ["proj"] treeScenarioE,
      (checkDirectory RangeOrder.stored pd.1 pd.2).isOk = true := by decide
  have hf : TreeFails ["proj"] treeScenarioE := by
    unfold TreeFails
    decide
  ⟨hnp, by decide, hf, by decide,
    C10_error_discards_results RangeOrder.stored ["proj"] treeScenarioE hnp⟩

/-! ## Names that are absent or empty -/

theorem classifyDecl_ok_nonempty (tb tb1 : Tables) (d : Decl)
    (h : classifyDecl tb d = .ok tb1) : ¬ DeclaresFunc "" d := by
  rintro ⟨fd, id, rfl, hname, hempty⟩
  have h1 : hasPrefix "" "Test" = false := by decide
  have h2 : (goBytes "").head? = none := by decide
  simp [classifyDecl, hname, hempty, h1, h2] at h

theorem classifyDecls_ok_nonempty (ds : List Decl) :
    ∀ (tb tb1 : Tables), classifyDecls tb ds = .ok tb1 → ∀ d ∈ ds, ¬ DeclaresFunc "" d := by
  induction ds with
  | nil => intro tb tb1 _ d hd; cases hd
  | cons d0 ds ih =>
    intro tb tb1 h d hd
    simp only [classifyDecls] at h
    cases hstep : classifyDecl tb d0 with
    | error p => simp [hstep] at h
    | ok tbm =>
      simp only [hstep] at h
      rcases List.mem_cons.1 hd with rfl | hd
      · exact classifyDecl_ok_nonempty tb tbm d hstep
      · exact ih tbm tb1 h d hd

/-- Counterexample to C12: a declaration whose name is the empty string makes
`funcName[0]` panic with an index out of range, from any tables, and
`checkPackage` panics on a package that holds one. -/
theorem C12_counterexample_empty_name :
    (∀ (tb : Tables) (fd : FuncDecl) (id : Ident), fd.Name = some id → id.Name = "" →
        classifyDecl tb (.funcDecl fd) = .error .indexOutOfRange) ∧
      classifyDecl { testFuncs := [], publicFuncs := [] } (.funcDecl declEmptyName) =
        .error .indexOutOfRange ∧
      checkPackage RangeOrder.stored pkgEmptyName fileSetProj = .error .indexOutOfRange := by
  have hgen : ∀ (tb : Tables) (fd : FuncDecl) (id : Ident), fd.Name = some id → id.Name = "" →
      classifyDecl tb (.funcDecl fd) = .error .indexOutOfRange := by
    intro tb fd id h hempty
    have h1 : hasPrefix "" "Test" = false := by decide
    have h2 : (goBytes "").head? = none := by decide
    simp [classifyDecl, h, hempty, h1, h2]
  exact ⟨hgen, hgen _ declEmptyName _ rfl rfl, by decide⟩

/-- C12 as amended: classifying a function declaration whose name is absent does
not fail and adds no entry to either table: the tables are handed on as they
are, and the scan of a list of declarations is the scan of the list without
that declaration. -/
theorem C12_absent_name_is_skipped (tb : Tables) (fd : FuncDecl) (h : fd.Name = none) :
    classifyDecl tb (.funcDecl fd) = .ok tb ∧
      ∀ (tb0 : Tables) (l1 l2 : List Decl),
        classifyDecls tb0 (l1 ++ .funcDecl fd :: l2) = classifyDecls tb0 (l1 ++ l2) := by
  have hstep : ∀ tb1, classifyDecl tb1 (.funcDecl fd) = .ok tb1 := by
    intro tb1
    simp [classifyDecl, h]
  refine ⟨hstep tb, ?_⟩
  intro tb0 l1 l2
  rw [classifyDecls_append, classifyDecls_append]
  cases classifyDecls tb0 l1 with
  | error p => rfl
  | ok tb1 => simp [classifyDecls, hstep]

/-- Witness of amended C12: a declaration with a nil name. -/
theorem C12_witness_nil_name :
    declNilName.Name = none ∧
      checkPackage RangeOrder.stored pkgNilName fileSetProj = .ok (some [], none) ∧
      (classifyDecl tablesScenarioA (.funcDecl declNilName) = .ok tablesScenarioA ∧
        ∀ (tb0 : Tables) (l1 l2 : List Decl),
          classifyDecls tb0 (l1 ++ .funcDecl declNilName :: l2) =
            classifyDecls tb0 (l1 ++ l2)) :=
  ⟨rfl, by decide, C12_absent_name_is_skipped tablesScenarioA declNilName rfl⟩

/-! ## `Run` calls that do not qualify -/

theorem runClosureCalls_of_unqualified (f : String) (n : Node) (h : SpecUnqualifiedRun n) :
    runClosureCalls f n = false := by
  obtain ⟨x, args, rfl, hshape⟩ := h
  rcases args with _ | ⟨a, _ | ⟨b, rest⟩⟩
  · simp [runClosureCalls]
  · simp [runClosureCalls]
  · rcases hshape with hlen | hnot
    · simp only [List.length_cons] at hlen
      omega
    · cases b with
      | funcLit typ body => exact absurd rfl (hnot typ body)
      | _ => simp [runClosureCalls]

theorem runClosureCalls_run (f : String) (n : Node) (h : runClosureCalls f n = true) :
    SpecRunCall n := by
  cases n with
  | callExpr fn args =>
    cases fn with
    | selectorExpr x sel =>
      simp only [runClosureCalls, isRunCall, Bool.and_eq_true, decide_eq_true_eq] at h
      exact ⟨x, args, by rw [h.1]⟩
    | _ => simp [runClosureCalls, isRunCall] at h
  | _ => simp [runClosureCalls] at h

theorem isRunCall_of_spec (n : Node) (h : SpecRunCall n) : isRunCall n = true := by
  obtain ⟨x, args, rfl⟩ := h
  simp [isRunCall]

theorem unqualifiedRun_spec (n : Node) (h : unqualifiedRun n = true) : SpecUnqualifiedRun n := by
  cases n with
  | callExpr fn args =>
    cases fn with
    | selectorExpr x sel =>
      simp only [unqualifiedRun, Bool.and_eq_true, decide_eq_true_eq, Bool.or_eq_true] at h
      obtain ⟨hsel, hargs⟩ := h
      refine ⟨x, args, by rw [hsel], ?_⟩
      rcases hargs with hlen | hsnd
      · exact Or.inl hlen
      · refine Or.inr ?_
        intro typ body hget
        rw [hget] at hsnd
        exact Bool.false_ne_true hsnd
    | _ => simp [unqualifiedRun] at h
  | _ => simp [unqualifiedRun] at h

/-- A body all of whose `Run` calls have fewer than two arguments, or a second
argument that is no function literal, matches no name. -/
theorem calledInRun_of_unqualified (t : FuncDecl) (f : String)
    (hs : ∀ body, t.Body = some body →
      ∀ n ∈ subnodesList body, SpecRunCall n → SpecUnqualifiedRun n) :
    calledInRun t f = false := by
  unfold calledInRun
  cases hb : t.Body with
  | none => rfl
  | some body =>
    simp only
    rw [List.any_eq_false]
    intro n hn hrc
    have := runClosureCalls_of_unqualified f n (hs body hb n hn (runClosureCalls_run f n hrc))
    rw [this] at hrc
    exact Bool.false_ne_true hrc

/-- C13, the code against the claim.  The access to the second argument is
guarded: `isCalledInRun` never panics on an index, on a function with a body
it returns, and a body all of whose `Run` calls have fewer than two arguments
or a second argument that is no function literal makes it return false.  In a
package whose tables are built and whose test functions all have a body, if
every `Run` call in every declared test function has one of these two shapes,
then `isTested` is false for every candidate and `checkPackage` returns a list
that holds the Finding of every candidate (as on `pkgRunShapes`).  But with a
test function without a body beside them, all the `Run` calls of the package
still have these shapes and `checkPackage` panics instead of reporting the
candidates: so it does when the body-less `TestAndSet` is added to
`pkgRunShapes`. -/
theorem C13_run_shapes_panic_beside_test_without_body :
    (∀ (t : FuncDecl) (f : String), isCalledInRun t f ≠ .error .indexOutOfRange) ∧
      (∀ (t : FuncDecl) (f : String) (body : List Node), t.Body = some body →
        (∃ b, isCalledInRun t f = .ok b) ∧
          ((∀ n ∈ subnodesList body, SpecRunCall n → SpecUnqualifiedRun n) →
            isCalledInRun t f = .ok false)) ∧
      (∀ (ord : RangeOrder) (pkg : Package) (fileSet : FileSet) (tb : Tables),
        classify ord pkg = .ok tb →
          (∀ t id body, .funcDecl t ∈ pkg.decls → t.Name = some id →
            hasPrefix id.Name "Test" = true → t.Body = some body →
              ∀ n ∈ subnodesList body, SpecRunCall n → SpecUnqualifiedRun n) →
            (HasBodies tb.testFuncs →
              (∀ e ∈ tb.publicFuncs, isTested ord e.2 tb.testFuncs = .ok false) ∧
                ∃ results, checkPackage ord pkg fileSet = .ok (some results, none) ∧
                  ∀ e ∈ tb.publicFuncs, mkResult fileSet e.1 e.2 ∈ results) ∧
            (¬ HasBodies tb.testFuncs → (∃ e, e ∈ tb.publicFuncs) →
              checkPackage ord pkg fileSet = .error .nilDereference)) ∧
      checkPackage RangeOrder.stored pkgRunShapes fileSetProj =
        .ok (some [mkResult fileSetProj "Add" declAdd], none) ∧
      ((classify RangeOrder.stored pkgRunShapesAndSet).map Tables.keys =
          .ok (["TestAndSet", "TestAdd"], ["Add"]) ∧
        (∀ t id body, .funcDecl t ∈ pkgRunShapesAndSet.decls → t.Name = some id →
          hasPrefix id.Name "Test" = true → t.Body = some body →
            ∀ n ∈ subnodesList body, SpecRunCall n → SpecUnqualifiedRun n) ∧
        checkPackage RangeOrder.stored pkgRunShapesAndSet fileSetProj =
          .error .nilDereference) := by
  refine ⟨?_, ?_, ?_, by decide, by decide, ?_, by decide⟩
  · intro t f
    rw [isCalledInRun_eq]
    split <;> simp
  · intro t f body hb
    refine ⟨⟨_, isCalledInRun_some t f body hb⟩, fun hs => ?_⟩
    have hc := calledInRun_of_unqualified t f (fun body1 hb1 => by
      rw [hb] at hb1
      cases hb1
      exact hs)
    rw [isCalledInRun_eq, hb]
    simp [hc]
  · intro ord pkg fileSet tb h hshape
    obtain ⟨wf, -, -, vt, -⟩ := classify_spec ord pkg tb h
    have hnone : ∀ t ∈ tb.testFuncs, ∀ f, calledInRun t.2 f = false := by
      intro t ht f
      obtain ⟨htest, id, hid, hkey⟩ := wf.2.2.1 t ht
      exact calledInRun_of_unqualified t.2 f (fun body hb =>
        hshape t.2 id body (vt t ht) hid (by rw [hkey]; exact htest) hb)
    have hunt : ∀ e ∈ tb.publicFuncs, isUntested tb.testFuncs e = true := by
      intro e _
      simp only [isUntested, Bool.not_eq_true', List.any_eq_false]
      intro t ht
      rw [hnone t ht]
      exact Bool.false_ne_true
    refine ⟨fun hb => ⟨?_, _, checkPackage_eq ord pkg fileSet tb h hb, ?_⟩, ?_⟩
    · intro e he
      rw [isTested_of_bodies ord tb.testFuncs e (wf.2.2.2 e he).2 hb, hunt e he]
      rfl
    · intro e he
      exact List.mem_map.2
        ⟨e, List.mem_filter.2 ⟨(ord.visit_perm _).mem_iff.2 he, hunt e he⟩, rfl⟩
    · rintro hb ⟨e, he⟩
      exact checkPackage_panics ord pkg fileSet tb h hb
        ⟨e, he, (mem_filter_isUntested tb.testFuncs e).1 (hunt e he)⟩
  · intro t id body ht hid hpre hbody n hn hrun
    have : t = declAdd ∨ t = declTestAndSet ∨ t = declTestAddShapes := by
      simpa [Package.decls, pkgRunShapesAndSet, fileAddTestAndSet] using ht
    rcases this with rfl | rfl | rfl
    · simp only [declAdd, Option.some.injEq] at hid
      subst hid
      exact absurd hpre (by decide)
    · simp [declTestAndSet] at hbody
    · have hall : ∀ body, declTestAddShapes.Body = some body → ∀ m ∈ subnodesList body,
          isRunCall m = true → unqualifiedRun m = true := by
        intro body1 hb1
        simp only [declTestAddShapes, Option.some.injEq] at hb1
        subst hb1
        decide
      exact unqualifiedRun_spec n (hall body hbody n hn (isRunCall_of_spec n hrun))

/-! ## The message of a Finding -/

/-- C15: every Finding of every list `checkPackage` returns is the Finding of a
candidate `f` of the table, and its `Message` is the fixed text `関数 `, then
`f`, then ` にテストが実装されていません`; so the characters of `f` stand in
the message as one block.  `checkPackage` returns a list when every test
function of the table has a body. -/
theorem C15_message_names_the_function (ord : RangeOrder) (pkg : Package)
    (fileSet : FileSet) (tb : Tables) (h : classify ord pkg = .ok tb) :
    (∀ results, checkPackage ord pkg fileSet = .ok (some results, none) →
      ∀ r ∈ results, ∃ f fd, (f, fd) ∈ tb.publicFuncs ∧ r = mkResult fileSet f fd ∧
        r.Message = "関数 " ++ f ++ " にテストが実装されていません" ∧
        f.data <:+: r.Message.data) ∧
      (HasBodies tb.testFuncs →
        ∃ results, checkPackage ord pkg fileSet = .ok (some results, none)) := by
  refine ⟨?_, fun hb => ⟨_, checkPackage_eq ord pkg fileSet tb h hb⟩⟩
  intro results hr r hmem
  obtain ⟨e, he, -, rfl⟩ := (checkPackage_mem_iff ord pkg fileSet tb h results hr r).1 hmem
  refine ⟨e.1, e.2, he, rfl, rfl, ?_⟩
  simp only [mkResult, untestedMessage, String.data_append]
  exact ⟨"関数 ".data, " にテストが実装されていません".data, rfl⟩

/-- Witness of C15 on scenario B. -/
theorem C15_witness_scenario_b :
    classify RangeOrder.stored pkgScenarioB =
        .ok { testFuncs := [], publicFuncs := [("Add", declAdd)] } ∧
      checkPackage RangeOrder.stored pkgScenarioB fileSetProj =
        .ok (some [⟨addGo, 3, 1, "関数 Add にテストが実装されていません"⟩], none) ∧
      ((∀ results, checkPackage RangeOrder.stored pkgScenarioB fileSetProj =
          .ok (some results, none) →
        ∀ r ∈ results, ∃ f fd, (f, fd) ∈ [("Add", declAdd)] ∧ r = mkResult fileSetProj f fd ∧
          r.Message = "関数 " ++ f ++ " にテストが実装されていません" ∧
          f.data <:+: r.Message.data) ∧
        (HasBodies ([] : GoMap String FuncDecl) →
          ∃ results, checkPackage RangeOrder.stored pkgScenarioB fileSetProj =
            .ok (some results, none))) :=
  ⟨rfl, by decide,
    C15_message_names_the_function RangeOrder.stored pkgScenarioB fileSetProj
      { testFuncs := [], publicFuncs := [("Add", declAdd)] } rfl⟩

/-! ## A hidden root -/

/-- Counterexample to C19: the root `.hidden` cannot be read; its name starts
with `.`, and `Check` returns the error of reading it, not an empty list. -/
theorem C19_counterexample_unreadable_hidden_root :
    hasPrefix treeHiddenUnreadable.name "." = true ∧
      Check RangeOrder.stored [".hidden"] treeHiddenUnreadable =
        .ok (none, some (.pathError "open" [".hidden"] "permission denied")) := by
  refine ⟨by decide, by decide⟩

/-- C19 as amended: for a root directory that can be read and whose name starts
with `.`, `Check` applies the hidden-directory rule to the root itself: it
scans nothing and returns the empty result list and no error, whatever the
directory holds. -/
theorem C19_hidden_root_scans_nothing (ord : RangeOrder) (dn : Path) (name : String)
    (entries : List FsEntry) (hhid : hasPrefix name "." = true) :
    scannedDirs dn (.dir name none entries) = [] ∧
      Check ord dn (.dir name none entries) = .ok (some [], none) := by
  refine ⟨by simp [scannedDirs, hhid], ?_⟩
  simp [Check, filepathWalk, walk_readable, checkWalkFn_hidden ord dn name entries [] hhid]

/-- Witness of amended C19: the root `.` holding the untested `Add`. -/
theorem C19_witness_root_dot :
    hasPrefix "." "." = true ∧
      (scannedDirs ["."] treeHiddenRoot = [] ∧
        Check RangeOrder.stored ["."] treeHiddenRoot = .ok (some [], none)) :=
  ⟨by decide,
    C19_hidden_root_scans_nothing RangeOrder.stored ["."] "." [.file "add.go" (.ok fileAdd)]
      (by decide)⟩

/-! ## The error `Check` returns -/

mutual
theorem walk_error_origin (ord : RangeOrder) :
    ∀ (e : FsEntry) (path : Path) (s s1 : List CheckerResult) (err : GoError),
      walk (checkWalkFn ord) path e s = .ok (s1, some (.failed err)) →
        (∃ t ∈ traversalFailures path e, err = .pathError t.Op t.Path t.Err) ∨
          ∃ pd ∈ scannedDirs path e, ∃ rs cause,
            checkDirectory ord pd.1 pd.2 = .ok (rs, some cause) ∧ err = .directory pd.1 cause
  | .file name content, path, s, s1, err, h => by
    simp [walk, checkWalkFn, FsEntry.isDir] at h
  | .broken name isDir err0, path, s, s1, err, h => by
    simp only [walk, checkWalkFn, Except.ok.injEq, Prod.mk.injEq, Option.some.injEq,
      WalkError.failed.injEq] at h
    exact Or.inl ⟨{ Path := path, Op := "lstat", Err := err0 }, by simp [traversalFailures],
      h.2.symm⟩
  | .dir name (some err0) entries, path, s, s1, err, h => by
    simp only [walk, checkWalkFn, Option.map_some', Option.isSome_some, Bool.true_or, if_true,
      Except.ok.injEq, Prod.mk.injEq, Option.some.injEq, WalkError.failed.injEq] at h
    exact Or.inl ⟨{ Path := path, Op := err0.Op, Err := err0.Err },
      by simp [traversalFailures], h.2.symm⟩
  | .dir name none entries, path, s, s1, err, h => by
    have hl := walkEntries_error_origin ord entries path
    cases hv : hasPrefix name "."
    · rw [walk_readable, checkWalkFn_visible ord path name entries s hv] at h
      cases hcd : checkDirectory ord path (.dir name none entries) with
      | error p => simp [hcd] at h
      | ok r =>
        obtain ⟨rs, oerr⟩ := r
        cases oerr with
        | some cause =>
          simp only [hcd, Option.isSome_none, Option.isSome_some, Bool.or_true, if_true,
            Except.ok.injEq, Prod.mk.injEq, Option.some.injEq, WalkError.failed.injEq] at h
          exact Or.inr ⟨(path, .dir name none entries), by simp [scannedDirs, hv], rs, cause,
            hcd, h.2.symm⟩
        | none =>
          simp only [hcd, Option.isSome_none, Bool.or_self, Bool.false_eq_true, if_false] at h
          rcases hl _ _ _ h with ⟨t, ht, h1⟩ | ⟨pd, hpd, hrest⟩
          · exact Or.inl ⟨t, by simp [traversalFailures, hv, ht], h1⟩
          · exact Or.inr ⟨pd, by simp [scannedDirs, hv, hpd], hrest⟩
    · rw [walk_readable, checkWalkFn_hidden ord path name entries s hv] at h
      simp at h
termination_by structural e => e
theorem walkEntries_error_origin (ord : RangeOrder) :
    ∀ (es : List FsEntry) (path : Path) (s s1 : List CheckerResult) (err : GoError),
      walkEntries (checkWalkFn ord) path es s = .ok (s1, some (.failed err)) →
        (∃ t ∈ traversalFailuresList path es, err = .pathError t.Op t.Path t.Err) ∨
          ∃ pd ∈ scannedDirsList path es, ∃ rs cause,
            checkDirectory ord pd.1 pd.2 = .ok (rs, some cause) ∧ err = .directory pd.1 cause
  | [], path, s, s1, err, h => by simp [walkEntries] at h
  | e :: rest, path, s, s1, err, h => by
    have he := walk_error_origin ord e (path ++ [e.name]) s
    have hr := walkEntries_error_origin ord rest path
    have fromHead : ∀ s2 err2,
        walk (checkWalkFn ord) (path ++ [e.name]) e s = .ok (s2, some (.failed err2)) →
          (∃ t ∈ traversalFailuresList path (e :: rest), err2 = .pathError t.Op t.Path t.Err) ∨
            ∃ pd ∈ scannedDirsList path (e :: rest), ∃ rs cause,
              checkDirectory ord pd.1 pd.2 = .ok (rs, some cause) ∧
                err2 = .directory pd.1 cause := by
      intro s2 err2 hw
      rcases he _ _ hw with ⟨t, ht, h1⟩ | ⟨pd, hpd, hrest⟩
      · exact Or.inl ⟨t, by simp [traversalFailuresList, ht], h1⟩
      · exact Or.inr ⟨pd, by simp [scannedDirsList, hpd], hrest⟩
    have fromTail : ∀ s2,
        walkEntries (checkWalkFn ord) path rest s2 = .ok (s1, some (.failed err)) →
          (∃ t ∈ traversalFailuresList path (e :: rest), err = .pathError t.Op t.Path t.Err) ∨
            ∃ pd ∈ scannedDirsList path (e :: rest), ∃ rs cause,
              checkDirectory ord pd.1 pd.2 = .ok (rs, some cause) ∧
                err = .directory pd.1 cause := by
      intro s2 hw
      rcases hr _ _ _ hw with ⟨t, ht, h1⟩ | ⟨pd, hpd, hrest⟩
      · exact Or.inl ⟨t, by simp [traversalFailuresList, ht], h1⟩
      · exact Or.inr ⟨pd, by simp [scannedDirsList, hpd], hrest⟩
    rw [walkEntries] at h
    cases hw : walk (checkWalkFn ord) (path ++ [e.name]) e s with
    | error p => simp [hw] at h
    | ok r =>
      obtain ⟨s2, oe⟩ := r
      cases oe with
      | none =>
        simp only [hw] at h
        exact fromTail s2 h
      | some we =>
        cases we with
        | failed err2 =>
          have hret : err = err2 := by
            cases e <;> simp [hw, FsEntry.isDir] at h <;> exact h.2.symm
          rw [hret]
          exact fromHead s2 err2 hw
        | skipDir =>
          cases e with
          | file name content => simp [hw, FsEntry.isDir] at h
          | broken name isDir err0 =>
            simp only [hw, ne_eq, not_true_eq_false, if_false] at h
            exact fromTail s2 h
          | dir name readErr entries =>
            simp only [hw, FsEntry.isDir, Bool.not_true, Bool.false_or, ne_eq,
              not_true_eq_false, decide_False, Bool.false_eq_true, if_false] at h
            exact fromTail s2 h
termination_by structural es => es
end

/-- C16: every error `Check` returns names the offending path and wraps the
underlying cause.  It is either the `*fs.PathError` of a traversal step that
fails on the path `d` (`os.Lstat` on an entry, the reading of a directory),
which names `d` and wraps the error of the system call; or the error of line
45 for a scanned directory `d` that fails to parse, which names `d` and wraps
the error `checkDirectory` returned on it. -/
theorem C16_error_names_path_and_wraps_cause (ord : RangeOrder) (dn : Path) (root : FsEntry)
    (res : Option (List CheckerResult)) (err : GoError)
    (h : Check ord dn root = .ok (res, some err)) :
    (∃ t ∈ traversalFailures dn root, err = .pathError t.Op t.Path t.Err ∧
        err.namedPath = some t.Path ∧ err.Unwrap = some (.errno t.Err)) ∨
      ∃ pd ∈ scannedDirs dn root, ∃ cause,
        parseFails pd.2 = true ∧ checkDirectory ord pd.1 pd.2 = .ok (none, some cause) ∧
          err = .directory pd.1 cause ∧
          err.namedPath = some pd.1 ∧ err.Unwrap = some (.error cause) := by
  unfold Check filepathWalk at h
  cases hw : walk (checkWalkFn ord) dn root [] with
  | error p => simp [hw] at h
  | ok r =>
    obtain ⟨s1, oe⟩ := r
    cases oe with
    | none => simp [hw] at h
    | some we =>
      cases we with
      | skipDir => simp [hw] at h
      | failed err2 =>
        simp only [hw, Except.ok.injEq, Prod.mk.injEq, Option.some.injEq] at h
        rw [← h.2]
        rcases walk_error_origin ord root dn [] s1 err2 hw with
          ⟨t, ht, rfl⟩ | ⟨pd, hpd, rs, cause, hcd, rfl⟩
        · exact Or.inl ⟨t, ht, rfl, rfl, rfl⟩
        · have hpf : parseFails pd.2 = true :=
            (checkDirectory_fails_iff ord pd.1 pd.2).1 ⟨rs, cause, hcd⟩
          obtain ⟨c2, hc2⟩ := checkDirectory_of_parseFails ord pd.1 pd.2 hpf
          rw [hc2] at hcd
          simp only [Except.ok.injEq, Prod.mk.injEq, Option.some.injEq] at hcd
          rw [← hcd.2]
          exact Or.inr ⟨pd, hpd, c2, hpf, hc2, rfl, rfl, rfl⟩

/-- Witness of C16: on scenario E the parse error of the directory `b` comes
back wrapped in an error that names `proj/b`; with the entry `gone` on which
`os.Lstat` fails, and with the sub-directory `vendor` that cannot be read,
`Check` returns the `*fs.PathError` that names that path and wraps the error
of the system call. -/
theorem C16_witness_scenario_e :
    (Check RangeOrder.stored ["proj"] treeScenarioE =
        .ok (none, some (.directory ["proj", "b"] (.parse "expected declaration"))) ∧
      Check RangeOrder.stored ["proj"] treeBrokenEntry =
        .ok (none, some (.pathError "lstat" ["proj", "gone"] "no such file or directory")) ∧
      Check RangeOrder.stored ["proj"] treeUnreadableSubdir =
        .ok (none, some (.pathError "open" ["proj", "vendor"] "permission denied"))) ∧
      ((∃ t ∈ traversalFailures ["proj"] treeScenarioE,
          GoError.directory ["proj", "b"] (.parse "expected declaration") =
              .pathError t.Op t.Path t.Err ∧
            (GoError.directory ["proj", "b"] (.parse "expected declaration")).namedPath =
              some t.Path ∧
            (GoError.directory ["proj", "b"] (.parse "expected declaration")).Unwrap =
              some (.errno t.Err)) ∨
        ∃ pd ∈ scannedDirs ["proj"] treeScenarioE, ∃ cause,
          parseFails pd.2 = true ∧
            checkDirectory RangeOrder.stored pd.1 pd.2 = .ok (none, some cause) ∧
            GoError.directory ["proj", "b"] (.parse "expected declaration") =
              .directory pd.1 cause ∧
            (GoError.directory ["proj", "b"] (.parse "expected declaration")).namedPath =
              some pd.1 ∧
            (GoError.directory ["proj", "b"] (.parse "expected declaration")).Unwrap =
              some (.error cause)) :=
  have hc : Check RangeOrder.stored ["proj"] treeScenarioE =
      .ok (none, some (.directory ["proj", "b"] (.parse "expected declaration"))) := by decide
  ⟨⟨hc, by decide, by decide⟩,
    C16_error_names_path_and_wraps_cause RangeOrder.stored ["proj"] treeScenarioE none _ hc⟩


/-- C14: on a tree where no scan panics and nothing fails, the list `Check`
returns is the concatenation, in pre-order, of the Findings of the scanned
(non-hidden) directories; the Findings of each are what `checkDirectory`
returns on it; and `checkDirectory` reads a directory through the entries
directly inside it that are not directories, so what lies in a parent or a
child directory never changes the Findings of a directory. -/
theorem C14_check_concatenates_directory_findings (ord : RangeOrder) (dn : Path)
    (root : FsEntry)
    (hnp : ∀ pd ∈ scannedDirs dn root, (checkDirectory ord pd.1 pd.2).isOk = true)
    (hnf : ¬ Fails ord dn root) :
    Check ord dn root = .ok (some ((scannedDirs dn root).flatMap (dirFindings ord)), none) ∧
      (∀ pd ∈ scannedDirs dn root,
        checkDirectory ord pd.1 pd.2 = .ok (some (dirFindings ord pd), none)) ∧
      (∀ (path : Path) (name : String) (entries : List FsEntry),
        checkDirectory ord path (.dir name none entries) =
          checkDirectory ord path (.dir name none (directFiles entries))) := by
  refine ⟨?_, ?_, fun path name entries => (checkDirectory_directFiles ord path name entries).symm⟩
  · rcases Check_cases ord dn root with ⟨p, -, pd, hpd, hcd⟩ | ⟨-, h1⟩ | ⟨hf, -⟩
    · have := hnp pd hpd
      rw [hcd] at this
      simp [Except.isOk, Except.toBool] at this
    · exact h1
    · exact absurd hf hnf
  · intro pd hpd
    have hok := hnp pd hpd
    cases hcd : checkDirectory ord pd.1 pd.2 with
    | error p =>
      rw [hcd] at hok
      simp [Except.isOk, Except.toBool] at hok
    | ok r =>
      obtain ⟨res, oerr⟩ := r
      cases oerr with
      | some err => exact absurd (Or.inr ⟨pd, hpd, res, err, hcd⟩) hnf
      | none => rw [checkDirectory_some ord pd.1 pd.2 res hcd]

/-- Witness of C14: `Add` is declared in `proj`, the test calling it inside a
`Run` closure lies in the sub-directory `sub`; the test does not cover `Add`,
and `Check` returns the Finding of `proj` followed by the (empty) Findings of
`sub`. -/
theorem C14_witness_test_in_subdirectory :
    Check RangeOrder.stored ["proj"] treeTestInSubdir =
        .ok (some [⟨["proj", "add.go"], 3, 1, untestedMessage "Add"⟩], none) ∧
      (Check RangeOrder.stored ["proj"] treeTestInSubdir =
          .ok (some ((scannedDirs ["proj"] treeTestInSubdir).flatMap
            (dirFindings RangeOrder.stored)), none) ∧
        (∀ pd ∈ scannedDirs ["proj"] treeTestInSubdir,
          checkDirectory RangeOrder.stored pd.1 pd.2 =
            .ok (some (dirFindings RangeOrder.stored pd), none)) ∧
        (∀ (path : Path) (name : String) (entries : List FsEntry),
          checkDirectory RangeOrder.stored path (.dir name none entries) =
            checkDirectory RangeOrder.stored path (.dir name none (directFiles entries)))) :=
  have hc : Check RangeOrder.stored ["proj"] treeTestInSubdir =
      .ok (some [⟨["proj", "add.go"], 3, 1, untestedMessage "Add"⟩], none) := by decide
  ⟨hc,
    C14_check_concatenates_directory_findings RangeOrder.stored ["proj"] treeTestInSubdir
      (by decide) (not_fails_of_check_some _ _ _ _ _ hc)⟩

theorem GoMap.lookup_mem_key {κ α : Type} [DecidableEq κ] (m : GoMap κ α) (k : κ) (v : α)
    (h : m.lookup k = some v) : (k, v) ∈ m := by
  unfold GoMap.lookup at h
  cases hf : m.find? (fun e => decide (e.1 = k)) with
  | none => simp [hf] at h
  | some e =>
    simp only [hf, Option.map_some', Option.some.injEq] at h
    have hk := List.find?_some hf
    simp only [decide_eq_true_eq] at hk
    have hm := List.mem_of_find?_eq_some hf
    rw [← h, ← hk]
    exact hm

theorem parseFile_name (filename : Path) (content : Except GoError File) (src : File)
    (h : parseFile filename content = .ok src) :
    ∃ src0, content = .ok src0 ∧ src.Name = src0.Name := by
  cases content with
  | error e => simp [parseFile] at h
  | ok f =>
    simp only [parseFile, Except.ok.injEq] at h
    exact ⟨f, rfl, by rw [← h]⟩

theorem addFile_grouped (pkgs : GoMap String Package) (filename : Path) (src : File)
    (hg : GroupedByName pkgs) : GroupedByName (addFile pkgs filename src) := by
  obtain ⟨hn, hall⟩ := hg
  unfold addFile
  refine ⟨GoMap.keys_insert_nodup _ _ _ hn, ?_⟩
  intro e he
  rcases (GoMap.mem_insert _ _ _ e).1 he with ⟨h1, -⟩ | rfl
  · exact hall e h1
  · cases hl : pkgs.lookup src.Name with
    | none =>
      refine ⟨rfl, ?_⟩
      intro f hf
      rcases (GoMap.mem_insert _ _ _ f).1 hf with ⟨h1, -⟩ | rfl
      · simp at h1
      · rfl
    | some pkg =>
      have hmem := GoMap.lookup_mem_key pkgs src.Name pkg hl
      obtain ⟨hname, hfiles⟩ := hall _ hmem
      refine ⟨hname, ?_⟩
      intro f hf
      rcases (GoMap.mem_insert _ _ _ f).1 hf with ⟨h1, -⟩ | rfl
      · exact hfiles f h1
      · rfl

theorem parseDirLoop_grouped (path : Path) :
    ∀ (es : List FsEntry) (pkgs : GoMap String Package) (first : Option GoError)
      (pkgs1 : GoMap String Package) (first1 : Option GoError),
      GroupedByName pkgs → parseDirLoop path es pkgs first = (some pkgs1, first1) →
        GroupedByName pkgs1
  | [], pkgs, first, pkgs1, first1, hg, h => by
    simp only [parseDirLoop, Prod.mk.injEq, Option.some.injEq] at h
    rw [← h.1]
    exact hg
  | d :: rest, pkgs, first, pkgs1, first1, hg, h => by
    have ih := parseDirLoop_grouped path rest
    simp only [parseDirLoop] at h
    split at h
    · exact ih _ _ _ _ hg h
    · cases d with
      | broken name isDir err => simp at h
      | dir name readErr entries => exact ih _ _ _ _ hg h
      | file name content =>
        simp only at h
        split at h
        · exact ih _ _ _ _ hg h
        · cases hpf : parseFile (path ++ [name]) content with
          | error e =>
            simp only [hpf] at h
            exact ih _ _ _ _ hg h
          | ok src =>
            simp only [hpf] at h
            exact ih _ _ _ _ (addFile_grouped pkgs _ src hg) h

/-- C18: when a directory parses into the packages `pkgs` and no package scan
panics, the packages are keyed by their declared name and hold only files of
that name; `checkDirectory` returns the concatenation of the Findings of
`checkPackage` on each package, in the order the packages are visited; and a
candidate that no test function of its own package calls in a `Run` closure
has its Finding in the list, whatever the test functions of the other
packages call. -/
theorem C18_each_package_checked_on_its_own (ord : RangeOrder) (path : Path) (name : String)
    (entries : List FsEntry) (pkgs : GoMap String Package)
    (hparse : parseDir path (.dir name none entries) = (some pkgs, none))
    (hnp : ∀ e ∈ pkgs, (checkPackage ord e.2 (dirFileSet path entries)).isOk = true) :
    GroupedByName pkgs ∧
      checkDirectory ord path (.dir name none entries) =
        .ok (some ((ord.visit pkgs).flatMap
          (fun e => pkgFindings ord (dirFileSet path entries) e.2)), none) ∧
      (∀ e ∈ pkgs, ∀ tb, classify ord e.2 = .ok tb →
        ∀ c ∈ tb.publicFuncs, ¬ SpecTested c.1 tb.testFuncs →
          ∃ rs, checkDirectory ord path (.dir name none entries) = .ok (some rs, none) ∧
            mkResult (dirFileSet path entries) c.1 c.2 ∈ rs) := by
  have hcd : checkDirectory ord path (.dir name none entries) =
      .ok (some ((ord.visit pkgs).flatMap
        (fun e => pkgFindings ord (dirFileSet path entries) e.2)), none) := by
    unfold checkDirectory
    rw [hparse]
    simp only [Option.getD_some]
    have := packagesLoop_eq ord (dirFileSet path entries) (ord.visit pkgs) []
      (fun e he => hnp e ((ord.visit_perm _).mem_iff.1 he))
    simpa [dirFileSet] using this
  refine ⟨?_, hcd, ?_⟩
  · simp only [parseDir] at hparse
    exact parseDirLoop_grouped path entries [] none pkgs none
      ⟨by simp [GoMap.keys], by simp⟩ hparse
  · intro e he tb htb c hc hnot
    refine ⟨_, hcd, ?_⟩
    refine List.mem_flatMap.2 ⟨e, (ord.visit_perm _).mem_iff.2 he, ?_⟩
    have hok := checkPackage_isOk ord e.2 (dirFileSet path entries) (hnp e he)
    obtain ⟨wf, -⟩ := classify_spec ord e.2 tb htb
    obtain ⟨-, id, hid, hkey⟩ := wf.2.2.2 c hc
    refine (checkPackage_mem_iff ord e.2 _ tb htb _ hok _).2 ⟨c, hc, ?_, rfl⟩
    rw [isTested_false_iff ord c.2 id hid, hkey]
    exact ⟨hasBodies_of_ok ord e.2 _ tb htb _ _ hok ⟨c, hc, hnot⟩, hnot⟩

/-- Witness of C18: `example.go` of package `example` declares `NewExample`, and
the test of package `example_test` calls it inside a `Run` closure; the two
files are two packages, and `NewExample` is reported. -/
theorem C18_witness_two_packages :
    pkgsTwoPackages.keys = ["example", "example_test"] ∧
      checkDirectory RangeOrder.stored ["example"] (.dir "example" none entriesTwoPackages) =
        .ok (some [⟨["example", "example.go"], 7, 1, untestedMessage "NewExample"⟩], none) ∧
      (GroupedByName pkgsTwoPackages ∧
        checkDirectory RangeOrder.stored ["example"] (.dir "example" none entriesTwoPackages) =
          .ok (some ((RangeOrder.stored.visit pkgsTwoPackages).flatMap
            (fun e => pkgFindings RangeOrder.stored
              (dirFileSet ["example"] entriesTwoPackages) e.2)), none) ∧
        (∀ e ∈ pkgsTwoPackages, ∀ tb, classify RangeOrder.stored e.2 = .ok tb →
          ∀ c ∈ tb.publicFuncs, ¬ SpecTested c.1 tb.testFuncs →
            ∃ rs, checkDirectory RangeOrder.stored ["example"]
                (.dir "example" none entriesTwoPackages) = .ok (some rs, none) ∧
              mkResult (dirFileSet ["example"] entriesTwoPackages) c.1 c.2 ∈ rs)) :=
  ⟨by decide, by decide,
    C18_each_package_checked_on_its_own RangeOrder.stored ["example"] "example"
      entriesTwoPackages pkgsTwoPackages rfl (by decide)⟩


/-! ## Declarations that share a name -/

theorem Decl.named_some (n : String) (d : Decl) (fd : FuncDecl) (h : d.named n = some fd) :
    d = .funcDecl fd ∧ ∃ id, fd.Name = some id ∧ id.Name = n := by
  cases d with
  | otherDecl => simp [Decl.named] at h
  | funcDecl fd0 =>
    simp only [Decl.named] at h
    split at h
    · rename_i hn
      simp only [Option.some.injEq] at h
      subst h
      cases hname : fd0.Name with
      | none => simp [hname] at hn
      | some id =>
        simp only [hname, Option.map_some', Option.some.injEq] at hn
        exact ⟨rfl, id, rfl, hn⟩
    · simp at h

theorem Decl.named_of_declares (n : String) (fd : FuncDecl) (id : Ident)
    (h : fd.Name = some id) (hn : id.Name = n) : (Decl.funcDecl fd).named n = some fd := by
  simp [Decl.named, h, hn]

theorem Decl.named_none_iff (n : String) (d : Decl) :
    d.named n = none ↔ ¬ DeclaresFunc n d := by
  constructor
  · rintro h ⟨fd, id, rfl, hname, hn⟩
    rw [Decl.named_of_declares n fd id hname hn] at h
    cases h
  · intro h
    cases hd : d.named n with
    | none => rfl
    | some fd =>
      obtain ⟨rfl, id, hname, hn⟩ := Decl.named_some n d fd hd
      exact absurd ⟨fd, id, rfl, hname, hn⟩ h

theorem entry_inserted_iff (m : GoMap String FuncDecl) (k n : String) (fd0 fd : FuncDecl)
    (Q : String → Prop) (hk : Q k) :
    (n, fd) ∈ m.insert k fd0 ↔ ((k = n ∧ fd0 = fd) ∧ Q n) ∨ (k ≠ n ∧ (n, fd) ∈ m) := by
  rw [GoMap.mem_insert]
  constructor
  · rintro (⟨h1, h2⟩ | h1)
    · exact Or.inr ⟨fun h3 => h2 h3.symm, h1⟩
    · simp only [Prod.mk.injEq] at h1
      obtain ⟨rfl, rfl⟩ := h1
      exact Or.inl ⟨⟨rfl, rfl⟩, hk⟩
  · rintro (⟨⟨rfl, rfl⟩, -⟩ | ⟨h1, h2⟩)
    · exact Or.inr rfl
    · exact Or.inl ⟨h2, fun h3 => h1 h3.symm⟩

theorem entry_unchanged_iff (m : GoMap String FuncDecl) (k n : String) (fd0 fd : FuncDecl)
    (Q : String → Prop) (hnot : ¬ Q k) (hQ : (n, fd) ∈ m → Q n) :
    (n, fd) ∈ m ↔ ((k = n ∧ fd0 = fd) ∧ Q n) ∨ (k ≠ n ∧ (n, fd) ∈ m) := by
  constructor
  · intro h1
    refine Or.inr ⟨?_, h1⟩
    rintro rfl
    exact hnot (hQ h1)
  · rintro (⟨⟨rfl, -⟩, h2⟩ | ⟨-, h2⟩)
    · exact absurd h2 hnot
    · exact h2

/-- One step of the scan, entry by entry: the declaration replaces the entry of
its name in the table of its class and leaves every other entry. -/
theorem classifyDecl_entries (tb tb1 : Tables) (d : Decl) (h : classifyDecl tb d = .ok tb1)
    (hwf : tb.WF) (n : String) (fd : FuncDecl) :
    ((n, fd) ∈ tb1.testFuncs ↔
        (d.named n = some fd ∧ IsTestName n) ∨ (d.named n = none ∧ (n, fd) ∈ tb.testFuncs)) ∧
      ((n, fd) ∈ tb1.publicFuncs ↔
        (d.named n = some fd ∧ IsCandidateName n) ∨
          (d.named n = none ∧ (n, fd) ∈ tb.publicFuncs)) := by
  obtain ⟨-, -, ht, hp⟩ := hwf
  have tOf : (n, fd) ∈ tb.testFuncs → IsTestName n := fun hm => (ht _ hm).1
  have cOf : (n, fd) ∈ tb.publicFuncs → IsCandidateName n := fun hm => (hp _ hm).1
  cases d with
  | otherDecl =>
    simp only [classifyDecl, Except.ok.injEq] at h
    subst h
    simp [Decl.named]
  | funcDecl fd0 =>
    cases hname : fd0.Name with
    | none =>
      simp only [classifyDecl, hname, Except.ok.injEq] at h
      subst h
      simp [Decl.named, hname]
    | some id =>
      have hsome : (Decl.funcDecl fd0).named n = some fd ↔ id.Name = n ∧ fd0 = fd := by
        simp only [Decl.named, hname, Option.map_some', Option.some.injEq]
        split <;> simp_all
      have hnone : (Decl.funcDecl fd0).named n = none ↔ id.Name ≠ n := by
        simp only [Decl.named, hname, Option.map_some', Option.some.injEq]
        split <;> simp_all
      rw [hsome, hnone]
      by_cases hpre : hasPrefix id.Name "Test" = true
      · simp only [classifyDecl, hname, hpre, if_true, Except.ok.injEq] at h
        subst h
        have hnc : ¬ IsCandidateName id.Name := by
          intro hc
          rw [hc.1] at hpre
          exact Bool.false_ne_true hpre
        exact ⟨entry_inserted_iff _ _ _ _ _ IsTestName hpre,
          entry_unchanged_iff _ _ _ _ _ IsCandidateName hnc cOf⟩
      · have hpre2 : hasPrefix id.Name "Test" = false := by
          cases hb : hasPrefix id.Name "Test"
          · rfl
          · exact absurd hb hpre
        have hnt : ¬ IsTestName id.Name := hpre
        cases hhead : (goBytes id.Name).head? with
        | none => simp [classifyDecl, hname, hpre2, hhead] at h
        | some b =>
          by_cases hup : isUpperLatin1 b = true
          · simp only [classifyDecl, hname, hpre2, hhead, hup, if_true, Bool.false_eq_true,
              if_false, Except.ok.injEq] at h
            subst h
            exact ⟨entry_unchanged_iff _ _ _ _ _ IsTestName hnt tOf,
              entry_inserted_iff _ _ _ _ _ IsCandidateName ⟨hpre2, b, hhead, hup⟩⟩
          · simp only [classifyDecl, hname, hpre2, hhead, hup, Bool.false_eq_true, if_false,
              Except.ok.injEq] at h
            subst h
            have hnc : ¬ IsCandidateName id.Name := by
              rintro ⟨-, b2, hb2, hu2⟩
              rw [hhead] at hb2
              cases hb2
              exact hup hu2
            exact ⟨entry_unchanged_iff _ _ _ _ _ IsTestName hnt tOf,
              entry_unchanged_iff _ _ _ _ _ IsCandidateName hnc cOf⟩

/-- The scan of a list of declarations, entry by entry: a table holds, for a name
of its class, the last declaration of the list of that name, and keeps its
entry for a name the list does not declare. -/
theorem classifyDecls_entries (ds : List Decl) :
    ∀ (tb tb1 : Tables), classifyDecls tb ds = .ok tb1 → tb.WF →
      ∀ (n : String) (fd : FuncDecl),
        ((n, fd) ∈ tb1.testFuncs ↔
            (lastDeclared n ds = some fd ∧ IsTestName n) ∨
              (lastDeclared n ds = none ∧ (n, fd) ∈ tb.testFuncs)) ∧
          ((n, fd) ∈ tb1.publicFuncs ↔
            (lastDeclared n ds = some fd ∧ IsCandidateName n) ∨
              (lastDeclared n ds = none ∧ (n, fd) ∈ tb.publicFuncs)) := by
  induction ds with
  | nil =>
    intro tb tb1 h hwf n fd
    simp only [classifyDecls, Except.ok.injEq] at h
    subst h
    simp [lastDeclared]
  | cons d ds ih =>
    intro tb tb1 h hwf n fd
    simp only [classifyDecls] at h
    cases hstep : classifyDecl tb d with
    | error p => simp [hstep] at h
    | ok tbm =>
      simp only [hstep] at h
      obtain ⟨wfm, -⟩ := classifyDecl_spec tb tbm d hstep hwf
      obtain ⟨st, sp⟩ := classifyDecl_entries tb tbm d hstep hwf n fd
      obtain ⟨it, ip⟩ := ih tbm tb1 h wfm n fd
      rw [it, ip, st, sp]
      cases hl : lastDeclared n ds with
      | some l => simp [lastDeclared, hl]
      | none => simp [lastDeclared, hl]

/-- The tables of `checkPackage`, entry by entry: each holds, for a name of its
class, the declaration of that name scanned last. -/
theorem classify_entries (ord : RangeOrder) (pkg : Package) (tb : Tables)
    (h : classify ord pkg = .ok tb) (n : String) (fd : FuncDecl) :
    ((n, fd) ∈ tb.testFuncs ↔ lastDeclared n (scanOrder ord pkg) = some fd ∧ IsTestName n) ∧
      ((n, fd) ∈ tb.publicFuncs ↔
        lastDeclared n (scanOrder ord pkg) = some fd ∧ IsCandidateName n) := by
  rw [classify_eq] at h
  obtain ⟨h1, h2⟩ := classifyDecls_entries _ _ _ h Tables.WF_empty n fd
  rw [h1, h2]
  simp

theorem lastDeclared_none_iff (n : String) (ds : List Decl) :
    lastDeclared n ds = none ↔ ∀ d ∈ ds, d.named n = none := by
  induction ds with
  | nil => simp [lastDeclared]
  | cons d ds ih =>
    simp only [lastDeclared, List.mem_cons, forall_eq_or_imp]
    cases hl : lastDeclared n ds with
    | some l =>
      rw [hl] at ih
      simp only [reduceCtorEq, false_iff] at ih ⊢
      exact fun h => ih h.2
    | none =>
      rw [hl] at ih
      simp only [true_iff] at ih
      simp only
      exact ⟨fun h => ⟨h, ih⟩, fun h => h.1⟩

theorem lastDeclared_append (n : String) (l1 l2 : List Decl) :
    lastDeclared n (l1 ++ l2) =
      match lastDeclared n l2 with
      | some fd => some fd
      | none => lastDeclared n l1 := by
  induction l1 with
  | nil => cases h : lastDeclared n l2 <;> simp [lastDeclared, h]
  | cons d ds ih =>
    have hstep : lastDeclared n (d :: ds ++ l2) =
        match lastDeclared n (ds ++ l2) with
        | some fd => some fd
        | none => d.named n := rfl
    rw [hstep, ih]
    cases h : lastDeclared n l2 <;> simp [lastDeclared, h]

/-- The table of test functions tests a name exactly when the last declaration of
some test name calls it in a `Run` closure. -/
theorem specTested_iff_last (ord : RangeOrder) (pkg : Package) (tb : Tables)
    (h : classify ord pkg = .ok tb) (f : String) :
    SpecTested f tb.testFuncs ↔ LastTestCalls ord pkg f := by
  constructor
  · rintro ⟨t, ht, body, hb, hcall⟩
    obtain ⟨hlast, htest⟩ := (classify_entries ord pkg tb h t.1 t.2).1.1 ht
    exact ⟨t.1, t.2, body, htest, hlast, hb, hcall⟩
  · rintro ⟨n, t, body, htest, hlast, hb, hcall⟩
    exact ⟨(n, t), (classify_entries ord pkg tb h n t).1.2 ⟨hlast, htest⟩, body, hb, hcall⟩

/-- The test functions of the table all have a body exactly when the last
declaration of every test name has one. -/
theorem hasBodies_iff_last (ord : RangeOrder) (pkg : Package) (tb : Tables)
    (h : classify ord pkg = .ok tb) :
    HasBodies tb.testFuncs ↔ LastTestsHaveBodies ord pkg := by
  constructor
  · intro hb n t htest hlast
    exact hb (n, t) ((classify_entries ord pkg tb h n t).1.2 ⟨hlast, htest⟩)
  · intro hb t ht
    obtain ⟨hlast, htest⟩ := (classify_entries ord pkg tb h t.1 t.2).1.1 ht
    exact hb t.1 t.2 htest hlast

/-- C17: when several scanned function declarations share a name, the tables
keep the one scanned last.  With the tables built, an entry `(n, fd)` is in a
table exactly when `fd` is the last declaration named `n` in scan order and
`n` is of the class of the table.  In every list `checkPackage` returns the
Findings carry pairwise different names, and the Finding of a name is
positioned at the last declaration of that name.  And `isTested` searches,
for each test name, the body of the last declaration of that name only: it
returns when each of these has a body, whatever the earlier declarations are,
it returns true only when one of these bodies has a `Run` closure calling the
name, and false exactly when each of them is a body that has none. -/
theorem C17_last_declaration_wins (ord : RangeOrder) (pkg : Package) (fileSet : FileSet)
    (tb : Tables) (h : classify ord pkg = .ok tb) :
    (∀ n fd, (n, fd) ∈ tb.testFuncs ↔
        lastDeclared n (scanOrder ord pkg) = some fd ∧ IsTestName n) ∧
      (∀ n fd, (n, fd) ∈ tb.publicFuncs ↔
        lastDeclared n (scanOrder ord pkg) = some fd ∧ IsCandidateName n) ∧
      (∀ results, checkPackage ord pkg fileSet = .ok (some results, none) →
        (results.map (fun r => r.Message)).Nodup ∧
        ∀ r ∈ results, ∃ n fd, lastDeclared n (scanOrder ord pkg) = some fd ∧
          r.Message = untestedMessage n ∧
          r.FileName = (fileSet.Position fd.Pos).Filename ∧
          r.Line = (fileSet.Position fd.Pos).Line ∧
          r.Column = (fileSet.Position fd.Pos).Column) ∧
      (∀ (f : FuncDecl) (id : Ident), f.Name = some id →
        (LastTestsHaveBodies ord pkg →
          ∃ b, isTested ord f tb.testFuncs = .ok b ∧
            (b = true ↔ LastTestCalls ord pkg id.Name)) ∧
        (isTested ord f tb.testFuncs = .ok true → LastTestCalls ord pkg id.Name) ∧
        (isTested ord f tb.testFuncs = .ok false ↔
          LastTestsHaveBodies ord pkg ∧ ¬ LastTestCalls ord pkg id.Name)) ∧
      (LastTestsHaveBodies ord pkg →
        ∃ results, checkPackage ord pkg fileSet = .ok (some results, none)) := by
  obtain ⟨wf, -⟩ := classify_spec ord pkg tb h
  refine ⟨fun n fd => (classify_entries ord pkg tb h n fd).1,
    fun n fd => (classify_entries ord pkg tb h n fd).2, ?_, ?_, ?_⟩
  · intro results hr
    obtain ⟨-, hres⟩ := checkPackage_ok ord pkg fileSet tb h _ _ hr
    simp only [Option.some.injEq] at hres
    refine ⟨by rw [hres]; exact results_messages_nodup ord fileSet tb wf, ?_⟩
    intro r hmem
    obtain ⟨e, he, -, rfl⟩ := (checkPackage_mem_iff ord pkg fileSet tb h results hr r).1 hmem
    exact ⟨e.1, e.2, ((classify_entries ord pkg tb h e.1 e.2).2.1 he).1, rfl, rfl, rfl, rfl⟩
  · intro f id hname
    refine ⟨fun hb => ?_, fun ht => ?_, ?_⟩
    · have hb1 := (hasBodies_iff_last ord pkg tb h).2 hb
      refine ⟨_, isTested_eq ord f id hname tb.testFuncs hb1, ?_⟩
      rw [any_calledInRun_iff, specTested_iff_last ord pkg tb h]
    · exact (specTested_iff_last ord pkg tb h _).1 (isTested_true ord f id hname _ ht)
    · rw [isTested_false_iff ord f id hname, hasBodies_iff_last ord pkg tb h,
        specTested_iff_last ord pkg tb h]
  · intro hb
    exact ⟨_, checkPackage_eq ord pkg fileSet tb h ((hasBodies_iff_last ord pkg tb h).2 hb)⟩

/-- Witness of C17: `Add` is declared at line 3 and again at line 8 of one file,
and the single Finding for `Add` stands at line 8; `TestAdd` is declared with
a `Run` closure calling `Add` and again with an empty body, only the second
body is searched, and `Add` is reported; `TestAdd` is declared without a body
and again with a `Run` closure calling `Add`, only the second body is
searched, and `Add` is not reported. -/
theorem C17_witness_declared_twice :
    checkPackage RangeOrder.stored pkgAddDeclaredTwice fileSetProj =
        .ok (some [⟨addGo, 8, 1, untestedMessage "Add"⟩], none) ∧
      checkPackage RangeOrder.stored pkgTestDeclaredTwice fileSetProj =
        .ok (some [⟨addGo, 3, 1, untestedMessage "Add"⟩], none) ∧
      checkPackage RangeOrder.stored pkgTestRedeclared fileSetProj = .ok (some [], none) ∧
      ((∀ n fd, (n, fd) ∈ [("Add", declAddAgain)] ↔
          lastDeclared n (scanOrder RangeOrder.stored pkgAddDeclaredTwice) = some fd ∧
            IsCandidateName n) ∧
        (∀ results, checkPackage RangeOrder.stored pkgAddDeclaredTwice fileSetProj =
            .ok (some results, none) →
          (results.map (fun r => r.Message)).Nodup ∧
          ∀ r ∈ results, ∃ n fd,
            lastDeclared n (scanOrder RangeOrder.stored pkgAddDeclaredTwice) = some fd ∧
              r.Message = untestedMessage n ∧
              r.FileName = (fileSetProj.Position fd.Pos).Filename ∧
              r.Line = (fileSetProj.Position fd.Pos).Line ∧
              r.Column = (fileSetProj.Position fd.Pos).Column)) ∧
      (∀ n fd, (n, fd) ∈ [("TestAdd", declTestAddRunAgain)] ↔
        lastDeclared n (scanOrder RangeOrder.stored pkgTestRedeclared) = some fd ∧
          IsTestName n) :=
  have hw := C17_last_declaration_wins RangeOrder.stored pkgAddDeclaredTwice fileSetProj
    { testFuncs := [], publicFuncs := [("Add", declAddAgain)] } rfl
  have hw2 := C17_last_declaration_wins RangeOrder.stored pkgTestRedeclared fileSetProj
    { testFuncs := [("TestAdd", declTestAddRunAgain)], publicFuncs := [("Add", declAdd)] } rfl
  ⟨by decide, by decide, by decide, ⟨hw.2.1, hw.2.2.1⟩, hw2.1⟩

/-! ## One more test function -/

theorem isUntested_mono (t1 t2 : GoMap String FuncDecl) (e : String × FuncDecl)
    (hsub : ∀ x ∈ t1, x ∈ t2) (h : isUntested t2 e = true) : isUntested t1 e = true := by
  simp only [isUntested, Bool.not_eq_true', List.any_eq_false] at h ⊢
  exact fun x hx => h x (hsub x hx)

theorem isCandidateName_iff (n : String) : isCandidateName n = true ↔ IsCandidateName n := by
  unfold isCandidateName IsCandidateName
  cases hp : hasPrefix n "Test" <;> cases hh : (goBytes n).head? <;> simp

theorem isTableName_of (n : String) (h : IsTestName n ∨ IsCandidateName n) :
    isTableName n = true := by
  unfold isTableName
  rcases h with h | h
  · simp [isTestName, show hasPrefix n "Test" = true from h]
  · simp [(isCandidateName_iff n).2 h]

/-- The names of a file are the names that have a last declaration in it. -/
theorem mem_funcNames (f : File) (n : String) :
    n ∈ f.funcNames ↔ lastDeclared n f.Decls ≠ none := by
  rw [Ne, lastDeclared_none_iff]
  simp only [File.funcNames, List.mem_filterMap, not_forall]
  constructor
  · rintro ⟨d, hd, hn⟩
    refine ⟨d, hd, ?_⟩
    cases d with
    | otherDecl => simp at hn
    | funcDecl fd =>
      simp only at hn
      simp [Decl.named, hn]
  · rintro ⟨d, hd, hn⟩
    refine ⟨d, hd, ?_⟩
    cases d with
    | otherDecl => simp [Decl.named] at hn
    | funcDecl fd =>
      simp only [Decl.named] at hn
      split at hn
      · rename_i heq
        exact heq
      · exact absurd rfl hn

theorem pair_eq_of_keys_nodup {α β : Type} :
    ∀ (l : List (α × β)), (l.map Prod.fst).Nodup → ∀ x ∈ l, ∀ y ∈ l, x.1 = y.1 → x = y
  | [], _, x, hx, _, _, _ => by cases hx
  | a :: l, h, x, hx, y, hy, hk => by
    have ih := pair_eq_of_keys_nodup l
    simp only [List.map_cons, List.nodup_cons, List.mem_map, not_exists, not_and] at h
    rcases List.mem_cons.1 hx with rfl | hx1 <;> rcases List.mem_cons.1 hy with rfl | hy1
    · rfl
    · exact absurd hk.symm (h.1 y hy1)
    · exact absurd hk (h.1 x hx1)
    · exact ih h.2 x hx1 y hy1 hk

theorem lastDeclared_flatMap (n : String) :
    ∀ (fs : List (Path × File)) (pre : List Decl),
      lastDeclared n (pre ++ fs.flatMap (fun e => e.2.Decls)) =
        fs.foldl (lastAfterFile n) (lastDeclared n pre)
  | [], pre => by simp
  | e :: rest, pre => by
    have ih := lastDeclared_flatMap n rest (pre ++ e.2.Decls)
    simp only [List.flatMap_cons, List.foldl_cons]
    rw [← List.append_assoc, ih, lastDeclared_append]
    rfl

/-- The last declaration of a name that is declared in one file only does not
depend on the order in which the files are visited. -/
theorem lastDeclared_scanOrder (ord1 ord2 : RangeOrder) (pkg : Package)
    (hmap : pkg.Files.keys.Nodup) (n : String)
    (hn : ∀ x ∈ pkg.Files, ∀ y ∈ pkg.Files, x.1 ≠ y.1 →
      n ∈ x.2.funcNames → n ∉ y.2.funcNames) :
    lastDeclared n (scanOrder ord1 pkg) = lastDeclared n (scanOrder ord2 pkg) := by
  have h1 := lastDeclared_flatMap n (ord1.visit pkg.Files) []
  have h2 := lastDeclared_flatMap n (ord2.visit pkg.Files) []
  simp only [List.nil_append] at h1 h2
  unfold scanOrder
  rw [h1, h2]
  have hperm : (ord1.visit pkg.Files).Perm (ord2.visit pkg.Files) :=
    (ord1.visit_perm _).trans (ord2.visit_perm _).symm
  apply List.Perm.foldl_eq' hperm
  intro x hx y hy z
  have hx1 := (ord1.visit_perm _).mem_iff.1 hx
  have hy1 := (ord1.visit_perm _).mem_iff.1 hy
  unfold lastAfterFile
  cases hlx : lastDeclared n x.2.Decls with
  | none => cases hly : lastDeclared n y.2.Decls <;> simp
  | some fx =>
    cases hly : lastDeclared n y.2.Decls with
    | none => simp
    | some fy =>
      have hxn : n ∈ x.2.funcNames := (mem_funcNames x.2 n).2 (by rw [hlx]; simp)
      have hyn : n ∈ y.2.funcNames := (mem_funcNames y.2 n).2 (by rw [hly]; simp)
      have hkey : x.1 = y.1 := by
        by_contra hne
        exact hn x hx1 y hy1 hne hxn hyn
      have : x = y := pair_eq_of_keys_nodup pkg.Files hmap x hx1 y hy1 hkey
      subst this
      rw [hlx] at hly
      simp only [Option.some.injEq] at hly
      simp [hly]

theorem lastDeclared_order_of (p : String → Bool) (ord1 ord2 : RangeOrder) (pkg : Package)
    (hmap : pkg.Files.keys.Nodup) (hone : OneFilePer p pkg) (n : String) (hp : p n = true) :
    lastDeclared n (scanOrder ord1 pkg) = lastDeclared n (scanOrder ord2 pkg) :=
  lastDeclared_scanOrder ord1 ord2 pkg hmap n
    (fun x hx y hy hne hxn => hone x hx y hy hne n hxn hp)

theorem classify_of_ok (ord : RangeOrder) (pkg : Package) (fileSet : FileSet)
    (r : Returned) (h : checkPackage ord pkg fileSet = .ok r) :
    ∃ tb, classify ord pkg = .ok tb := by
  cases hc : classify ord pkg with
  | error p => simp [checkPackage, hc] at h
  | ok tb => exact ⟨tb, rfl⟩

/-- Every test function of the table has a body when every test function
declared in the package has one. -/
theorem hasBodies_of_tests (ord : RangeOrder) (pkg : Package) (tb : Tables)
    (h : classify ord pkg = .ok tb) (hb : TestsHaveBodies pkg) : HasBodies tb.testFuncs := by
  obtain ⟨wf, -, -, vt, -⟩ := classify_spec ord pkg tb h
  intro t ht
  obtain ⟨htest, id, hid, hkey⟩ := wf.2.2.1 t ht
  have := hb _ (vt t ht)
  simp only [Decl.testHasBody, hid, hkey, show hasPrefix t.1 "Test" = true from htest,
    Bool.not_true, Bool.false_or] at this
  exact this

theorem classify_ok_order (ord1 ord2 : RangeOrder) (pkg : Package) (tb1 : Tables)
    (h : classify ord1 pkg = .ok tb1) : ∃ tb2, classify ord2 pkg = .ok tb2 := by
  apply classify_total
  intro d hd n hn hempty
  subst hempty
  rw [classify_eq] at h
  exact classifyDecls_ok_nonempty _ _ _ h d ((mem_scanOrder ord1 pkg d).2 hd) hn

/-- Counterexample to C20: two test files of a package both declare `TestAdd`,
one with a `Run` closure calling `Add`, one with an empty body.  A run that
visits the files last to first reports nothing.  The test `TestNew`, a name
the package does not declare, is added in a new file; a run on the new
package that visits the files first to last reports `Add`. -/
theorem C20_counterexample_test_in_two_files :
    checkPackage RangeOrder.reversed pkgTestInTwoFiles fileSetProj = .ok (some [], none) ∧
      checkPackage RangeOrder.stored pkgTestInTwoFilesPlus fileSetProj =
        .ok (some [⟨addGo, 3, 1, untestedMessage "Add"⟩], none) ∧
      AddsDecl pkgTestInTwoFiles declTestNew pkgTestInTwoFilesPlus ∧
      hasPrefix "TestNew" "Test" = true ∧
      (∀ x ∈ pkgTestInTwoFiles.Files, "TestNew" ∉ x.2.funcNames) := by
  refine ⟨by decide, by decide, ?_, by decide, by decide⟩
  exact ⟨RangeOrder.stored, RangeOrder.stored,
    [.otherDecl, .funcDecl declAdd, .funcDecl declTestAddRun, .funcDecl declTestAddEmpty], [],
    rfl, rfl⟩

/-- C20 as amended: let no test-function name be declared in two different files
of a package (a Go map of files, keyed by pairwise different paths), before
and after a test-function declaration `t` is added whose name begins with
`Test` and is not declared in the package.  Then, whatever the orders in
which the two runs iterate, the function names reported in a list
`checkPackage` returns after the addition are among those reported in a list
it returns before: the addition adds no Finding.  And when every test
function has a body after the addition, `checkPackage` returns a list after
it whenever it does not panic before. -/
theorem C20_adding_a_test_adds_no_finding (pkg pkg1 : Package) (t : FuncDecl) (id : Ident)
    (hmap : pkg.Files.keys.Nodup) (hmap1 : pkg1.Files.keys.Nodup)
    (hadd : AddsDecl pkg t pkg1)
    (hname : t.Name = some id) (htest : hasPrefix id.Name "Test" = true)
    (hfresh : ∀ x ∈ pkg.Files, id.Name ∉ x.2.funcNames)
    (hone : OneFilePerTestName pkg) (hone1 : OneFilePerTestName pkg1)
    (ord ord1 : RangeOrder) (fileSet fileSet1 : FileSet) :
    (∀ results results1, checkPackage ord pkg fileSet = .ok (some results, none) →
        checkPackage ord1 pkg1 fileSet1 = .ok (some results1, none) →
          ∀ m ∈ results1.map (fun r => r.Message),
            m ∈ results.map (fun r => r.Message)) ∧
      (TestsHaveBodies pkg1 → (checkPackage ord pkg fileSet).isOk = true →
        ∃ results1, checkPackage ord1 pkg1 fileSet1 = .ok (some results1, none)) := by
  obtain ⟨o, o1, l1, l2, hbefore, hafter⟩ := hadd
  -- the declarations before and after
  have hdecls : ∀ d, d ∈ pkg.decls ↔ d ∈ l1 ++ l2 := by
    intro d
    rw [← mem_scanOrder o pkg d, hbefore]
  have hdecls1 : ∀ d, d ∈ pkg1.decls ↔ d ∈ l1 ++ l2 ∨ d = .funcDecl t := by
    intro d
    rw [← mem_scanOrder o1 pkg1 d, hafter]
    simp only [List.mem_append, List.mem_cons]
    tauto
  have hfreshList : ∀ d ∈ l1 ++ l2, d.named id.Name = none := by
    intro d hd
    have hd1 := (hdecls d).2 hd
    simp only [Package.decls, List.mem_flatMap] at hd1
    obtain ⟨x, hx, hdx⟩ := hd1
    by_contra hne
    apply hfresh x hx
    rw [mem_funcNames, Ne, lastDeclared_none_iff]
    exact fun hall => hne (hall d hdx)
  have hnc : ¬ IsCandidateName id.Name := by
    intro hc
    rw [hc.1] at htest
    exact Bool.false_ne_true htest
  -- the last declaration of every other test name is the same
  have hlast : ∀ n, IsTestName n → n ≠ id.Name →
      lastDeclared n (scanOrder ord1 pkg1) = lastDeclared n (scanOrder ord pkg) := by
    intro n hnt hn
    have hnone : (Decl.funcDecl t).named n = none := by
      rw [Decl.named_none_iff]
      rintro ⟨fd, id1, heq, hn1, hn2⟩
      cases heq
      rw [hname] at hn1
      cases hn1
      exact hn hn2.symm
    rw [lastDeclared_order_of isTestName ord1 o1 pkg1 hmap1 hone1 n hnt,
      lastDeclared_order_of isTestName ord o pkg hmap hone n hnt,
      hafter, hbefore, lastDeclared_append, lastDeclared_append]
    simp only [lastDeclared, hnone]
    cases h2 : lastDeclared n l2 <;> simp [h2]
  have htst : ∀ tb tb1, classify ord pkg = .ok tb → classify ord1 pkg1 = .ok tb1 →
      ∀ x ∈ tb.testFuncs, x ∈ tb1.testFuncs := by
    intro tb tb1 h h1 x hx
    obtain ⟨hl, hc⟩ := (classify_entries ord pkg tb h x.1 x.2).1.1 hx
    have hn : x.1 ≠ id.Name := by
      intro heq
      have hdecl : .funcDecl x.2 ∈ l1 ++ l2 := by
        obtain ⟨-, -, -, vt, -⟩ := classify_spec ord pkg tb h
        exact (hdecls _).1 (vt x hx)
      obtain ⟨wf, -⟩ := classify_spec ord pkg tb h
      obtain ⟨-, id2, hid2, hkey2⟩ := wf.2.2.1 x hx
      have := hfreshList _ hdecl
      rw [Decl.named_of_declares id.Name x.2 id2 hid2 (by rw [hkey2, heq])] at this
      cases this
    exact (classify_entries ord1 pkg1 tb1 h1 x.1 x.2).1.2 ⟨by rw [hlast x.1 hc hn]; exact hl, hc⟩
  refine ⟨?_, ?_⟩
  · intro results results1 hr hr1 m hm
    obtain ⟨tb, h⟩ := classify_of_ok ord pkg fileSet _ hr
    obtain ⟨tb1, h1⟩ := classify_of_ok ord1 pkg1 fileSet1 _ hr1
    obtain ⟨wf, -, kp, -, -⟩ := classify_spec ord pkg tb h
    obtain ⟨wf1, -, kp1, -, -⟩ := classify_spec ord1 pkg1 tb1 h1
    obtain ⟨r1, hr1mem, rfl⟩ := List.mem_map.1 hm
    obtain ⟨e1, he1, ht1, rfl⟩ :=
      (checkPackage_mem_iff ord1 pkg1 fileSet1 tb1 h1 results1 hr1 r1).1 hr1mem
    obtain ⟨-, id1, hid1, hkey1⟩ := wf1.2.2.2 e1 he1
    obtain ⟨hb1, hnot1⟩ := (isTested_false_iff ord1 e1.2 id1 hid1 tb1.testFuncs).1 ht1
    rw [hkey1] at hnot1
    -- the name is a candidate of the package before
    have hk1 : e1.1 ∈ tb1.publicFuncs.keys := List.mem_map.2 ⟨e1, he1, rfl⟩
    obtain ⟨hcand, d, hd, hdn⟩ := (kp1 e1.1).1 hk1
    have hd0 : d ∈ pkg.decls := by
      rcases (hdecls1 d).1 hd with hd2 | rfl
      · exact (hdecls d).2 hd2
      · exfalso
        obtain ⟨fd, id2, heq, hn1, hn2⟩ := hdn
        cases heq
        rw [hname] at hn1
        cases hn1
        rw [← hn2] at hcand
        exact hnc hcand
    have hk : e1.1 ∈ tb.publicFuncs.keys := (kp e1.1).2 ⟨hcand, d, hd0, hdn⟩
    obtain ⟨e, he, hek⟩ := List.mem_map.1 hk
    obtain ⟨-, id0, hid0, hkey0⟩ := wf.2.2.2 e he
    have hsub := htst tb tb1 h h1
    have hfalse : isTested ord e.2 tb.testFuncs = .ok false := by
      rw [isTested_false_iff ord e.2 id0 hid0, hkey0, hek]
      refine ⟨fun x hx => hb1 x (hsub x hx), ?_⟩
      rintro ⟨x, hx, body, hbody, hcall⟩
      exact hnot1 ⟨x, hsub x hx, body, hbody, hcall⟩
    have hmem : mkResult fileSet e.1 e.2 ∈ results :=
      (checkPackage_mem_iff ord pkg fileSet tb h results hr _).2 ⟨e, he, hfalse, rfl⟩
    exact List.mem_map.2 ⟨_, hmem, by simp [mkResult, hek]⟩
  · intro hbody hok
    cases hr : checkPackage ord pkg fileSet with
    | error p =>
      rw [hr] at hok
      simp [Except.isOk, Except.toBool] at hok
    | ok r =>
      obtain ⟨tb, h⟩ := classify_of_ok ord pkg fileSet _ hr
      have hold : ∀ d0 ∈ pkg.decls, ¬ DeclaresFunc "" d0 := by
        intro d0 hd0
        have hc := h
        rw [classify_eq] at hc
        exact classifyDecls_ok_nonempty _ _ _ hc d0 ((mem_scanOrder ord pkg d0).2 hd0)
      obtain ⟨tb1, h1⟩ : ∃ tb1, classify ord1 pkg1 = .ok tb1 := by
        apply classify_total
        intro d hd n hn hempty
        subst hempty
        rcases (hdecls1 d).1 hd with hd2 | rfl
        · exact hold d ((hdecls d).2 hd2) hn
        · obtain ⟨fd, id1, heq, hn1, hn2⟩ := hn
          cases heq
          rw [hname] at hn1
          cases hn1
          rw [hn2] at htest
          exact absurd htest (by decide)
      exact ⟨_, checkPackage_eq ord1 pkg1 fileSet1 tb1 h1
        (hasBodies_of_tests ord1 pkg1 tb1 h1 hbody)⟩

/-- Witness of amended C20: in a package of three files that reports `Sub` and
`Reset`, the test `TestSub`, whose `Run` closure calls `Sub`, is added to the
test file, between the declarations of the other files; a run in the
reversed order then reports `Reset` only, and `Reset` is among the names a
run in the stored order reports before. -/
theorem C20_witness_test_added_to_three_files :
    checkPackage RangeOrder.stored pkgThreeFiles fileSetProj =
        .ok (some [⟨addGo, 7, 1, untestedMessage "Sub"⟩,
          ⟨setupGo, 3, 1, untestedMessage "Reset"⟩], none) ∧
      checkPackage RangeOrder.reversed pkgThreeFilesPlus fileSetProj =
        .ok (some [⟨setupGo, 3, 1, untestedMessage "Reset"⟩], none) ∧
      AddsDecl pkgThreeFiles declTestSubRun pkgThreeFilesPlus ∧
      (∀ x ∈ pkgThreeFiles.Files, "TestSub" ∉ x.2.funcNames) ∧
      OneFilePerTestName pkgThreeFiles ∧ OneFilePerTestName pkgThreeFilesPlus ∧
      ((∀ results results1,
          checkPackage RangeOrder.stored pkgThreeFiles fileSetProj = .ok (some results, none) →
            checkPackage RangeOrder.reversed pkgThreeFilesPlus fileSetProj =
                .ok (some results1, none) →
              ∀ m ∈ results1.map (fun r => r.Message),
                m ∈ results.map (fun r => r.Message)) ∧
        (TestsHaveBodies pkgThreeFilesPlus →
          (checkPackage RangeOrder.stored pkgThreeFiles fileSetProj).isOk = true →
            ∃ results1, checkPackage RangeOrder.reversed pkgThreeFilesPlus fileSetProj =
              .ok (some results1, none))) :=
  have hadd : AddsDecl pkgThreeFiles declTestSubRun pkgThreeFilesPlus :=
    ⟨RangeOrder.stored, RangeOrder.stored,
      [.otherDecl, .funcDecl declAdd, .funcDecl declSub, .funcDecl declTestAddRun],
      [.funcDecl declReset], rfl, rfl⟩
  ⟨by decide, by decide, hadd, by decide, by decide, by decide,
    C20_adding_a_test_adds_no_finding pkgThreeFiles pkgThreeFilesPlus declTestSubRun
      { NamePos := ⟨addTestGo, 11, 6, none⟩, Name := "TestSub" }
      (by decide) (by decide) hadd rfl (by decide) (by decide) (by decide) (by decide)
      RangeOrder.stored RangeOrder.reversed fileSetProj fileSetProj⟩

/-! ## Two runs of the scan -/

theorem isUntested_congr (t1 t2 : GoMap String FuncDecl) (e : String × FuncDecl)
    (h : ∀ x, x ∈ t1 ↔ x ∈ t2) : isUntested t1 e = isUntested t2 e := by
  cases h2 : isUntested t2 e
  · cases h1 : isUntested t1 e
    · rfl
    · rw [isUntested_mono t2 t1 e (fun x hx => (h x).2 hx) h1] at h2
      cases h2
  · exact isUntested_mono t1 t2 e (fun x hx => (h x).1 hx) h2

/-- The tables of a package hold the same entries in every order of the
iteration, when no name that goes to a table is declared in two files. -/
theorem tables_order (ord1 ord2 : RangeOrder) (pkg : Package) (tb1 tb2 : Tables)
    (hmap : pkg.Files.keys.Nodup) (hone : OneFilePerName pkg)
    (h1 : classify ord1 pkg = .ok tb1) (h2 : classify ord2 pkg = .ok tb2) :
    (∀ x, x ∈ tb1.testFuncs ↔ x ∈ tb2.testFuncs) ∧
      (∀ x, x ∈ tb1.publicFuncs ↔ x ∈ tb2.publicFuncs) := by
  constructor
  · intro x
    rw [(classify_entries ord1 pkg tb1 h1 x.1 x.2).1,
      (classify_entries ord2 pkg tb2 h2 x.1 x.2).1]
    constructor
    · rintro ⟨hl, hn⟩
      refine ⟨?_, hn⟩
      rw [← lastDeclared_order_of isTableName ord1 ord2 pkg hmap hone x.1
        (isTableName_of x.1 (Or.inl hn))]
      exact hl
    · rintro ⟨hl, hn⟩
      refine ⟨?_, hn⟩
      rw [lastDeclared_order_of isTableName ord1 ord2 pkg hmap hone x.1
        (isTableName_of x.1 (Or.inl hn))]
      exact hl
  · intro x
    rw [(classify_entries ord1 pkg tb1 h1 x.1 x.2).2,
      (classify_entries ord2 pkg tb2 h2 x.1 x.2).2]
    constructor
    · rintro ⟨hl, hn⟩
      refine ⟨?_, hn⟩
      rw [← lastDeclared_order_of isTableName ord1 ord2 pkg hmap hone x.1
        (isTableName_of x.1 (Or.inr hn))]
      exact hl
    · rintro ⟨hl, hn⟩
      refine ⟨?_, hn⟩
      rw [lastDeclared_order_of isTableName ord1 ord2 pkg hmap hone x.1
        (isTableName_of x.1 (Or.inr hn))]
      exact hl

/-- The outcome of the scan of a package does not depend on the order of the
iterations, when no name that goes to a table is declared in two files and
every test function has a body. -/
theorem checkPackage_order (ord1 ord2 : RangeOrder) (pkg : Package) (fileSet : FileSet)
    (hmap : pkg.Files.keys.Nodup) (hone : OneFilePerName pkg) (hbody : TestsHaveBodies pkg) :
    SameOutcome (checkPackage ord1 pkg fileSet) (checkPackage ord2 pkg fileSet) := by
  cases hc1 : classify ord1 pkg with
  | error p =>
    cases hc2 : classify ord2 pkg with
    | error q =>
      rcases checkPackage_cases ord1 pkg fileSet with ⟨-, hp1⟩ | ⟨tb, htb, -⟩
      · rcases checkPackage_cases ord2 pkg fileSet with ⟨-, hp2⟩ | ⟨tb, htb, -⟩
        · rw [hp1, hp2]
          rfl
        · rw [hc2] at htb
          cases htb
      · rw [hc1] at htb
        cases htb
    | ok tb2 =>
      obtain ⟨tb, htb⟩ := classify_ok_order ord2 ord1 pkg tb2 hc2
      rw [hc1] at htb
      cases htb
  | ok tb1 =>
    obtain ⟨tb2, hc2⟩ := classify_ok_order ord1 ord2 pkg tb1 hc1
    rw [checkPackage_eq ord1 pkg fileSet tb1 hc1 (hasBodies_of_tests ord1 pkg tb1 hc1 hbody),
      checkPackage_eq ord2 pkg fileSet tb2 hc2 (hasBodies_of_tests ord2 pkg tb2 hc2 hbody)]
    obtain ⟨htest, hpub⟩ := tables_order ord1 ord2 pkg tb1 tb2 hmap hone hc1 hc2
    refine ⟨rfl, rfl, ?_⟩
    intro r
    simp only [Option.getD_some, List.mem_map, List.mem_filter]
    constructor
    · rintro ⟨e, ⟨hv, hu⟩, rfl⟩
      refine ⟨e, ⟨(ord2.visit_perm _).mem_iff.2
        ((hpub e).1 ((ord1.visit_perm _).mem_iff.1 hv)), ?_⟩, rfl⟩
      rw [← isUntested_congr _ _ e htest]
      exact hu
    · rintro ⟨e, ⟨hv, hu⟩, rfl⟩
      refine ⟨e, ⟨(ord1.visit_perm _).mem_iff.2
        ((hpub e).2 ((ord2.visit_perm _).mem_iff.1 hv)), ?_⟩, rfl⟩
      rw [isUntested_congr _ _ e htest]
      exact hu

theorem SameOutcome.isOk_eq {a b : Except Panic Returned} (h : SameOutcome a b) :
    a.isOk = b.isOk := by
  cases a <;> cases b <;> simp_all [SameOutcome, Except.isOk, Except.toBool]

theorem pkgFindings_order (ord1 ord2 : RangeOrder) (pkg : Package) (fileSet : FileSet)
    (hmap : pkg.Files.keys.Nodup) (hone : OneFilePerName pkg) (hbody : TestsHaveBodies pkg)
    (r : CheckerResult) :
    r ∈ pkgFindings ord1 fileSet pkg ↔ r ∈ pkgFindings ord2 fileSet pkg := by
  have h := checkPackage_order ord1 ord2 pkg fileSet hmap hone hbody
  unfold pkgFindings
  cases h1 : checkPackage ord1 pkg fileSet with
  | error p =>
    cases h2 : checkPackage ord2 pkg fileSet with
    | error q => simp
    | ok b => simp [h1, h2, SameOutcome] at h
  | ok a =>
    cases h2 : checkPackage ord2 pkg fileSet with
    | error q => simp [h1, h2, SameOutcome] at h
    | ok b =>
      obtain ⟨r1, e1⟩ := a
      obtain ⟨r2, e2⟩ := b
      simp only [h1, h2, SameOutcome] at h
      obtain ⟨he, -, hm⟩ := h
      subst he
      cases e1 with
      | none => exact hm r
      | some err => simp

/-- When every test function of every package has a body, a package scan that
does not return has met an empty name, and the loop over the packages ends
with that panic. -/
theorem packagesLoop_panic (ord : RangeOrder) (fileSet : FileSet) :
    ∀ (l : List (String × Package)) (acc : List CheckerResult),
      (∀ e ∈ l, TestsHaveBodies e.2) →
        (∃ e ∈ l, (checkPackage ord e.2 fileSet).isOk = false) →
          packagesLoop ord fileSet l acc = .error .indexOutOfRange
  | [], acc, _, h => by simp at h
  | (k, pkg) :: rest, acc, hb, h => by
    have ih := packagesLoop_panic ord fileSet rest
    rcases checkPackage_cases ord pkg fileSet with ⟨-, hp⟩ | ⟨tb, htb, hp | ⟨-, hnb⟩⟩
    · simp [packagesLoop, hp]
    · rw [packagesLoop, hp]
      simp only
      apply ih _ (fun e he => hb e (List.mem_cons_of_mem _ he))
      obtain ⟨e, he, hbad⟩ := h
      rcases List.mem_cons.1 he with rfl | he
      · rw [hp] at hbad
        simp [Except.isOk, Except.toBool] at hbad
      · exact ⟨e, he, hbad⟩
    · exact absurd (hasBodies_of_tests ord pkg tb htb (hb (k, pkg) (List.mem_cons_self _ _))) hnb

theorem packagesLoop_order (ord1 ord2 : RangeOrder) (fileSet : FileSet)
    (pkgs : GoMap String Package)
    (hP : ∀ e ∈ pkgs, e.2.Files.keys.Nodup ∧ OneFilePerName e.2 ∧ TestsHaveBodies e.2) :
    SameOutcome (packagesLoop ord1 fileSet (ord1.visit pkgs) [])
      (packagesLoop ord2 fileSet (ord2.visit pkgs) []) := by
  have hso : ∀ e ∈ pkgs,
      SameOutcome (checkPackage ord1 e.2 fileSet) (checkPackage ord2 e.2 fileSet) :=
    fun e he => checkPackage_order ord1 ord2 e.2 fileSet (hP e he).1 (hP e he).2.1 (hP e he).2.2
  have hpf : ∀ e ∈ pkgs, ∀ r,
      r ∈ pkgFindings ord1 fileSet e.2 ↔ r ∈ pkgFindings ord2 fileSet e.2 :=
    fun e he => pkgFindings_order ord1 ord2 e.2 fileSet (hP e he).1 (hP e he).2.1 (hP e he).2.2
  by_cases hall : ∀ e ∈ pkgs, (checkPackage ord1 e.2 fileSet).isOk = true
  · have hall2 : ∀ e ∈ pkgs, (checkPackage ord2 e.2 fileSet).isOk = true := by
      intro e he
      rw [← (hso e he).isOk_eq]
      exact hall e he
    rw [packagesLoop_eq ord1 fileSet _ []
        (fun e he => hall e ((ord1.visit_perm _).mem_iff.1 he)),
      packagesLoop_eq ord2 fileSet _ []
        (fun e he => hall2 e ((ord2.visit_perm _).mem_iff.1 he))]
    refine ⟨rfl, rfl, ?_⟩
    intro r
    simp only [List.nil_append, Option.getD_some, List.mem_flatMap]
    constructor
    · rintro ⟨e, he, hr⟩
      have hmem := (ord1.visit_perm _).mem_iff.1 he
      exact ⟨e, (ord2.visit_perm _).mem_iff.2 hmem, (hpf e hmem r).1 hr⟩
    · rintro ⟨e, he, hr⟩
      have hmem := (ord2.visit_perm _).mem_iff.1 he
      exact ⟨e, (ord1.visit_perm _).mem_iff.2 hmem, (hpf e hmem r).2 hr⟩
  · simp only [not_forall, Bool.not_eq_true] at hall
    obtain ⟨e, he, hbad⟩ := hall
    have hbad2 : (checkPackage ord2 e.2 fileSet).isOk = false := by
      rw [← (hso e he).isOk_eq]
      exact hbad
    rw [packagesLoop_panic ord1 fileSet _ []
        (fun x hx => (hP x ((ord1.visit_perm _).mem_iff.1 hx)).2.2)
        ⟨e, (ord1.visit_perm _).mem_iff.2 he, hbad⟩,
      packagesLoop_panic ord2 fileSet _ []
        (fun x hx => (hP x ((ord2.visit_perm _).mem_iff.1 hx)).2.2)
        ⟨e, (ord2.visit_perm _).mem_iff.2 he, hbad2⟩]
    rfl

theorem addFile_files_nodup (pkgs : GoMap String Package) (filename : Path) (src : File)
    (hg : ∀ e ∈ pkgs, e.2.Files.keys.Nodup) :
    ∀ e ∈ addFile pkgs filename src, e.2.Files.keys.Nodup := by
  unfold addFile
  intro e he
  rcases (GoMap.mem_insert _ _ _ e).1 he with ⟨h1, -⟩ | rfl
  · exact hg e h1
  · cases hl : pkgs.lookup src.Name with
    | none =>
      apply GoMap.keys_insert_nodup
      simp [GoMap.keys]
    | some pkg =>
      apply GoMap.keys_insert_nodup
      exact hg _ (GoMap.lookup_mem_key pkgs src.Name pkg hl)

theorem parseDirLoop_files_nodup (path : Path) :
    ∀ (es : List FsEntry) (pkgs : GoMap String Package) (first : Option GoError)
      (pkgs1 : GoMap String Package) (first1 : Option GoError),
      (∀ e ∈ pkgs, e.2.Files.keys.Nodup) →
        parseDirLoop path es pkgs first = (some pkgs1, first1) →
          ∀ e ∈ pkgs1, e.2.Files.keys.Nodup
  | [], pkgs, first, pkgs1, first1, hg, h => by
    simp only [parseDirLoop, Prod.mk.injEq, Option.some.injEq] at h
    rw [← h.1]
    exact hg
  | d :: rest, pkgs, first, pkgs1, first1, hg, h => by
    have ih := parseDirLoop_files_nodup path rest
    simp only [parseDirLoop] at h
    split at h
    · exact ih _ _ _ _ hg h
    · cases d with
      | broken name isDir err => simp at h
      | dir name readErr entries => exact ih _ _ _ _ hg h
      | file name content =>
        simp only at h
        split at h
        · exact ih _ _ _ _ hg h
        · cases hpf : parseFile (path ++ [name]) content with
          | error e =>
            simp only [hpf] at h
            exact ih _ _ _ _ hg h
          | ok src =>
            simp only [hpf] at h
            exact ih _ _ _ _ (addFile_files_nodup pkgs _ src hg) h

/-- The files of a package built by `parser.ParseDir` are keyed by distinct
paths. -/
theorem dirPackages_files_nodup (path : Path) (d : FsEntry) :
    ∀ k ∈ dirPackages (path, d), k.2.Files.keys.Nodup := by
  unfold dirPackages
  cases hpd : parseDir path d with
  | mk pkgs perr =>
    cases pkgs with
    | none => simp
    | some ps =>
      simp only [Option.getD_some]
      cases d with
      | file name content => simp [parseDir] at hpd
      | broken name isDir err => simp [parseDir] at hpd
      | dir name readErr entries =>
        cases readErr with
        | some e => simp [parseDir] at hpd
        | none =>
          simp only [parseDir] at hpd
          exact parseDirLoop_files_nodup path entries [] none ps perr (by simp) hpd

/-- The outcome of the scan of a directory does not depend on the order of the
iterations, when no package of the directory declares a name that goes to a
table in two files and every test function has a body. -/
theorem checkDirectory_order (ord1 ord2 : RangeOrder) (path : Path) (d : FsEntry)
    (hP : ∀ k ∈ dirPackages (path, d), OneFilePerName k.2 ∧ TestsHaveBodies k.2) :
    SameOutcome (checkDirectory ord1 path d) (checkDirectory ord2 path d) := by
  have hn := dirPackages_files_nodup path d
  unfold dirPackages at hP hn
  unfold checkDirectory
  cases hpd : parseDir path d with
  | mk pkgs perr =>
    rw [hpd] at hP hn
    cases perr with
    | some err => simp [SameOutcome]
    | none =>
      simp only
      apply packagesLoop_order
      intro e he
      exact ⟨hn e he, hP e he⟩

theorem SameWalk.ok (a b : List CheckerResult) (e : Option WalkError)
    (h : ∀ x, x ∈ a ↔ x ∈ b) : SameWalk (.ok (a, e)) (.ok (b, e)) :=
  ⟨rfl, h⟩

mutual
theorem walk_same (ord1 ord2 : RangeOrder) :
    ∀ (e : FsEntry) (path : Path) (s1 s2 : List CheckerResult),
      (∀ x, x ∈ s1 ↔ x ∈ s2) →
        EveryPackage (fun p => OneFilePerName p ∧ TestsHaveBodies p) (scannedDirs path e) →
          SameWalk (walk (checkWalkFn ord1) path e s1) (walk (checkWalkFn ord2) path e s2)
  | .file name content, path, s1, s2, hs, _ => by
    simp only [walk, checkWalkFn, FsEntry.isDir, Bool.not_false, if_true]
    exact SameWalk.ok _ _ _ hs
  | .broken name isDir err, path, s1, s2, hs, _ => by
    simp only [walk, checkWalkFn]
    exact SameWalk.ok _ _ _ hs
  | .dir name (some err) entries, path, s1, s2, hs, _ => by
    simp only [walk, checkWalkFn, Option.map_some', Option.isSome_some, Bool.true_or, if_true]
    exact SameWalk.ok _ _ _ hs
  | .dir name none entries, path, s1, s2, hs, hone => by
    have hl := walkEntries_same ord1 ord2 entries path
    cases hv : hasPrefix name "."
    · have hhead : (path, FsEntry.dir name none entries) ∈
          scannedDirs path (.dir name none entries) := by simp [scannedDirs, hv]
      have hcd := checkDirectory_order ord1 ord2 path (.dir name none entries)
        (hone _ hhead)
      have htail : EveryPackage (fun p => OneFilePerName p ∧ TestsHaveBodies p)
          (scannedDirsList path entries) := by
        intro pd hpd
        exact hone pd (by simp [scannedDirs, hv, hpd])
      rw [walk_readable, walk_readable, checkWalkFn_visible ord1 path name entries s1 hv,
        checkWalkFn_visible ord2 path name entries s2 hv]
      cases h1 : checkDirectory ord1 path (.dir name none entries) with
      | error p =>
        cases h2 : checkDirectory ord2 path (.dir name none entries) with
        | error q =>
          simp only [h1, h2, SameOutcome] at hcd
          simp only [SameWalk]
          exact hcd
        | ok b => simp [h1, h2, SameOutcome] at hcd
      | ok a =>
        cases h2 : checkDirectory ord2 path (.dir name none entries) with
        | error q => simp [h1, h2, SameOutcome] at hcd
        | ok b =>
          obtain ⟨r1, e1⟩ := a
          obtain ⟨r2, e2⟩ := b
          simp only [h1, h2, SameOutcome] at hcd
          obtain ⟨he, -, hm⟩ := hcd
          subst he
          cases e1 with
          | some err =>
            simp only [Option.isSome_none, Option.isSome_some, Bool.or_true, if_true]
            exact SameWalk.ok _ _ _ hs
          | none =>
            simp only [Option.isSome_none, Bool.or_self, Bool.false_eq_true, if_false]
            apply hl _ _ _ htail
            intro x
            simp only [List.mem_append]
            rw [hs x, hm x]
    · rw [walk_readable, walk_readable, checkWalkFn_hidden ord1 path name entries s1 hv,
        checkWalkFn_hidden ord2 path name entries s2 hv]
      simp only [Option.isSome_none, Option.isSome_some, Bool.or_true, if_true]
      exact SameWalk.ok _ _ _ hs
termination_by structural e => e
theorem walkEntries_same (ord1 ord2 : RangeOrder) :
    ∀ (es : List FsEntry) (path : Path) (s1 s2 : List CheckerResult),
      (∀ x, x ∈ s1 ↔ x ∈ s2) →
        EveryPackage (fun p => OneFilePerName p ∧ TestsHaveBodies p)
            (scannedDirsList path es) →
          SameWalk (walkEntries (checkWalkFn ord1) path es s1)
            (walkEntries (checkWalkFn ord2) path es s2)
  | [], path, s1, s2, hs, _ => by
    simp only [walkEntries]
    exact SameWalk.ok _ _ _ hs
  | e :: rest, path, s1, s2, hs, hone => by
    have hhead : EveryPackage (fun p => OneFilePerName p ∧ TestsHaveBodies p)
        (scannedDirs (path ++ [e.name]) e) := by
      intro pd hpd
      exact hone pd (by simp [scannedDirsList, hpd])
    have htail : EveryPackage (fun p => OneFilePerName p ∧ TestsHaveBodies p)
        (scannedDirsList path rest) := by
      intro pd hpd
      exact hone pd (by simp [scannedDirsList, hpd])
    have he := walk_same ord1 ord2 e (path ++ [e.name]) s1 s2 hs hhead
    have hr := fun a b hab => walkEntries_same ord1 ord2 rest path a b hab htail
    rw [walkEntries, walkEntries]
    cases h1 : walk (checkWalkFn ord1) (path ++ [e.name]) e s1 with
    | error p =>
      cases h2 : walk (checkWalkFn ord2) (path ++ [e.name]) e s2 with
      | error q =>
        simp only [h1, h2, SameWalk] at he
        simp only [SameWalk]
        exact he
      | ok b => simp [h1, h2, SameWalk] at he
    | ok a =>
      cases h2 : walk (checkWalkFn ord2) (path ++ [e.name]) e s2 with
      | error q => simp [h1, h2, SameWalk] at he
      | ok b =>
        obtain ⟨a1, e1⟩ := a
        obtain ⟨b1, e2⟩ := b
        simp only [h1, h2, SameWalk] at he
        obtain ⟨heq, hm⟩ := he
        subst heq
        cases e1 with
        | none => exact hr a1 b1 hm
        | some we =>
          cases e with
          | broken name isDir err =>
            simp only
            split
            · exact SameWalk.ok _ _ _ hm
            · exact hr a1 b1 hm
          | file name content =>
            simp only
            split
            · exact SameWalk.ok _ _ _ hm
            · exact hr a1 b1 hm
          | dir name readErr entries =>
            simp only
            split
            · exact SameWalk.ok _ _ _ hm
            · exact hr a1 b1 hm
termination_by structural es => es
end

/-- Counterexample to C11: the files `add_linux.go` and `add_windows.go` of one
package both declare `Add`.  Visiting the files in one order the only Finding
stands at `add_windows.go:5`, visiting them in the other order it stands at
`add_linux.go:3`: the two runs do not yield the same set of Findings. -/
theorem C11_counterexample_name_declared_in_two_files :
    Check RangeOrder.stored ["proj"] treeAddPerPlatform =
        .ok (some [⟨["proj", "add_windows.go"], 5, 1, untestedMessage "Add"⟩], none) ∧
      Check RangeOrder.reversed ["proj"] treeAddPerPlatform =
        .ok (some [⟨["proj", "add_linux.go"], 3, 1, untestedMessage "Add"⟩], none) ∧
      (⟨["proj", "add_windows.go"], 5, 1, untestedMessage "Add"⟩ : CheckerResult) ∉
        [(⟨["proj", "add_linux.go"], 3, 1, untestedMessage "Add"⟩ : CheckerResult)] := by
  refine ⟨by decide, by decide, by decide⟩

/-- C11 as amended: on a tree in which no package of a scanned directory declares
the name of a test function or of a candidate in two different files, and in
which every test function has a body, two runs of `Check` agree whatever the
orders in which the maps are iterated: they panic alike, or return the same
error, a result list in both or in neither, and the same set of Findings. -/
theorem C11_same_findings_in_every_order (ord1 ord2 : RangeOrder) (dn : Path)
    (root : FsEntry) (hone : EveryPackage OneFilePerName (scannedDirs dn root))
    (hbody : EveryPackage TestsHaveBodies (scannedDirs dn root)) :
    SameOutcome (Check ord1 dn root) (Check ord2 dn root) := by
  have hw := walk_same ord1 ord2 root dn [] [] (fun _ => Iff.rfl)
    (fun pd hpd k hk => ⟨hone pd hpd k hk, hbody pd hpd k hk⟩)
  unfold Check filepathWalk
  cases h1 : walk (checkWalkFn ord1) dn root [] with
  | error p =>
    cases h2 : walk (checkWalkFn ord2) dn root [] with
    | error q =>
      simp only [h1, h2, SameWalk] at hw
      simp only [SameOutcome]
      exact hw
    | ok b => simp [h1, h2, SameWalk] at hw
  | ok a =>
    cases h2 : walk (checkWalkFn ord2) dn root [] with
    | error q => simp [h1, h2, SameWalk] at hw
    | ok b =>
      obtain ⟨a1, e1⟩ := a
      obtain ⟨b1, e2⟩ := b
      simp only [h1, h2, SameWalk] at hw
      obtain ⟨heq, hm⟩ := hw
      subst heq
      cases e1 with
      | none => exact ⟨rfl, rfl, hm⟩
      | some we =>
        cases we with
        | skipDir => exact ⟨rfl, rfl, hm⟩
        | failed err => exact ⟨rfl, rfl, fun x => Iff.rfl⟩

/-- Witness of amended C11: the directory `proj` holds the packages `calc`, of
three files with five table names, two of which declare `init`, and
`calc_test`; `proj/sub` holds one more package.  The run in the stored order
reports `Sub`, `Mul`, `Reset`, `Fixture`, `Neg`, the run in the reversed order
reports `Fixture`, `Mul`, `Sub`, `Reset`, `Neg`: the lists differ, the sets of
Findings agree. -/
theorem C11_witness_three_files :
    EveryPackage OneFilePerName (scannedDirs ["proj"] treeCalc) ∧
      EveryPackage TestsHaveBodies (scannedDirs ["proj"] treeCalc) ∧
      Check RangeOrder.stored ["proj"] treeCalc =
        .ok (some [⟨["proj", "calc.go"], 7, 1, untestedMessage "Sub"⟩,
          ⟨["proj", "calc.go"], 9, 1, untestedMessage "Mul"⟩,
          ⟨["proj", "setup.go"], 5, 1, untestedMessage "Reset"⟩,
          ⟨["proj", "export_test.go"], 3, 1, untestedMessage "Fixture"⟩,
          ⟨["proj", "sub", "neg.go"], 3, 1, untestedMessage "Neg"⟩], none) ∧
      Check RangeOrder.reversed ["proj"] treeCalc =
        .ok (some [⟨["proj", "export_test.go"], 3, 1, untestedMessage "Fixture"⟩,
          ⟨["proj", "calc.go"], 9, 1, untestedMessage "Mul"⟩,
          ⟨["proj", "calc.go"], 7, 1, untestedMessage "Sub"⟩,
          ⟨["proj", "setup.go"], 5, 1, untestedMessage "Reset"⟩,
          ⟨["proj", "sub", "neg.go"], 3, 1, untestedMessage "Neg"⟩], none) ∧
      SameOutcome (Check RangeOrder.stored ["proj"] treeCalc)
        (Check RangeOrder.reversed ["proj"] treeCalc) :=
  have hone : EveryPackage OneFilePerName (scannedDirs ["proj"] treeCalc) := by
    unfold EveryPackage
    decide
  have hbody : EveryPackage TestsHaveBodies (scannedDirs ["proj"] treeCalc) := by
    unfold EveryPackage
    decide
  ⟨hone, hbody, by decide, by decide,
    C11_same_findings_in_every_order RangeOrder.stored RangeOrder.reversed ["proj"] treeCalc
      hone hbody⟩


end Checktest
